import Mathlib

/-!
# Downloads organizer: classification, planning, execution

A shallow embedding of `RuleEngine.cpp`, `utils.hpp`, `types.hpp`, the sort of
`IOManager::load_config` and the worker loop of `UI::execute_plan`.

Conventions of the embedding.

* A `std::string` is a Lean `String`; one `Char` stands for one code unit.
* A `std::filesystem::path` is its native string (`Path.native`), read with the
  POSIX generic format: `/` is the only separator and there is no root name.
  `operator==` on paths is `Path.equal` (element-wise comparison), not
  equality of the native strings.
* The file system is a finite tree (`Node`); paths are located in it from the
  root directory or from the working directory, `.` and `..` being resolved
  lexically.  There are no symbolic links.
* `int` counters are natural numbers: none of them can reach `INT_MAX`
  without as many directory entries.
* Logging has no effect on any result and is left out.
-/

namespace Organizer

/-! ## `utils.hpp`: strings -/

/-- The function `string_to_lower_ascii`: the letters `A`..`Z` are shifted by
`'a' - 'A'`, every other code unit is kept. -/
def string_to_lower_ascii (sv : String) : String :=
  ⟨sv.data.map fun c => if 'A' ≤ c ∧ c ≤ 'Z' then Char.ofNat (c.toNat + ('a'.toNat - 'A'.toNat)) else c⟩

/-- Whether `needle` starts the character list `hay`. -/
def starts_with : List Char → List Char → Bool
  | _, [] => true
  | [], _ :: _ => false
  | h :: hay, n :: needle => h = n && starts_with hay needle

/-- The call `std::string::find(needle)` on the characters from position `pos` on:
the first position at which `needle` occurs, `none` for `npos`. -/
def find_from (needle : List Char) : List Char → Nat → Option Nat
  | [], pos => if needle = [] then some pos else none
  | c :: cs, pos => if starts_with (c :: cs) needle then some pos else find_from needle cs (pos + 1)

/-- The call `std::string::find(needle)`. -/
def string_find (s needle : String) : Option Nat :=
  find_from needle.data s.data 0

/-- The call `std::string::replace(pos, len, by)`. -/
def string_replace (s : String) (pos len : Nat) (by_ : String) : String :=
  ⟨s.data.take pos ++ by_.data ++ s.data.drop (pos + len)⟩

/-- The call `std::string::substr(pos, len)`. -/
def string_substr (s : String) (pos len : Nat) : String :=
  ⟨(s.data.drop pos).take len⟩

/-- Formatting of a non-negative `int` by `std::format("{}", n)`: its decimal digits. -/
def format_int (n : Nat) : String :=
  ⟨Nat.toDigits 10 n⟩

/-- The number a list of decimal digit characters stands for. -/
def digits_value (l : List Char) : Nat :=
  l.foldl (fun acc c => 10 * acc + (c.toNat - 48)) 0

/-! ## `std::filesystem::path` -/

/-- A `std::filesystem::path`, held as its native string. -/
structure Path where
  native : String
deriving DecidableEq

/-- A character put in front of the first piece of a list of pieces. -/
def prepend_char (c : Char) : List (List Char) → List (List Char)
  | [] => [[c]]
  | piece :: rest => (c :: piece) :: rest

/-- The pieces of a native path string between separators: `a//b/` gives
`a`, the empty piece, `b`, the empty piece. -/
def split_separators : List Char → List (List Char)
  | [] => [[]]
  | c :: cs =>
    if c = '/' then [] :: split_separators cs
    else prepend_char c (split_separators cs)

/-- The pieces of `p ++ q` from the pieces of `p` and the pieces of `q`: the last piece of
the one and the first piece of the other are one piece. -/
def join_pieces : List (List Char) → List (List Char) → List (List Char)
  | [], ys => ys
  | [x], [] => [x]
  | [x], hd :: tl => (x ++ hd) :: tl
  | x :: y :: rest, ys => x :: join_pieces (y :: rest) ys

/-- The member `has_root_directory`. -/
def Path.has_root_directory (p : Path) : Bool :=
  p.native.data.head? = some '/'

/-- The last piece of a list of pieces. -/
def last_piece : List (List Char) → List Char
  | [] => []
  | [piece] => piece
  | _ :: rest => last_piece rest

/-- The elements of the relative part of a path, as path iteration yields them:
the non-empty pieces, followed by one empty element when the path ends in a
separator after at least one non-empty piece. -/
def Path.elements (p : Path) : List String :=
  let pieces := split_separators p.native.data
  let names := pieces.filter fun piece => piece ≠ []
  (names ++ (if names ≠ [] ∧ last_piece pieces = [] then [[]] else [])).map String.mk

/-- The comparison `operator==` of two paths: same root directory and same elements. -/
def Path.equal (p q : Path) : Bool :=
  p.has_root_directory = q.has_root_directory && p.elements = q.elements

/-- The member `filename`: what follows the last separator. -/
def Path.filename (p : Path) : Path :=
  ⟨⟨last_piece (split_separators p.native.data)⟩⟩

/-- Removes the separators at the end of a reversed character list. -/
def drop_separators : List Char → List Char
  | [] => []
  | c :: cs => if c = '/' then drop_separators cs else c :: cs

/-- Removes the last piece from a reversed character list, up to the last separator. -/
def drop_last_piece : List Char → List Char
  | [] => []
  | c :: cs => if c = '/' then c :: cs else drop_last_piece cs

/-- The member `parent_path`: the path without its last element; the root directory
and the empty path are their own parents. -/
def Path.parent_path (p : Path) : Path :=
  let front := (drop_separators (drop_last_piece p.native.data.reverse)).reverse
  if front = [] ∧ p.has_root_directory then ⟨"/"⟩ else ⟨⟨front⟩⟩

/-- The position of the last period of a file name: the characters before it
and the characters from it on. -/
def split_last_period : List Char → Option (List Char × List Char)
  | [] => none
  | c :: cs =>
    match split_last_period cs with
    | some (front, back) => some (c :: front, back)
    | none => if c = '.' then some ([], c :: cs) else none

/-- The extension of a file name: from the last period on, unless the name is
`.` or `..` or its only period is its first character. -/
def extension_of (name : List Char) : List Char :=
  if name = ['.'] ∨ name = ['.', '.'] then []
  else
    match split_last_period name with
    | some (front, back) => if front = [] then [] else back
    | none => []

/-- The member `extension`. -/
def Path.extension (p : Path) : Path :=
  ⟨⟨extension_of p.filename.native.data⟩⟩

/-- The member `stem`: the file name without its extension. -/
def Path.stem (p : Path) : Path :=
  let name := p.filename.native.data
  ⟨⟨name.take (name.length - (extension_of name).length)⟩⟩

/-- The operator `operator/`: an absolute right operand replaces the path; otherwise
a separator is added after a file name and the right operand is appended. -/
def Path.append (p q : Path) : Path :=
  if q.has_root_directory then q
  else if p.filename.native.data ≠ [] then ⟨⟨p.native.data ++ '/' :: q.native.data⟩⟩
  else ⟨⟨p.native.data ++ q.native.data⟩⟩

instance : HDiv Path Path Path := ⟨Path.append⟩

instance : Coe String Path := ⟨Path.mk⟩

/-- The function `safe_path_to_string`: the UTF-8 native string of a path. -/
def safe_path_to_string (p : Path) : String :=
  p.native

/-! ## The type `double` -/

/-- A finite value of the type `double`: the number `significand * 2 ^ exponent`.  Every
finite binary64 value has this form with `|significand| < 2 ^ 53` and
`-1074 ≤ exponent ≤ 971`.  The two zeros are one number here, as they are for every
comparison; infinities and NaN are not values of this type. -/
structure Double where
  significand : Int
  exponent : Int
deriving DecidableEq

/-- The rational number a `double` stands for. -/
def Double.value (x : Double) : ℚ :=
  x.significand * (2 : ℚ) ^ x.exponent

/-- The comparison `x >= y` of two values of type `double`: both significands are brought
to the smaller of the two exponents and compared as integers. -/
def Double.ge (x y : Double) : Bool :=
  let e := min x.exponent y.exponent
  decide (y.significand * ((2 ^ (y.exponent - e).toNat : Nat) : Int) ≤
    x.significand * ((2 ^ (x.exponent - e).toNat : Nat) : Int))

/-- The number of binary digits of `n`, computed with `fuel` halvings allowed. -/
def bit_length_loop : Nat → Nat → Nat
  | 0, _ => 0
  | fuel + 1, n => if n = 0 then 0 else bit_length_loop fuel (n / 2) + 1

/-- The number of binary digits of `n`. -/
def bit_length (n : Nat) : Nat :=
  bit_length_loop n n

/-- The integer nearest to `num / den`, the even one of the two when both are equally
near: the rounding of the default floating-point environment. -/
def round_half_even (num den : Nat) : Nat :=
  let q := num / den
  let r := num % den
  if 2 * r < den then q
  else if den < 2 * r then q + 1
  else if q % 2 = 0 then q else q + 1

/-- The expression `static_cast<double>(category_total) / total` of line 248 for two
counts, `total` positive.  The conversions of the two `int` counts are exact.  The division
gives the `double` nearest to the exact quotient: the quotient is scaled by a power of two
to lie between `2 ^ 52` and `2 ^ 53`, which leaves 53 significant binary digits before the
point, and is rounded to an integer there.  The quotient of two positive `int` values lies
between `2 ^ (-31)` and `2 ^ 31`, so neither overflow nor underflow occurs. -/
def counts_quotient (category_total total : Nat) : Double :=
  if category_total = 0 then ⟨0, 0⟩
  else
    let up := 53 + bit_length total - bit_length category_total
    let down := bit_length category_total - (53 + bit_length total)
    let num := category_total * 2 ^ up
    let den := total * 2 ^ down
    if num < 2 ^ 53 * den then ⟨round_half_even num den, (down : Int) - up⟩
    else ⟨round_half_even num (2 * den), (down : Int) - up + 1⟩

/-! ## `types.hpp` -/

/-- The type of the member `double threshold`. -/
abbrev Threshold := Double

/-- The default member initializer `threshold = 0.0`. -/
def Threshold.zero : Threshold :=
  ⟨0, 0⟩

/-- The struct `Condition`. -/
structure Condition where
  type : String
  values : List String := []
  threshold : Threshold := Threshold.zero

/-- The struct `Rule`. -/
structure Rule where
  category : String
  priority : Int
  conditions : List Condition

/-- An `unordered_map<string, string>` or `unordered_map<string, int>`, held as an
association list in which the first pair of a key is the one in the map. -/
abbrev StringMap (β : Type) := List (String × β)

/-- The member `find`: the value stored under a key. -/
def StringMap.find {β : Type} : StringMap β → String → Option β
  | [], _ => none
  | (k, v) :: rest, key => if k = key then some v else StringMap.find rest key

/-- The pairs a range-for over the map visits: one pair for each key. -/
def StringMap.items {β : Type} : StringMap β → List (String × β)
  | [] => []
  | (k, v) :: rest => (k, v) :: (StringMap.items rest).filter fun kv => kv.1 ≠ k

/-- The struct `Config`. -/
structure Config where
  categories : StringMap String := []
  rules : List Rule := []

/-- The enum `ActionType`. -/
inductive ActionType where
  | MOVE
deriving DecidableEq

/-- The struct `JournalEntry`. -/
structure JournalEntry where
  action : ActionType
  from_ : Path
  to_ : Path
deriving DecidableEq

/-- The struct `Action`. -/
structure Action where
  from_ : Path
  to_ : Path
  reason : String
deriving DecidableEq

/-! ## The file system -/

/-- An entry of the file system: a regular file with the text of its
`Exif.Photo.DateTimeOriginal` datum when the metadata can be read and has one, or a
directory with its entries in iteration order and whether it may be listed. -/
inductive Node where
  | file (exif : Option String)
  | dir (readable : Bool) (children : List (String × Node))

/-- The entry called `name` among the children of a directory. -/
def find_child (name : String) : List (String × Node) → Option Node
  | [] => none
  | (n, child) :: rest => if n = name then some child else find_child name rest

/-- The node reached from `n` along the names `loc`. -/
def Node.lookup (n : Node) : List String → Option Node
  | [] => some n
  | name :: rest =>
    match n with
    | .file _ => none
    | .dir _ children =>
      match find_child name children with
      | some child => child.lookup rest
      | none => none

/-- A file system: its root node and the working directory relative paths start from. -/
structure FileSystem where
  root : Node
  cwd : List String := []

/-- Lexical resolution of a list of names from the location `base`: empty names and `.`
are skipped, `..` goes one level up.  The names passed on the way are not looked up: a
`..` or a separator that follows the name of a regular file or of a missing entry resolves
here, where the operating system reports an error. -/
def resolve_names : List String → List String → List String
  | base, [] => base
  | base, name :: rest =>
    if name = "" ∨ name = "." then resolve_names base rest
    else if name = ".." then resolve_names base.dropLast rest
    else resolve_names (base ++ [name]) rest

/-- The location a path denotes: its names resolved from the root directory when it has
one, from the working directory otherwise. -/
def FileSystem.locate (fs : FileSystem) (p : Path) : List String :=
  resolve_names (if p.has_root_directory then [] else fs.cwd)
    ((split_separators p.native.data).map String.mk)

/-- The call `fs::status`: the node a path denotes; the empty path denotes nothing. -/
def FileSystem.status (fs : FileSystem) (p : Path) : Option Node :=
  if p.native.data = [] then none else fs.root.lookup (fs.locate p)

/-- The call `fs::exists`. -/
def FileSystem.exists_ (fs : FileSystem) (p : Path) : Bool :=
  (fs.status p).isSome

/-- The call `fs::is_regular_file`. -/
def FileSystem.is_regular_file (fs : FileSystem) (p : Path) : Bool :=
  match fs.status p with
  | some (.file _) => true
  | _ => false

/-- The call `fs::is_directory`. -/
def FileSystem.is_directory (fs : FileSystem) (p : Path) : Bool :=
  match fs.status p with
  | some (.dir _ _) => true
  | _ => false

/-- A `fs::directory_entry`: the path of the entry and its node. -/
structure DirectoryEntry where
  path : Path
  node : Node

/-- The member `is_directory` of a directory entry. -/
def DirectoryEntry.is_directory (e : DirectoryEntry) : Bool :=
  match e.node with
  | .dir _ _ => true
  | .file _ => false

/-- The member `is_regular_file` of a directory entry. -/
def DirectoryEntry.is_regular_file (e : DirectoryEntry) : Bool :=
  match e.node with
  | .file _ => true
  | .dir _ _ => false

/-- The range `fs::directory_iterator(p)`: the entries of the directory `p`, each with the
path `p / name`; `none` stands for the `filesystem_error` thrown when `p` is not a
directory that may be listed. -/
def FileSystem.directory_iterator (fs : FileSystem) (p : Path) : Option (List DirectoryEntry) :=
  match fs.status p with
  | some (.dir true children) =>
    some (children.map fun entry => ⟨p / Path.mk entry.1, entry.2⟩)
  | _ => none

/-! ## `RuleEngine.cpp`: classification of one entry -/

/-- The class `RuleEngine`: a reference to the configuration. -/
structure RuleEngine where
  m_config : Config

/-- The local constant `defaultCategory`. -/
def defaultCategory : String := "Other"

/-- The static local `image_extensions`. -/
def image_extensions : List String :=
  [".jpg", ".jpeg", ".png", ".webp", ".tiff", ".raw", ".cr2", ".nef", ".arw", ".dng"]

/-- The method `get_exif_date`: the first ten characters of the
`Exif.Photo.DateTimeOriginal` datum when the image has one of at least that length; every
failure of the metadata library yields no date. -/
def get_exif_date (fs : FileSystem) (path : Path) : Option String :=
  match fs.status path with
  | some (.file (some date_str)) =>
    if date_str.length ≥ 10 then some (string_substr date_str 0 10) else none
  | _ => none

/-- The loop `for (int i = 0; i < 10; ++i)` over pattern and date, from index `i` with
`remaining` iterations to go: the value of `match` when the loop ends. -/
def exif_pattern_loop (pattern exif_date : String) : Nat → Nat → Bool
  | 0, _ => true
  | remaining + 1, i =>
    if pattern.data.getD i '*' ≠ '*' ∧ pattern.data.getD i '*' ≠ exif_date.data.getD i '*' then false
    else exif_pattern_loop pattern exif_date remaining (i + 1)

/-- The test of one `exif_date_matches` pattern against a capture date (the value of
`match` at line 158). -/
def exif_date_matches (pattern exif_date : String) : Bool :=
  if pattern.length = 10 ∧ exif_date.length = 10 then exif_pattern_loop pattern exif_date 10 0
  else false

/-- The assignment to `categoryName` on a match: the category of the rule, in which the
occurrence of the year token that `find` reports is replaced by the first four
characters of the date. -/
def substitute_exif_year (category exif_date : String) : String :=
  let year := string_substr exif_date 0 4
  match string_find category "{exif_year}" with
  | some pos => string_replace category pos 11 year
  | none => category

/-- The inner loop over the conditions of one rule for an image with a capture date: the
value of `categoryName` when the loop ends. -/
def exif_conditions_loop (rule : Rule) (exif_date : String) : List Condition → String → String
  | [], categoryName => categoryName
  | cond :: rest, categoryName =>
    if cond.type = "exif_date_matches" then
      match cond.values with
      | [] => exif_conditions_loop rule exif_date rest categoryName
      | pattern :: _ =>
        if exif_date_matches pattern exif_date then substitute_exif_year rule.category exif_date
        else exif_conditions_loop rule exif_date rest categoryName
    else exif_conditions_loop rule exif_date rest categoryName

/-- The outer loop over the rules for an image with a capture date: the value of
`categoryName` when the loop ends. -/
def exif_rules_loop (exif_date : String) : List Rule → String → String
  | [], categoryName => categoryName
  | rule :: rest, categoryName =>
    let categoryName := exif_conditions_loop rule exif_date rule.conditions categoryName
    if categoryName ≠ "" then categoryName else exif_rules_loop exif_date rest categoryName

/-- The branch of `generate_action_for_path` for a regular file: the value of
`categoryName` at line 179. -/
def classify_regular_file (self : RuleEngine) (fs : FileSystem) (path : Path) : String :=
  let ext := safe_path_to_string path.extension
  let ext_lower := string_to_lower_ascii ext
  let is_image := image_extensions.any fun img_ext => ext_lower = img_ext
  let exif_date := if is_image then get_exif_date fs path else none
  let categoryName :=
    match exif_date with
    | some date => exif_rules_loop date self.m_config.rules ""
    | none => ""
  if categoryName = "" then
    match self.m_config.categories.find ext_lower with
    | some category => category
    | none => defaultCategory
  else categoryName

/-- The three facts collected about a directory. -/
structure DirectoryFacts where
  filenames : List String := []
  subdir_names : List String := []
  category_counts : StringMap Nat := []
deriving DecidableEq

/-- The statement `category_counts[key]++`. -/
def StringMap.increment : StringMap Nat → String → StringMap Nat
  | [], key => [(key, 1)]
  | (k, n) :: rest, key =>
    if k = key then (k, n + 1) :: rest else (k, n) :: StringMap.increment rest key

/-- The loop over the entries of `path_to_analyze` that fills `filenames`, `subdir_names`
and `category_counts`. -/
def collect_facts (categories : StringMap String) : List DirectoryEntry → DirectoryFacts → DirectoryFacts
  | [], facts => facts
  | entry :: rest, facts =>
    if entry.is_directory then
      collect_facts categories rest
        ⟨facts.filenames, facts.subdir_names ++ [safe_path_to_string entry.path.filename],
          facts.category_counts⟩
    else if entry.is_regular_file then
      let ext := string_to_lower_ascii (safe_path_to_string entry.path.extension)
      collect_facts categories rest
        ⟨facts.filenames ++ [safe_path_to_string entry.path.filename], facts.subdir_names,
          match categories.find ext with
          | some category => facts.category_counts.increment category
          | none => facts.category_counts⟩
    else collect_facts categories rest facts

/-- An inner loop `for (f : names) if (test f) { condition_met = true; break; }`. -/
def names_loop (test : String → Bool) : List String → Bool → Bool
  | [], condition_met => condition_met
  | f :: rest, condition_met => if test f then true else names_loop test rest condition_met

/-- An outer loop `for (v : values) for (f : names) ...` around `names_loop`. -/
def values_loop (test : String → String → Bool) (names : List String) : List String → Bool → Bool
  | [], condition_met => condition_met
  | v :: rest, condition_met => values_loop test names rest (names_loop (test v) names condition_met)

/-- The loop over the subdirectory names of the `subfolder_matches_archive` condition. -/
def archive_loop (filenames : List String) : List String → Bool → Bool
  | [], condition_met => condition_met
  | subdir_name :: rest, condition_met =>
    let lower_subdir_name := string_to_lower_ascii subdir_name
    let condition_met :=
      names_loop
        (fun filename =>
          string_to_lower_ascii filename = lower_subdir_name ++ ".zip" ∨
          string_to_lower_ascii filename = lower_subdir_name ++ ".rar" ∨
          string_to_lower_ascii filename = lower_subdir_name ++ ".7z")
        filenames condition_met
    if condition_met then condition_met else archive_loop filenames rest condition_met

/-- The loop `for (pair : category_counts) total += pair.second`. -/
def counts_total : StringMap Nat → Nat → Nat
  | [], total => total
  | pair :: rest, total => counts_total rest (total + pair.2)

/-- The loop over the listed category names that adds up `category_total`. -/
def listed_total (category_counts : StringMap Nat) : List String → Nat → Nat
  | [], category_total => category_total
  | cat_name :: rest, category_total =>
    match category_counts.find cat_name with
    | some count => listed_total category_counts rest (category_total + count)
    | none => listed_total category_counts rest category_total

/-- The value of `condition_met` for one condition on the facts of a directory. -/
def condition_met (facts : DirectoryFacts) (cond : Condition) : Bool :=
  if cond.type = "contains_filename_pattern" then
    values_loop (fun p f => string_to_lower_ascii f = string_to_lower_ascii p)
      facts.filenames cond.values false
  else if cond.type = "contains_filename" then
    values_loop (fun f_find f => f = f_find) facts.filenames cond.values false
  else if cond.type = "contains_subdirectory_named" then
    values_loop (fun s_find s => string_to_lower_ascii s = string_to_lower_ascii s_find)
      facts.subdir_names cond.values false
  else if cond.type = "has_no_subdirectories" then
    facts.subdir_names.isEmpty
  else if cond.type = "file_category_percentage" then
    let total := counts_total facts.category_counts.items 0
    let category_total := listed_total facts.category_counts cond.values 0
    decide (total > 0) && (counts_quotient category_total total).ge cond.threshold
  else if cond.type = "subfolder_matches_archive" then
    archive_loop facts.filenames facts.subdir_names false
  else false

/-- The loop over the conditions of one rule: the value of `all_conditions_met`. -/
def all_conditions_met (facts : DirectoryFacts) : List Condition → Bool
  | [] => true
  | cond :: rest => if condition_met facts cond then all_conditions_met facts rest else false

/-- The loop over the rules for a directory: the value of `categoryName` when it ends. -/
def directory_rules_loop (facts : DirectoryFacts) : List Rule → String → String
  | [], categoryName => categoryName
  | rule :: rest, categoryName =>
    if all_conditions_met facts rule.conditions then rule.category
    else directory_rules_loop facts rest categoryName

/-- The test at lines 181-188: the directory is named like a category of the map or like
the default category. -/
def is_category_directory (self : RuleEngine) (path : Path) : Bool :=
  let isCategoryDir := self.m_config.categories.items.any fun pair => path.filename.equal pair.2
  isCategoryDir || path.filename.equal defaultCategory

/-- The choice of `path_to_analyze` at lines 190-198.  `first_entry` is a reference to the
entry held by the iterator `it_check`, and it is read after `++it_check`.  The test
`it_check == fs::directory_iterator{}` holds only when the directory has exactly one entry,
and then the increment has made `it_check` the end iterator, which has cleared and released
its entry: `first_entry.is_directory()` reads an entry without path and without type, which
is not a directory.  The assignment `path_to_analyze = first_entry.path()` is never
reached, and `path_to_analyze` keeps the value `path`. -/
def choose_path_to_analyze (path : Path) (entries : List DirectoryEntry) : Path :=
  match entries with
  | [_] =>
    let first_entry_is_directory := false
    let first_entry_path : Path := ⟨""⟩
    if first_entry_is_directory then first_entry_path else path
  | _ => path

/-- The facts collected at lines 190-212 about a directory: those of the entries of
`path_to_analyze`; `none` when one of the two directory iterators throws. -/
def collected_facts (self : RuleEngine) (fs : FileSystem) (path : Path) : Option DirectoryFacts :=
  match fs.directory_iterator path with
  | none => none
  | some it_check =>
    let path_to_analyze := choose_path_to_analyze path it_check
    match fs.directory_iterator path_to_analyze with
    | none => none
    | some entries => some (collect_facts self.m_config.categories entries ⟨[], [], []⟩)

/-- The branch of `generate_action_for_path` for a directory: `none` when the function
returns early for a category folder or a directory iterator throws, otherwise the value
of `categoryName` at line 276. -/
def classify_directory (self : RuleEngine) (fs : FileSystem) (path : Path) : Option String :=
  if is_category_directory self path then none
  else
    match collected_facts self fs path with
    | none => none
    | some facts => some (directory_rules_loop facts self.m_config.rules "")

/-- The value of `categoryName` at line 278, `none` when control does not get there. -/
def resolve_category (self : RuleEngine) (fs : FileSystem) (path : Path) : Option String :=
  if fs.is_regular_file path then some (classify_regular_file self fs path)
  else if fs.is_directory path then classify_directory self fs path
  else some ""

/-- The method `generate_action_for_path`. -/
def generate_action_for_path (self : RuleEngine) (fs : FileSystem) (path targetDir : Path) :
    Option Action :=
  match resolve_category self fs path with
  | none => none
  | some categoryName =>
    if categoryName ≠ "" then
      let destPath := targetDir / Path.mk categoryName / path.filename
      if !destPath.equal path then some ⟨path, destPath, categoryName⟩ else none
    else none

/-- Whether a rule is selected for a capture date by the loop at lines 141-169: one of
its conditions has the type `exif_date_matches` and a first value that matches the date. -/
def rule_matches_date (rule : Rule) (exif_date : String) : Bool :=
  rule.conditions.any fun cond =>
    cond.type = "exif_date_matches" &&
      match cond.values with
      | pattern :: _ => exif_date_matches pattern exif_date
      | [] => false

/-- Replacement of every occurrence of `token` in a character list by `by_`, read from
left to right; `skip` characters of an occurrence just replaced are still to be passed. -/
def replace_every (token by_ : List Char) : List Char → Nat → List Char
  | [], _ => []
  | _ :: cs, skip + 1 => replace_every token by_ cs skip
  | c :: cs, 0 =>
    if starts_with (c :: cs) token then by_ ++ replace_every token by_ cs (token.length - 1)
    else c :: replace_every token by_ cs 0

/-- The text `s` with every occurrence of `token` replaced by `by_`. -/
def replace_every_occurrence (s token by_ : String) : String :=
  ⟨replace_every token.data by_.data s.data 0⟩

/-! ## `RuleEngine.cpp`: the scan -/

/-- The order in which the concurrent classifications of one chunk push their actions
into `chunk_plan`: for chunk number `k`, some rearrangement of the actions. -/
structure Schedule where
  arrange : Nat → List Action → List Action
  perm : ∀ k actions, (arrange k actions).Perm actions

/-- The schedule in which the entries of a chunk complete in enumeration order. -/
def Schedule.sequential : Schedule :=
  ⟨fun _ actions => actions, fun _ actions => List.Perm.refl actions⟩

/-- The argument `std::optional<std::stop_token>`: when present, the answer of
`stop_requested()` at the check that precedes chunk number `k`. -/
abbrev StopToken := Option (Nat → Bool)

/-- The test `stoken && stoken->stop_requested()` before chunk number `k`. -/
def stop_requested (stoken : StopToken) (k : Nat) : Bool :=
  match stoken with
  | some requested => requested k
  | none => false

/-- The local constant `chunk_size`. -/
def chunk_size : Nat := 128

/-- The loop `for (size_t i = 0; i < paths_to_scan.size(); i += chunk_size)` from index
`i` on, with `fuel` iterations allowed: the value of `result_plan` when it ends. -/
def generate_plan_loop (self : RuleEngine) (fs : FileSystem) (targetDir : Path)
    (schedule : Schedule) (stoken : StopToken) (paths_to_scan : List Path) :
    Nat → Nat → List Action → List Action
  | 0, _, result_plan => result_plan
  | fuel + 1, i, result_plan =>
    if i < paths_to_scan.length then
      if stop_requested stoken (i / chunk_size) then result_plan
      else
        let chunk := (paths_to_scan.drop i).take (min (i + chunk_size) paths_to_scan.length - i)
        let chunk_plan :=
          schedule.arrange (i / chunk_size)
            (chunk.filterMap fun p => generate_action_for_path self fs p targetDir)
        generate_plan_loop self fs targetDir schedule stoken paths_to_scan fuel (i + chunk_size)
          (result_plan ++ chunk_plan)
    else result_plan

/-- The enumeration `fs::directory_iterator(targetDir, skip_permission_denied)` at the head
of `generate_plan`: the paths of the entries, none for a directory that may not be listed;
`none` stands for the `filesystem_error` of any other failure. -/
def enumerate_target (fs : FileSystem) (targetDir : Path) : Option (List Path) :=
  match fs.status targetDir with
  | some (.dir true children) => some (children.map fun entry => targetDir / Path.mk entry.1)
  | some (.dir false _) => some []
  | _ => none

/-- The method `generate_plan`.  The loop runs at most once for each path. -/
def generate_plan (self : RuleEngine) (fs : FileSystem) (targetDir : Path)
    (schedule : Schedule) (stoken : StopToken) : List Action :=
  match enumerate_target fs targetDir with
  | none => []
  | some paths_to_scan =>
    generate_plan_loop self fs targetDir schedule stoken paths_to_scan paths_to_scan.length 0 []

/-! ## `IOManager::load_config`: the order of the rules -/

/-- Insertion of a rule into a list sorted by priority, after the rules of lower
priority and before the others. -/
def insert_by_priority (r : Rule) : List Rule → List Rule
  | [] => [r]
  | x :: rest => if x.priority < r.priority then x :: insert_by_priority r rest else r :: x :: rest

/-- The call `std::sort(rules.begin(), rules.end(), a.priority < b.priority)` of
`load_config`, as the insertion sort the standard library runs on short ranges: rules
of equal priority keep their order. -/
def sort_rules : List Rule → List Rule
  | [] => []
  | r :: rest => insert_by_priority r (sort_rules rest)

/-! ## File system updates -/

/-- A chain of new, empty directories, one inside the other, named by `names`. -/
def make_directories : List String → Node
  | [] => .dir true []
  | name :: rest => .dir true [(name, make_directories rest)]

/-- Creation of the directories missing along `loc` below a node; `none` when a regular
file is in the way. -/
def create_nodes : List String → Node → Option Node
  | _, .file _ => none
  | [], .dir readable children => some (.dir readable children)
  | name :: rest, .dir readable children =>
    match find_child name children with
    | some child =>
      match create_nodes rest child with
      | some created =>
        some (.dir readable (children.map fun entry =>
          if entry.1 = name then (entry.1, created) else entry))
      | none => none
    | none => some (.dir readable (children ++ [(name, make_directories rest)]))

/-- The call `fs::create_directories(p, ec)`: the file system with every missing directory
of `p` created, `none` when `ec` is set. -/
def FileSystem.create_directories (fs : FileSystem) (p : Path) : Option FileSystem :=
  if p.native.data = [] then none
  else
    match create_nodes (fs.locate p) fs.root with
    | some root => some ⟨root, fs.cwd⟩
    | none => none

/-- Replacement of the children of the directory at `loc` below a node. -/
def modify_children (f : List (String × Node) → List (String × Node)) : List String → Node → Node
  | _, .file exif => .file exif
  | [], .dir readable children => .dir readable (f children)
  | name :: rest, .dir readable children =>
    .dir readable (children.map fun entry =>
      if entry.1 = name then (entry.1, modify_children f rest entry.2) else entry)

/-- The tree without the entry at `loc`. -/
def remove_node (loc : List String) (root : Node) : Node :=
  match loc.getLast? with
  | some name => modify_children (fun children => children.filter fun entry => entry.1 ≠ name)
      loc.dropLast root
  | none => root

/-- The tree with `node` as the entry at `loc`, in place of any entry of that name. -/
def insert_node (loc : List String) (node : Node) (root : Node) : Node :=
  match loc.getLast? with
  | some name =>
    modify_children
      (fun children => (children.filter fun entry => entry.1 ≠ name) ++ [(name, node)])
      loc.dropLast root
  | none => root

/-- Whether the node at the source of a rename may take the place of the node at its
destination: a file replaces a file, a directory replaces an empty directory. -/
def may_replace : Node → Option Node → Bool
  | _, none => true
  | .file _, some (.file _) => true
  | .dir _ _, some (.dir _ []) => true
  | _, _ => false

/-- The call `fs::rename(from, to)`: the file system after the move, `none` when
`filesystem_error` is thrown.  The source must exist; neither path may be the root
directory; the destination may not lie inside the source; its parent must be a
directory; a rename of an entry onto itself changes nothing.  A failure that does not
depend on the tree, such as a missing permission, is not represented. -/
def FileSystem.rename (fs : FileSystem) (from_ to_ : Path) : Option FileSystem :=
  let src := fs.locate from_
  let dst := fs.locate to_
  match fs.status from_ with
  | none => none
  | some node =>
    if to_.native.data = [] then none
    else if src = dst then some fs
    else if src = [] ∨ dst = [] then none
    else if src.isPrefixOf dst then none
    else
      match fs.root.lookup dst.dropLast with
      | some (.dir _ _) =>
        if may_replace node (fs.root.lookup dst) then
          some ⟨insert_node dst node (remove_node src fs.root), fs.cwd⟩
        else none
      | _ => none

/-! ## `utils.hpp`: `generate_unique_path` -/

/-- The string `new_filename_str` built in the loop body of `generate_unique_path` for one
value of `counter`: `std::format("{} ({}){}", stem_str, counter, ext)`. -/
def unique_filename (target_path : Path) (counter : Nat) : String :=
  let stem_str := safe_path_to_string target_path.stem
  let ext := target_path.extension
  stem_str ++ " (" ++ format_int counter ++ ")" ++ safe_path_to_string ext

/-- The path `new_path` built in the loop body of `generate_unique_path` for one value of
`counter`: `parent_dir / "<stem> (<counter>)<ext>"`. -/
def unique_candidate (target_path : Path) (counter : Nat) : Path :=
  let parent_dir := target_path.parent_path
  parent_dir / Path.mk (unique_filename target_path counter)

/-- The loop `do ... while (fs::exists(new_path))` from one value of `counter` on, with
`fuel` further iterations allowed after the first. -/
def unique_path_loop (fs : FileSystem) (target_path : Path) : Nat → Nat → Path
  | 0, counter => unique_candidate target_path counter
  | fuel + 1, counter =>
    let new_path := unique_candidate target_path counter
    if fs.exists_ new_path then unique_path_loop fs target_path fuel (counter + 1) else new_path

/-- The number of entries of the directory at the location of a path (the working
directory for the empty path), zero when there is no directory there. -/
def FileSystem.entry_count (fs : FileSystem) (p : Path) : Nat :=
  match fs.root.lookup (fs.locate p) with
  | some (.dir _ children) => children.length
  | _ => 0

/-- The function `generate_unique_path`.  The loop of the source has no bound; here it
may run once more than the parent directory has entries, which is always enough for
it to end on a path that does not exist. -/
def generate_unique_path (fs : FileSystem) (target_path : Path) : Path :=
  if !fs.exists_ target_path then target_path
  else unique_path_loop fs target_path (fs.entry_count target_path.parent_path) 1

/-! ## `UI::execute_plan`: the worker loop -/

/-- The loop `for (const auto& action : actions)` of the worker of `execute_plan`, before
action number `k`: the file system and the value of `final_journal` when it ends.
`stop_requested k` is the answer of `stoken.stop_requested()` before action `k`. -/
def execute_loop (stop_requested : Nat → Bool) :
    List Action → Nat → FileSystem → List JournalEntry → FileSystem × List JournalEntry
  | [], _, fs, final_journal => (fs, final_journal)
  | action :: rest, k, fs, final_journal =>
    if stop_requested k then (fs, final_journal)
    else
      let from_path := action.from_
      let to_path := action.to_
      let parent_dir := to_path.parent_path
      let created :=
        if !fs.exists_ parent_dir then fs.create_directories parent_dir else some fs
      match created with
      | none => execute_loop stop_requested rest (k + 1) fs final_journal
      | some fs_created =>
        let final_to_path := generate_unique_path fs_created to_path
        match fs_created.rename from_path final_to_path with
        | some fs_moved =>
          execute_loop stop_requested rest (k + 1) fs_moved
            (final_journal ++ [⟨ActionType.MOVE, from_path, final_to_path⟩])
        | none => execute_loop stop_requested rest (k + 1) fs_created final_journal

/-- The worker of `execute_plan` on the approved actions: the file system it leaves and
the journal handed to `save_journal`. -/
def execute_plan (stop_requested : Nat → Bool) (fs : FileSystem) (actions : List Action) :
    FileSystem × List JournalEntry :=
  execute_loop stop_requested actions 0 fs []

/-! ## Example file systems and configurations -/

/-- The target directory of scenario A: `/tmp/t` holding `mydocument.pdf`. -/
def scenario_a_fs : FileSystem :=
  ⟨.dir true [("tmp", .dir true [("t", .dir true [("mydocument.pdf", .file none)])])], []⟩

/-- The engine of scenario A: the category map sends `.pdf` to `Documents`. -/
def scenario_a_engine : RuleEngine :=
  ⟨⟨[(".pdf", "Documents")], []⟩⟩

/-- The action of scenario A. -/
def scenario_a_action : Action :=
  ⟨"/tmp/t/mydocument.pdf", "/tmp/t/Documents/mydocument.pdf", "Documents"⟩

/-- The target directory of scenario B: `/tmp/t` holding `unclassified.log`. -/
def scenario_b_fs : FileSystem :=
  ⟨.dir true [("tmp", .dir true [("t", .dir true [("unclassified.log", .file none)])])], []⟩

/-- The engine of scenario B: the empty configuration. -/
def scenario_b_engine : RuleEngine :=
  ⟨⟨[], []⟩⟩

/-- A target directory `/tmp/t` holding a directory `Documents`, with a file
`package.json` inside. -/
def category_folder_fs : FileSystem :=
  ⟨.dir true [("tmp", .dir true [("t", .dir true
    [("Documents", .dir true [("package.json", .file none)])])])], []⟩

/-- An engine whose category map sends `.pdf` to `Documents` and whose only rule, without
conditions, holds on every directory. -/
def category_folder_engine : RuleEngine :=
  ⟨⟨[(".pdf", "Documents")], [⟨"Projects", 10, []⟩]⟩⟩

/-- The target directory of scenario D: `/tmp/t` holding the image `holiday.jpg`, taken on
2023-06-15. -/
def scenario_d_fs : FileSystem :=
  ⟨.dir true [("tmp", .dir true [("t", .dir true
    [("holiday.jpg", .file (some "2023-06-15 10:30:00"))])])], []⟩

/-- The rule of scenario D. -/
def scenario_d_rule : Rule :=
  ⟨"Photos/{exif_year}", 10, [⟨"exif_date_matches", ["2023-06-**"], Threshold.zero⟩]⟩

/-- The engine of scenario D. -/
def scenario_d_engine : RuleEngine :=
  ⟨⟨[], [scenario_d_rule]⟩⟩

/-- A rule whose category holds the year token twice. -/
def two_tokens_rule : Rule :=
  ⟨"{exif_year}/{exif_year}", 10, [⟨"exif_date_matches", ["2023-06-**"], Threshold.zero⟩]⟩

/-- An engine with the rule `two_tokens_rule` alone. -/
def two_tokens_engine : RuleEngine :=
  ⟨⟨[], [two_tokens_rule]⟩⟩

/-- The target directory of scenario C: `/tmp/t` holding the directory `my-web-app`, with a
file `package.json` inside. -/
def scenario_c_fs : FileSystem :=
  ⟨.dir true [("tmp", .dir true [("t", .dir true
    [("my-web-app", .dir true [("package.json", .file none)])])])], []⟩

/-- The rule of scenario C. -/
def scenario_c_rule : Rule :=
  ⟨"Projects", 10, [⟨"contains_filename", ["package.json"], Threshold.zero⟩]⟩

/-- A second rule with the priority and the condition of the rule of scenario C. -/
def same_priority_rule : Rule :=
  ⟨"Node", 10, [⟨"contains_filename", ["package.json"], Threshold.zero⟩]⟩

/-- A rule with the condition of the rule of scenario C and a lower priority number. -/
def lower_priority_rule : Rule :=
  ⟨"Node", 5, [⟨"contains_filename", ["package.json"], Threshold.zero⟩]⟩

/-- The engine of scenario C. -/
def scenario_c_engine : RuleEngine :=
  ⟨⟨[], [scenario_c_rule]⟩⟩

/-- An engine whose only rule has the condition of the rule of scenario C and an empty
category text. -/
def empty_category_engine : RuleEngine :=
  ⟨⟨[], [⟨"", 10, [⟨"contains_filename", ["package.json"], Threshold.zero⟩]⟩]⟩⟩

/-- A directory `/tmp/t/Documents` that holds `report.pdf` and `report (1).pdf`, next to a
file `/tmp/t/new.pdf`. -/
def collision_fs : FileSystem :=
  ⟨.dir true [("tmp", .dir true [("t", .dir true
    [("Documents", .dir true [("report.pdf", .file none), ("report (1).pdf", .file none)]),
      ("new.pdf", .file none)])])], []⟩

/-! ## Definitions: `IOManager::run_undo` -/

/-- The member `has_parent_path`: the parent path is not empty. -/
def Path.has_parent_path (p : Path) : Bool :=
  p.parent_path.native.data ≠ []

/-- One pass of the loop of `run_undo`: the call `fs::rename(source, target)` it stands
for, and whether the rename was carried out. -/
structure UndoStep where
  source : Path
  target : Path
  moved : Bool
deriving DecidableEq

/-- The body of the loop of `run_undo` for one entry: the parent directory of `from` is
created when it is missing, then `to` is renamed to `from`.  A `filesystem_error` of
either call is caught and leaves the entry where it is. -/
def undo_entry (fs : FileSystem) (entry : JournalEntry) : FileSystem × UndoStep :=
  match entry.action with
  | .MOVE =>
    let ensured :=
      if entry.from_.has_parent_path ∧ !fs.exists_ entry.from_.parent_path then
        fs.create_directories entry.from_.parent_path
      else some fs
    match ensured with
    | none => (fs, ⟨entry.to_, entry.from_, false⟩)
    | some fs_ensured =>
      match fs_ensured.rename entry.to_ entry.from_ with
      | some fs_moved => (fs_moved, ⟨entry.to_, entry.from_, true⟩)
      | none => (fs_ensured, ⟨entry.to_, entry.from_, false⟩)

/-- The loop `for (const auto& entry : journal)` of `run_undo` over the reversed journal:
the file system it leaves and the passes it made, in order. -/
def undo_loop : List JournalEntry → FileSystem → List UndoStep → FileSystem × List UndoStep
  | [], fs, steps => (fs, steps)
  | entry :: rest, fs, steps =>
    undo_loop rest (undo_entry fs entry).1 (steps ++ [(undo_entry fs entry).2])

/-- The function `run_undo`.  `journal` is what the journal file holds, `none` when there
is no journal file; the file itself is not part of the modelled tree. -/
def run_undo (fs : FileSystem) (journal : Option (List JournalEntry)) :
    FileSystem × List UndoStep :=
  match journal with
  | none => (fs, [])
  | some entries => undo_loop entries.reverse fs []

/-! ## Definitions: a regular file named like a category -/

/-- A target directory `/tmp/t` that holds a regular file named `Docs`, without
extension, and a file `report.pdf`. -/
def stranded_fs : FileSystem :=
  ⟨.dir true [("tmp", .dir true [("t", .dir true
    [("Docs", .file none), ("report.pdf", .file none)])])], []⟩

/-- An engine whose category map sends `.pdf` to `Docs`. -/
def stranded_engine : RuleEngine :=
  ⟨⟨[(".pdf", "Docs")], []⟩⟩

/-! ## Definitions: the chunks of a scan -/

/-- Chunk number `k` of the enumerated paths: the paths of index `chunk_size * k` up to
`chunk_size * (k + 1)`, as far as there are any. -/
def chunk_of (paths_to_scan : List Path) (k : Nat) : List Path :=
  (paths_to_scan.drop (chunk_size * k)).take chunk_size

/-- The number of chunks of `n` paths. -/
def chunk_count (n : Nat) : Nat :=
  (n + chunk_size - 1) / chunk_size

/-- The numbers of the chunks that are started: those before the first check of the stop
token that finds a stop requested. -/
def started_chunks (stoken : StopToken) (n : Nat) : List Nat :=
  (List.range (chunk_count n)).takeWhile fun k => !stop_requested stoken k

/-- The actions chunk number `k` adds to the plan: the results of its entries, in the order
the schedule gives them. -/
def chunk_plan_of (self : RuleEngine) (fs : FileSystem) (targetDir : Path)
    (schedule : Schedule) (paths_to_scan : List Path) (k : Nat) : List Action :=
  schedule.arrange k
    ((chunk_of paths_to_scan k).filterMap fun p => generate_action_for_path self fs p targetDir)

/-! ## Definitions: entries whose inspection fails -/

/-- A target directory `/tmp/t` that holds a directory `locked` that may not be listed, an
image `photo.jpg` whose metadata cannot be read, and a file `notes.pdf`. -/
def failing_fs : FileSystem :=
  ⟨.dir true [("tmp", .dir true [("t", .dir true
    [("locked", .dir false [("package.json", .file none)]),
      ("photo.jpg", .file none),
      ("notes.pdf", .file none)])])], []⟩

/-- An engine with the category map `.pdf` to `Documents` and a rule without conditions,
which holds on every directory whose facts can be collected. -/
def failing_engine : RuleEngine :=
  ⟨⟨[(".pdf", "Documents")], [⟨"Projects", 10, []⟩]⟩⟩

/-! ## Definitions: rules with several conditions on an image -/

/-- A rule with two `exif_date_matches` conditions: the first pattern matches the date
2023-06-15, the second does not. -/
def two_patterns_rule : Rule :=
  ⟨"Photos", 10,
    [⟨"exif_date_matches", ["2023-06-**"], Threshold.zero⟩,
      ⟨"exif_date_matches", ["1999-**-**"], Threshold.zero⟩]⟩

/-- A rule with an `exif_date_matches` condition whose pattern matches the date 2023-06-15
and a `contains_filename` condition. -/
def mixed_conditions_rule : Rule :=
  ⟨"Photos", 10,
    [⟨"exif_date_matches", ["2023-06-**"], Threshold.zero⟩,
      ⟨"contains_filename", ["package.json"], Threshold.zero⟩]⟩

/-- A rule whose only condition lists a pattern that does not match the date 2023-06-15
before one that does. -/
def pattern_second_rule : Rule :=
  ⟨"Photos", 10, [⟨"exif_date_matches", ["1999-**-**", "2023-06-**"], Threshold.zero⟩]⟩

/-- The rule `pattern_second_rule` with the two values of its condition exchanged. -/
def pattern_first_rule : Rule :=
  ⟨"Photos", 10, [⟨"exif_date_matches", ["2023-06-**", "1999-**-**"], Threshold.zero⟩]⟩

/-! ## Definitions: the files counted for a percentage -/

/-- The category under which an entry of the analysed directory is counted: that of the
lowercased extension of a regular file, when the category map has it. -/
def counted_category (categories : StringMap String) (entry : DirectoryEntry) : Option String :=
  if entry.is_regular_file then
    categories.find (string_to_lower_ascii (safe_path_to_string entry.path.extension))
  else none

/-- A directory with two images, a document and a file of unknown extension. -/
def percentage_entries : List DirectoryEntry :=
  [⟨"/tmp/t/album/a.jpg", .file none⟩, ⟨"/tmp/t/album/b.JPG", .file none⟩,
    ⟨"/tmp/t/album/c.pdf", .file none⟩, ⟨"/tmp/t/album/d.xyz", .file none⟩,
    ⟨"/tmp/t/album/sub", .dir true []⟩]

/-- The threshold `0.5`. -/
def threshold_half : Threshold :=
  ⟨1, -1⟩

/-- The threshold `0.1`: the `double` nearest to one tenth, which is greater than one
tenth. -/
def threshold_tenth : Threshold :=
  ⟨3602879701896397, -55⟩

/-- A directory that holds one image and nine documents. -/
def one_in_ten_entries : List DirectoryEntry :=
  ⟨"/tmp/t/album/a.jpg", .file none⟩ ::
    (List.range 9).map fun i => ⟨⟨"/tmp/t/album/d" ++ format_int i ++ ".pdf"⟩, .file none⟩

/-- The facts collected about the directory of one image and nine documents. -/
def one_in_ten_facts : DirectoryFacts :=
  collect_facts [(".jpg", "Images"), (".pdf", "Documents")] one_in_ten_entries ⟨[], [], []⟩

/-! ## Definitions: a wrapper directory -/

/-- A target directory `/tmp/t` holding the directory `bundle`, whose only child is the
directory `app`, with a file `package.json` inside. -/
def wrapper_fs : FileSystem :=
  ⟨.dir true [("tmp", .dir true [("t", .dir true
    [("bundle", .dir true [("app", .dir true [("package.json", .file none)])])])])], []⟩

/-! ## Definitions: two moves to one destination -/

/-- A target directory `/tmp/t` whose folder `Documents` holds `report.pdf`, next to the
files `x.pdf` and `y.pdf`. -/
def occupied_fs : FileSystem :=
  ⟨.dir true [("tmp", .dir true [("t", .dir true
    [("Documents", .dir true [("report.pdf", .file none)]),
      ("x.pdf", .file none), ("y.pdf", .file none)])])], []⟩

/-- The same target directory with an empty folder `Documents`. -/
def vacant_fs : FileSystem :=
  ⟨.dir true [("tmp", .dir true [("t", .dir true
    [("Documents", .dir true []),
      ("x.pdf", .file none), ("y.pdf", .file none)])])], []⟩

/-! ## Definitions: well-formed file systems -/

/-- The six condition types the chain of comparisons at lines 217-263 knows. -/
def directory_condition_types : List String :=
  ["contains_filename_pattern", "contains_filename", "contains_subdirectory_named",
    "has_no_subdirectories", "file_category_percentage", "subfolder_matches_archive"]

/-- A rule with the condition of the rule of scenario C and a condition for images. -/
def image_condition_rule : Rule :=
  ⟨"Projects", 10, [⟨"contains_filename", ["package.json"], Threshold.zero⟩,
    ⟨"exif_date_matches", ["2023-06-**"], Threshold.zero⟩]⟩

/-- A rule with the condition of the rule of scenario C and a condition whose type is
misspelled. -/
def misspelled_condition_rule : Rule :=
  ⟨"Projects", 10, [⟨"contains_filename", ["package.json"], Threshold.zero⟩,
    ⟨"has_no_subdirectory", [], Threshold.zero⟩]⟩

/-! ## Definitions: a target directory that is sorted twice -/

/-- A rule that holds on a directory with a subdirectory named `app`. -/
def subdirectory_rule : Rule :=
  ⟨"Projects", 10, [⟨"contains_subdirectory_named", ["app"], Threshold.zero⟩]⟩

/-! ## Definitions: a target directory with more than one chunk of entries -/

/-- The name of entry number `i` of the large target directory: a document, except for the
entries 3 and 67, which are empty directories. -/
def numbered_name (i : Nat) : String :=
  if i % 64 = 3 then "d" ++ format_int i else "f" ++ format_int i ++ ".pdf"

/-- The path of entry number `i` of the large target directory. -/
def numbered_path (i : Nat) : Path :=
  ⟨"/tmp/t/" ++ numbered_name i⟩

/-- The result of the inspection of entry number `i`: the move of a document, nothing for
an empty directory, which no rule matches. -/
def numbered_action (i : Nat) : Option Action :=
  if i % 64 = 3 then none
  else some ⟨numbered_path i, ⟨"/tmp/t/Documents/" ++ numbered_name i⟩, "Documents"⟩

/-- A target directory `/tmp/t` holding 130 entries, enumerated as `f0.pdf` to `f129.pdf`
with the empty directories `d3` and `d67` in the places 3 and 67. -/
def numbered_fs : FileSystem :=
  ⟨.dir true [("tmp", .dir true [("t", .dir true
    ((List.range 130).map fun i =>
      (numbered_name i, if i % 64 = 3 then Node.dir true [] else Node.file none)))])], []⟩

/-- The schedule in which the entries of every chunk complete in the reverse of the
enumeration order. -/
def Schedule.reversed : Schedule :=
  ⟨fun _ actions => actions.reverse, fun _ actions => List.reverse_perm actions⟩

/-- A stop token whose stop is requested between the check that precedes chunk 0 and the
check that precedes chunk 1. -/
def stop_after_first_chunk : StopToken :=
  some fun k => decide (1 ≤ k)

/-! # Properties -/

/-! ## Paths: comparison -/

theorem Path.equal_refl (p : Path) : p.equal p = true := by
  simp [Path.equal]

theorem Path.equal_comm (p q : Path) : p.equal q = q.equal p := by
  simp only [Path.equal]
  congr 1
  · exact Bool.eq_iff_iff.mpr ⟨fun h => by simpa using (of_decide_eq_true h).symm,
      fun h => by simpa using (of_decide_eq_true h).symm⟩
  · exact Bool.eq_iff_iff.mpr ⟨fun h => by simpa using (of_decide_eq_true h).symm,
      fun h => by simpa using (of_decide_eq_true h).symm⟩

theorem Path.ne_of_equal_false {p q : Path} (h : p.equal q = false) : p ≠ q := by
  intro hpq
  rw [hpq, Path.equal_refl] at h
  exact Bool.noConfusion h

/-! ## The last step of `generate_action_for_path` -/

/-- The last step of the function (lines 278-283), given the value of `categoryName`. -/
theorem generate_action_for_path_of_category (self : RuleEngine) (fs : FileSystem)
    (path targetDir : Path) (c : String) (hc : resolve_category self fs path = some c) :
    generate_action_for_path self fs path targetDir =
      if c ≠ "" ∧ (targetDir / Path.mk c / path.filename).equal path = false then
        some ⟨path, targetDir / Path.mk c / path.filename, c⟩
      else none := by
  unfold generate_action_for_path
  rw [hc]
  by_cases h1 : c = ""
  · simp [h1]
  · by_cases h2 : (targetDir / Path.mk c / path.filename).equal path = true
    · simp [h1, h2]
    · simp [h1, h2]

theorem generate_action_for_path_some (self : RuleEngine) (fs : FileSystem)
    (path targetDir : Path) (a : Action)
    (ha : generate_action_for_path self fs path targetDir = some a) :
    ∃ c, resolve_category self fs path = some c ∧ c ≠ "" ∧
      (targetDir / Path.mk c / path.filename).equal path = false ∧
      a = ⟨path, targetDir / Path.mk c / path.filename, c⟩ := by
  cases hc : resolve_category self fs path with
  | none => simp [generate_action_for_path, hc] at ha
  | some c =>
    rw [generate_action_for_path_of_category self fs path targetDir c hc] at ha
    split_ifs at ha with h
    exact ⟨c, rfl, h.1, h.2, (Option.some.inj ha).symm⟩

theorem regular_file_of_directory (fs : FileSystem) (path : Path)
    (h : fs.is_directory path = true) : fs.is_regular_file path = false := by
  unfold FileSystem.is_directory at h
  unfold FileSystem.is_regular_file
  cases hs : fs.status path with
  | none => rfl
  | some node =>
    cases node with
    | file exif => simp [hs] at h
    | dir readable children => rfl

/-! ## C1 -/

/-- C1: whenever `generate_action_for_path` resolves the category name `c` for an entry and
returns an action, that action has `from` = the path of the entry, `to` =
`targetDir / c / (file name of the entry)` and `reason` = `c`. -/
theorem action_of_resolved_category (self : RuleEngine) (fs : FileSystem)
    (path targetDir : Path) (c : String) (a : Action)
    (hc : resolve_category self fs path = some c)
    (ha : generate_action_for_path self fs path targetDir = some a) :
    a.from_ = path ∧ a.to_ = targetDir / Path.mk c / path.filename ∧ a.reason = c := by
  obtain ⟨c1, hc1, -, -, rfl⟩ := generate_action_for_path_some self fs path targetDir a ha
  rw [hc] at hc1
  cases hc1
  exact ⟨rfl, rfl, rfl⟩

/-- Scenario A: with the category map `.pdf` to `Documents`, the file `mydocument.pdf` of
the target directory is moved to `Documents/mydocument.pdf` for the reason `Documents`,
and that action is the whole plan. -/
theorem action_of_resolved_category_witness :
    resolve_category scenario_a_engine scenario_a_fs "/tmp/t/mydocument.pdf" = some "Documents" ∧
    generate_plan scenario_a_engine scenario_a_fs "/tmp/t" Schedule.sequential none =
      [scenario_a_action] ∧
    generate_action_for_path scenario_a_engine scenario_a_fs "/tmp/t/mydocument.pdf" "/tmp/t" =
      some scenario_a_action ∧
    scenario_a_action.from_ = "/tmp/t/mydocument.pdf" ∧
    scenario_a_action.to_ =
      ("/tmp/t" : Path) / Path.mk "Documents" / Path.filename "/tmp/t/mydocument.pdf" ∧
    scenario_a_action.reason = "Documents" :=
  ⟨by decide, by decide, by decide,
    action_of_resolved_category scenario_a_engine scenario_a_fs "/tmp/t/mydocument.pdf" "/tmp/t"
      "Documents" scenario_a_action (by decide) (by decide)⟩

/-! ## C2 -/

theorem generate_action_for_path_moves (self : RuleEngine) (fs : FileSystem)
    (path targetDir : Path) (a : Action)
    (ha : generate_action_for_path self fs path targetDir = some a) :
    a.from_.equal a.to_ = false ∧ a.from_ ≠ a.to_ := by
  obtain ⟨c, -, -, hne, rfl⟩ := generate_action_for_path_some self fs path targetDir a ha
  rw [Path.equal_comm] at hne
  exact ⟨hne, Path.ne_of_equal_false hne⟩

/-- Every action the scan loop adds to the plan is the result of
`generate_action_for_path` for one of the scanned paths. -/
theorem generate_plan_loop_mem (self : RuleEngine) (fs : FileSystem) (targetDir : Path)
    (schedule : Schedule) (stoken : StopToken) (paths_to_scan : List Path) (a : Action) :
    ∀ (fuel i : Nat) (result_plan : List Action),
      a ∈ generate_plan_loop self fs targetDir schedule stoken paths_to_scan fuel i result_plan →
      a ∈ result_plan ∨
        ∃ p ∈ paths_to_scan, generate_action_for_path self fs p targetDir = some a := by
  intro fuel
  induction fuel with
  | zero => intro i result_plan h; exact Or.inl h
  | succ fuel ih =>
    intro i result_plan h
    unfold generate_plan_loop at h
    split_ifs at h with h1 h2
    · exact Or.inl h
    · rcases ih _ _ h with h3 | h3
      · rcases List.mem_append.mp h3 with h4 | h4
        · exact Or.inl h4
        · right
          rw [(schedule.perm _ _).mem_iff, List.mem_filterMap] at h4
          obtain ⟨p, hp, hpa⟩ := h4
          exact ⟨p, List.mem_of_mem_drop (List.mem_of_mem_take hp), hpa⟩
      · exact Or.inr h3
    · exact Or.inl h

theorem generate_plan_mem (self : RuleEngine) (fs : FileSystem) (targetDir : Path)
    (schedule : Schedule) (stoken : StopToken) (a : Action)
    (h : a ∈ generate_plan self fs targetDir schedule stoken) :
    ∃ p, generate_action_for_path self fs p targetDir = some a := by
  unfold generate_plan at h
  cases hen : enumerate_target fs targetDir with
  | none => simp [hen] at h
  | some paths =>
    rw [hen] at h
    rcases generate_plan_loop_mem self fs targetDir schedule stoken paths a _ _ _ h with h1 | h1
    · simp at h1
    · obtain ⟨p, -, hp⟩ := h1
      exact ⟨p, hp⟩

/-- C2: no action returned by `generate_action_for_path`, and no action of a plan returned
by `generate_plan` (whatever the schedule of the chunk and the stop token), has a `from`
equal to its `to`, neither for the comparison of paths nor as native strings. -/
theorem plan_has_no_noop_move (self : RuleEngine) (fs : FileSystem) (targetDir : Path) :
    (∀ (path : Path) (a : Action), generate_action_for_path self fs path targetDir = some a →
      a.from_.equal a.to_ = false ∧ a.from_ ≠ a.to_) ∧
    (∀ (schedule : Schedule) (stoken : StopToken) (a : Action),
      a ∈ generate_plan self fs targetDir schedule stoken →
      a.from_.equal a.to_ = false ∧ a.from_ ≠ a.to_) := by
  refine ⟨fun path a ha => generate_action_for_path_moves self fs path targetDir a ha, ?_⟩
  intro schedule stoken a ha
  obtain ⟨p, hp⟩ := generate_plan_mem self fs targetDir schedule stoken a ha
  exact generate_action_for_path_moves self fs p targetDir a hp

/-- The plan of scenario A holds an action, and its `from` differs from its `to`. -/
theorem plan_has_no_noop_move_witness :
    scenario_a_action ∈
      generate_plan scenario_a_engine scenario_a_fs "/tmp/t" Schedule.sequential none ∧
    scenario_a_action.from_.equal scenario_a_action.to_ = false ∧
    scenario_a_action.from_ ≠ scenario_a_action.to_ :=
  ⟨by decide,
    (plan_has_no_noop_move scenario_a_engine scenario_a_fs "/tmp/t").2 Schedule.sequential none
      scenario_a_action (by decide)⟩

/-! ## C3 -/

theorem exif_conditions_loop_no_match (rule : Rule) (exif_date : String) (categoryName : String) :
    ∀ conditions : List Condition,
      (conditions.any fun cond =>
        cond.type = "exif_date_matches" &&
          match cond.values with
          | pattern :: _ => exif_date_matches pattern exif_date
          | [] => false) = false →
      exif_conditions_loop rule exif_date conditions categoryName = categoryName := by
  intro conditions
  induction conditions with
  | nil => intro _; rfl
  | cons cond rest ih =>
    intro h
    rw [List.any_cons, Bool.or_eq_false_iff] at h
    obtain ⟨h1, h2⟩ := h
    unfold exif_conditions_loop
    by_cases ht : cond.type = "exif_date_matches"
    · rw [if_pos ht]
      cases hv : cond.values with
      | nil => exact ih h2
      | cons pattern more =>
        simp only [ht, hv, decide_True, Bool.true_and] at h1
        simp only [h1, Bool.false_eq_true, if_false]
        exact ih h2
    · rw [if_neg ht]
      exact ih h2

theorem exif_rules_loop_no_match (exif_date : String) :
    ∀ rules : List Rule, (∀ rule ∈ rules, rule_matches_date rule exif_date = false) →
      exif_rules_loop exif_date rules "" = "" := by
  intro rules
  induction rules with
  | nil => intro _; rfl
  | cons rule rest ih =>
    intro h
    unfold exif_rules_loop
    have h1 := exif_conditions_loop_no_match rule exif_date "" rule.conditions
      (h rule (List.mem_cons_self _ _))
    simp only [h1, ne_eq, not_true_eq_false, if_false]
    exact ih fun r hr => h r (List.mem_cons_of_mem _ hr)

/-- C3: for a regular file that no rule takes by a capture date (its lowercased extension is
not an image extension, or no capture date can be read, or the date matches no rule), the
resolved category is the value the category map stores under the ASCII-lowercased
extension, and `Other` when the map has no such key; the rules do not matter otherwise. -/
theorem fallback_to_category_map (self : RuleEngine) (fs : FileSystem) (path : Path)
    (hfile : fs.is_regular_file path = true)
    (hno : string_to_lower_ascii (safe_path_to_string path.extension) ∉ image_extensions ∨
      get_exif_date fs path = none ∨
      ∃ d, get_exif_date fs path = some d ∧
        ∀ rule ∈ self.m_config.rules, rule_matches_date rule d = false) :
    resolve_category self fs path =
      some (match self.m_config.categories.find
          (string_to_lower_ascii (safe_path_to_string path.extension)) with
        | some category => category
        | none => "Other") := by
  unfold resolve_category
  rw [if_pos hfile]
  congr 1
  unfold classify_regular_file
  have hcat : (match (if (image_extensions.any fun img_ext =>
        decide (string_to_lower_ascii (safe_path_to_string path.extension) = img_ext)) = true
        then get_exif_date fs path else none) with
      | some date => exif_rules_loop date self.m_config.rules ""
      | none => "") = "" := by
    rcases hno with h | h | ⟨d, hd, h⟩
    · have : (image_extensions.any fun img_ext =>
          decide (string_to_lower_ascii (safe_path_to_string path.extension) = img_ext)) = false := by
        rw [Bool.eq_false_iff]
        intro hany
        rw [List.any_eq_true] at hany
        obtain ⟨x, hx, hxe⟩ := hany
        exact h ((of_decide_eq_true hxe) ▸ hx)
      simp [this]
    · rw [h]; simp
    · rw [hd]
      split_ifs
      · exact exif_rules_loop_no_match d _ h
      · rfl
  simp only [hcat, if_true]
  rfl

/-- Scenario B: with the empty configuration the file `unclassified.log` resolves to
`Other`; its action has the reason `Other` and a destination whose parent is named `Other`. -/
theorem fallback_to_category_map_witness :
    scenario_b_fs.is_regular_file "/tmp/t/unclassified.log" = true ∧
    (string_to_lower_ascii (safe_path_to_string (Path.extension "/tmp/t/unclassified.log")) ∉
        image_extensions ∨
      get_exif_date scenario_b_fs "/tmp/t/unclassified.log" = none ∨
      ∃ d, get_exif_date scenario_b_fs "/tmp/t/unclassified.log" = some d ∧
        ∀ rule ∈ scenario_b_engine.m_config.rules, rule_matches_date rule d = false) ∧
    ((generate_action_for_path scenario_b_engine scenario_b_fs "/tmp/t/unclassified.log"
        "/tmp/t").map fun a => (a.reason, a.to_.parent_path.filename.native)) =
      some ("Other", "Other") ∧
    resolve_category scenario_b_engine scenario_b_fs "/tmp/t/unclassified.log" =
      some (match scenario_b_engine.m_config.categories.find
          (string_to_lower_ascii
            (safe_path_to_string (Path.extension "/tmp/t/unclassified.log"))) with
        | some category => category
        | none => "Other") :=
  ⟨by decide, Or.inl (by decide), by decide,
    fallback_to_category_map scenario_b_engine scenario_b_fs "/tmp/t/unclassified.log"
      (by decide) (Or.inl (by decide))⟩

/-! ## C4 -/

theorem insert_by_priority_eq (r : Rule) :
    ∀ l : List Rule,
      insert_by_priority r l = List.orderedInsert (fun a b : Rule => a.priority ≤ b.priority) r l := by
  intro l
  induction l with
  | nil => rfl
  | cons x rest ih =>
    unfold insert_by_priority
    rw [List.orderedInsert]
    by_cases h : x.priority < r.priority
    · rw [if_pos h, if_neg (not_le.mpr h), ih]
    · rw [if_neg h, if_pos (not_lt.mp h)]

theorem sort_rules_eq :
    ∀ l : List Rule,
      sort_rules l = List.insertionSort (fun a b : Rule => a.priority ≤ b.priority) l := by
  intro l
  induction l with
  | nil => rfl
  | cons r rest ih =>
    unfold sort_rules
    rw [List.insertionSort, insert_by_priority_eq, ih]

theorem sort_rules_perm (l : List Rule) : (sort_rules l).Perm l := by
  rw [sort_rules_eq]
  exact List.perm_insertionSort _ l

theorem sort_rules_sorted (l : List Rule) :
    (sort_rules l).Sorted fun a b => a.priority ≤ b.priority := by
  rw [sort_rules_eq]
  haveI : IsTotal Rule (fun a b : Rule => a.priority ≤ b.priority) :=
    ⟨fun a b => le_total a.priority b.priority⟩
  haveI : IsTrans Rule (fun a b : Rule => a.priority ≤ b.priority) :=
    ⟨fun _ _ _ h1 h2 => le_trans h1 h2⟩
  exact List.sorted_insertionSort _ l

theorem sort_rules_strictly_sorted (l : List Rule) (h : (l.map Rule.priority).Nodup) :
    (sort_rules l).Sorted fun a b => a.priority < b.priority := by
  have h1 : ((sort_rules l).map Rule.priority).Sorted (· ≤ ·) :=
    List.pairwise_map.mpr (sort_rules_sorted l)
  have h2 : ((sort_rules l).map Rule.priority).Nodup :=
    ((sort_rules_perm l).map Rule.priority).nodup_iff.mpr h
  exact List.pairwise_map.mp (h1.lt_of_le h2)

/-- C4, amended: the rules are kept in ascending order of priority by the sort of
`load_config`, and for two rule lists that are permutations of each other and whose
priorities are pairwise distinct, the sorted lists are the same list, so that every entry
is classified alike with either. -/
theorem sorted_rules_ignore_input_order (categories : StringMap String)
    (rules1 rules2 : List Rule) (hperm : rules1.Perm rules2)
    (hdistinct : (rules1.map Rule.priority).Nodup) :
    ((sort_rules rules1).Sorted fun a b => a.priority < b.priority) ∧
    sort_rules rules1 = sort_rules rules2 ∧
    ∀ (fs : FileSystem) (path targetDir : Path),
      resolve_category ⟨⟨categories, sort_rules rules1⟩⟩ fs path =
        resolve_category ⟨⟨categories, sort_rules rules2⟩⟩ fs path ∧
      generate_action_for_path ⟨⟨categories, sort_rules rules1⟩⟩ fs path targetDir =
        generate_action_for_path ⟨⟨categories, sort_rules rules2⟩⟩ fs path targetDir := by
  have hs1 := sort_rules_strictly_sorted rules1 hdistinct
  have hs2 := sort_rules_strictly_sorted rules2
    ((hperm.map Rule.priority).nodup_iff.mp hdistinct)
  have hp : (sort_rules rules1).Perm (sort_rules rules2) :=
    ((sort_rules_perm rules1).trans hperm).trans (sort_rules_perm rules2).symm
  haveI : IsAntisymm Rule (fun a b : Rule => a.priority < b.priority) :=
    ⟨fun _ _ h1 h2 => absurd h1 (lt_asymm h2)⟩
  have heq : sort_rules rules1 = sort_rules rules2 := List.eq_of_perm_of_sorted hp hs1 hs2
  refine ⟨hs1, heq, fun fs path targetDir => ?_⟩
  rw [heq]
  exact ⟨rfl, rfl⟩

/-- Two rules of priorities 10 and 5, in either input order, are sorted to the same list
and classify the directory of scenario C alike. -/
theorem sorted_rules_ignore_input_order_witness :
    [scenario_c_rule, lower_priority_rule].Perm [lower_priority_rule, scenario_c_rule] ∧
    ([scenario_c_rule, lower_priority_rule].map Rule.priority).Nodup ∧
    resolve_category ⟨⟨[], sort_rules [scenario_c_rule, lower_priority_rule]⟩⟩ scenario_c_fs
      "/tmp/t/my-web-app" = some "Node" ∧
    sort_rules [scenario_c_rule, lower_priority_rule] =
      sort_rules [lower_priority_rule, scenario_c_rule] :=
  ⟨List.Perm.swap _ _ _, by decide, by decide,
    (sorted_rules_ignore_input_order [] [scenario_c_rule, lower_priority_rule]
      [lower_priority_rule, scenario_c_rule] (List.Perm.swap _ _ _) (by decide)).2.1⟩

/-- C4 as stated fails: two rules of equal priority that both hold on the directory of
scenario C give the category `Projects` when listed in one order and `Node` when listed
in the other, although the two rule lists are permutations of each other. -/
theorem equal_priorities_depend_on_input_order :
    [scenario_c_rule, same_priority_rule].Perm [same_priority_rule, scenario_c_rule] ∧
    resolve_category ⟨⟨[], sort_rules [scenario_c_rule, same_priority_rule]⟩⟩ scenario_c_fs
      "/tmp/t/my-web-app" = some "Projects" ∧
    resolve_category ⟨⟨[], sort_rules [same_priority_rule, scenario_c_rule]⟩⟩ scenario_c_fs
      "/tmp/t/my-web-app" = some "Node" ∧
    resolve_category ⟨⟨[], sort_rules [scenario_c_rule, same_priority_rule]⟩⟩ scenario_c_fs
        "/tmp/t/my-web-app" ≠
      resolve_category ⟨⟨[], sort_rules [same_priority_rule, scenario_c_rule]⟩⟩ scenario_c_fs
        "/tmp/t/my-web-app" :=
  ⟨List.Perm.swap _ _ _, by decide, by decide, by decide⟩

/-! ## C5 -/

theorem directory_rules_loop_eq_find (facts : DirectoryFacts) :
    ∀ rules : List Rule,
      directory_rules_loop facts rules "" =
        match rules.find? fun rule => all_conditions_met facts rule.conditions with
        | some rule => rule.category
        | none => "" := by
  intro rules
  induction rules with
  | nil => rfl
  | cons rule rest ih =>
    unfold directory_rules_loop
    by_cases h : all_conditions_met facts rule.conditions = true
    · rw [if_pos h]
      simp only [List.find?_cons, h]
    · rw [if_neg h]
      simp only [List.find?_cons, Bool.not_eq_true _ ▸ h]
      exact ih

theorem resolve_category_of_directory (self : RuleEngine) (fs : FileSystem) (path : Path)
    (facts : DirectoryFacts) (hdir : fs.is_directory path = true)
    (hskip : is_category_directory self path = false)
    (hfacts : collected_facts self fs path = some facts) :
    resolve_category self fs path =
      some (match self.m_config.rules.find? fun rule =>
          all_conditions_met facts rule.conditions with
        | some rule => rule.category
        | none => "") := by
  unfold resolve_category classify_directory
  rw [regular_file_of_directory fs path hdir, hdir, hskip, hfacts]
  simp only [Bool.false_eq_true, if_false, if_true]
  rw [directory_rules_loop_eq_find]

/-- C5, amended: for a directory that is not skipped as a category folder and whose entries
(after the one-level descent) can be listed, the first rule, in the rule order of the
configuration, all of whose conditions hold on the collected facts gives the category;
`generate_action_for_path` returns the action with that category as `reason` when the
category text is not empty and `targetDir / category / name` differs from the path of the
directory, and no action otherwise; it returns no action when no rule has all its
conditions satisfied, in particular when there is no rule. -/
theorem first_satisfied_rule_wins (self : RuleEngine) (fs : FileSystem) (path targetDir : Path)
    (facts : DirectoryFacts) (hdir : fs.is_directory path = true)
    (hskip : is_category_directory self path = false)
    (hfacts : collected_facts self fs path = some facts) :
    (generate_action_for_path self fs path targetDir =
      match self.m_config.rules.find? fun rule => all_conditions_met facts rule.conditions with
      | some rule =>
        if rule.category ≠ "" ∧
            (targetDir / Path.mk rule.category / path.filename).equal path = false then
          some ⟨path, targetDir / Path.mk rule.category / path.filename, rule.category⟩
        else none
      | none => none) ∧
    ((∀ rule ∈ self.m_config.rules, all_conditions_met facts rule.conditions = false) →
      generate_action_for_path self fs path targetDir = none) ∧
    (self.m_config.rules = [] → generate_action_for_path self fs path targetDir = none) := by
  have hres := resolve_category_of_directory self fs path facts hdir hskip hfacts
  have hgen := generate_action_for_path_of_category self fs path targetDir _ hres
  have hmain : generate_action_for_path self fs path targetDir =
      match self.m_config.rules.find? fun rule => all_conditions_met facts rule.conditions with
      | some rule =>
        if rule.category ≠ "" ∧
            (targetDir / Path.mk rule.category / path.filename).equal path = false then
          some ⟨path, targetDir / Path.mk rule.category / path.filename, rule.category⟩
        else none
      | none => none := by
    rw [hgen]
    cases self.m_config.rules.find? fun rule => all_conditions_met facts rule.conditions with
    | none => simp
    | some rule => rfl
  have hnone : (∀ rule ∈ self.m_config.rules, all_conditions_met facts rule.conditions = false) →
      generate_action_for_path self fs path targetDir = none := by
    intro h
    rw [hmain]
    have : (self.m_config.rules.find? fun rule => all_conditions_met facts rule.conditions) =
        none := by
      rw [List.find?_eq_none]
      intro rule hr
      rw [h rule hr]
      simp
    rw [this]
  refine ⟨hmain, hnone, fun h => hnone ?_⟩
  intro rule hr
  rw [h] at hr
  exact absurd hr (List.not_mem_nil rule)

/-- Scenario C: the rule with category `Projects` and the condition `contains_filename`
`package.json` moves the directory `my-web-app`, which holds `package.json`, to
`Projects/my-web-app`; that action is the whole plan. -/
theorem first_satisfied_rule_wins_witness :
    scenario_c_fs.is_directory "/tmp/t/my-web-app" = true ∧
    is_category_directory scenario_c_engine "/tmp/t/my-web-app" = false ∧
    collected_facts scenario_c_engine scenario_c_fs "/tmp/t/my-web-app" =
      some ⟨["package.json"], [], []⟩ ∧
    generate_plan scenario_c_engine scenario_c_fs "/tmp/t" Schedule.sequential none =
      [⟨"/tmp/t/my-web-app", "/tmp/t/Projects/my-web-app", "Projects"⟩] ∧
    generate_action_for_path scenario_c_engine scenario_c_fs "/tmp/t/my-web-app" "/tmp/t" =
      some ⟨"/tmp/t/my-web-app", "/tmp/t/Projects/my-web-app", "Projects"⟩ :=
  ⟨by decide, by decide, by decide, by decide,
    ((first_satisfied_rule_wins scenario_c_engine scenario_c_fs "/tmp/t/my-web-app" "/tmp/t"
      ⟨["package.json"], [], []⟩ (by decide) (by decide) (by decide)).1).trans (by decide)⟩

/-- C5 as stated fails: the directory of scenario C is not a category folder and the only
rule has all its conditions satisfied on its facts, but the category text of the rule is
empty and `generate_action_for_path` returns no action. -/
theorem satisfied_rule_without_action :
    scenario_c_fs.is_directory "/tmp/t/my-web-app" = true ∧
    is_category_directory empty_category_engine "/tmp/t/my-web-app" = false ∧
    collected_facts empty_category_engine scenario_c_fs "/tmp/t/my-web-app" =
      some ⟨["package.json"], [], []⟩ ∧
    (empty_category_engine.m_config.rules.map fun rule =>
      all_conditions_met ⟨["package.json"], [], []⟩ rule.conditions) = [true] ∧
    generate_action_for_path empty_category_engine scenario_c_fs "/tmp/t/my-web-app" "/tmp/t" =
      none ∧
    ¬ ∃ a, generate_action_for_path empty_category_engine scenario_c_fs "/tmp/t/my-web-app"
      "/tmp/t" = some a := by
  refine ⟨by decide, by decide, by decide, by decide, by decide, ?_⟩
  rintro ⟨a, ha⟩
  have : generate_action_for_path empty_category_engine scenario_c_fs "/tmp/t/my-web-app"
      "/tmp/t" = none := by decide
  rw [this] at ha
  exact Option.noConfusion ha

/-! ## C6 -/

theorem StringMap.mem_items_of_find {β : Type} :
    ∀ (m : StringMap β) (key : String) (v : β), m.find key = some v → (key, v) ∈ m.items := by
  intro m
  induction m with
  | nil => intro key v h; simp [StringMap.find] at h
  | cons kv rest ih =>
    intro key v h
    obtain ⟨k, w⟩ := kv
    unfold StringMap.find at h
    unfold StringMap.items
    by_cases hk : k = key
    · rw [if_pos hk] at h
      cases h
      rw [hk]
      exact List.mem_cons_self _ _
    · rw [if_neg hk] at h
      refine List.mem_cons_of_mem _ (List.mem_filter.mpr ⟨ih key v h, ?_⟩)
      simpa using fun h' => hk h'.symm

/-- C6: for a directory whose name equals the default category `Other` or a value of the
category map (for the comparison of paths), `generate_action_for_path` returns no action,
whatever the directory holds and whatever the rules are. -/
theorem category_folder_is_skipped (self : RuleEngine) (fs : FileSystem) (path targetDir : Path)
    (hdir : fs.is_directory path = true)
    (hname : path.filename.equal (Path.mk "Other") = true ∨
      ∃ key category, self.m_config.categories.find key = some category ∧
        path.filename.equal (Path.mk category) = true) :
    generate_action_for_path self fs path targetDir = none := by
  have hcat : is_category_directory self path = true := by
    unfold is_category_directory
    rcases hname with h | ⟨key, category, hfind, heq⟩
    · simp only [Bool.or_eq_true]
      exact Or.inr h
    · simp only [Bool.or_eq_true]
      left
      rw [List.any_eq_true]
      exact ⟨(key, category), StringMap.mem_items_of_find _ key category hfind, heq⟩
  unfold generate_action_for_path resolve_category classify_directory
  rw [regular_file_of_directory fs path hdir, hdir, hcat]
  simp

/-- A directory named `Documents`, a value of the category map, yields no action although
the only rule holds on it; so does a directory named `Other`. -/
theorem category_folder_is_skipped_witness :
    category_folder_fs.is_directory "/tmp/t/Documents" = true ∧
    category_folder_engine.m_config.categories.find ".pdf" = some "Documents" ∧
    Path.equal (Path.filename "/tmp/t/Documents") (Path.mk "Documents") = true ∧
    all_conditions_met ⟨["package.json"], [], []⟩ [] = true ∧
    generate_action_for_path category_folder_engine category_folder_fs "/tmp/t/Documents"
      "/tmp/t" = none :=
  ⟨by decide, by decide, by decide, by decide,
    category_folder_is_skipped category_folder_engine category_folder_fs "/tmp/t/Documents"
      "/tmp/t" (by decide) (Or.inr ⟨".pdf", "Documents", by decide, by decide⟩)⟩

/-! ## C7 -/

theorem exif_pattern_loop_iff (pattern exif_date : String) :
    ∀ remaining i : Nat,
      exif_pattern_loop pattern exif_date remaining i = true ↔
        ∀ j, i ≤ j → j < i + remaining →
          (pattern.data.getD j '*' = '*' ∨
            pattern.data.getD j '*' = exif_date.data.getD j '*') := by
  intro remaining
  induction remaining with
  | zero =>
    intro i
    simp only [exif_pattern_loop, true_iff]
    intro j h1 h2
    omega
  | succ n ih =>
    intro i
    unfold exif_pattern_loop
    by_cases h : pattern.data.getD i '*' ≠ '*' ∧
        pattern.data.getD i '*' ≠ exif_date.data.getD i '*'
    · rw [if_pos h]
      simp only [Bool.false_eq_true, false_iff]
      intro hall
      rcases hall i (le_refl i) (by omega) with h1 | h1
      · exact h.1 h1
      · exact h.2 h1
    · rw [if_neg h, ih (i + 1)]
      constructor
      · intro hall j h1 h2
        rcases Nat.eq_or_lt_of_le h1 with h3 | h3
        · subst h3
          by_contra hc
          exact h ⟨fun e => hc (Or.inl e), fun e => hc (Or.inr e)⟩
        · exact hall j h3 (by omega)
      · intro hall j h1 h2
        exact hall j (by omega) (by omega)

theorem getD_eq_of_lt (l : List Char) (j : Nat) (h : j < l.length) :
    l[j]? = some (l.getD j '*') := by
  rw [List.getD_eq_getElem?_getD, List.getElem?_eq_getElem h]
  rfl

/-- C7: the test of a pattern against a capture date succeeds iff both have length 10 and
every one of the ten characters of the pattern is `*` or equals the character of the date
at the same index; a pattern of another length matches no date; the pattern `2023-06-**`
matches the date `2023-06-15`. -/
theorem exif_date_matches_iff :
    (∀ pattern exif_date : String,
      exif_date_matches pattern exif_date = true ↔
        pattern.length = 10 ∧ exif_date.length = 10 ∧
          ∀ i, i < 10 → (pattern.data[i]? = some '*' ∨ pattern.data[i]? = exif_date.data[i]?)) ∧
    (∀ pattern exif_date : String, pattern.length ≠ 10 →
      exif_date_matches pattern exif_date = false) ∧
    exif_date_matches "2023-06-**" "2023-06-15" = true := by
  refine ⟨?_, ?_, by decide⟩
  · intro pattern exif_date
    unfold exif_date_matches
    by_cases hl : pattern.length = 10 ∧ exif_date.length = 10
    · rw [if_pos hl, exif_pattern_loop_iff]
      have hp : pattern.data.length = 10 := hl.1
      have hd : exif_date.data.length = 10 := hl.2
      constructor
      · intro h
        refine ⟨hl.1, hl.2, fun i hi => ?_⟩
        rw [getD_eq_of_lt pattern.data i (by omega), getD_eq_of_lt exif_date.data i (by omega)]
        rcases h i (Nat.zero_le i) (by omega) with h1 | h1
        · exact Or.inl (congrArg some h1)
        · exact Or.inr (congrArg some h1)
      · rintro ⟨-, -, h⟩ j - hj
        have := h j (by omega)
        rw [getD_eq_of_lt pattern.data j (by omega),
          getD_eq_of_lt exif_date.data j (by omega)] at this
        rcases this with h1 | h1
        · exact Or.inl (Option.some.inj h1)
        · exact Or.inr (Option.some.inj h1)
    · rw [if_neg hl]
      simp only [Bool.false_eq_true, false_iff]
      rintro ⟨h1, h2, -⟩
      exact hl ⟨h1, h2⟩
  · intro pattern exif_date hl
    unfold exif_date_matches
    rw [if_neg fun h => hl h.1]

/-- The pattern `2023-06-**` and the date `2023-06-15` have length 10 and agree at every
index where the pattern has no `*`, so the test succeeds. -/
theorem exif_date_matches_iff_witness :
    exif_date_matches "2023-06-**" "2023-06-15" = true ∧
    exif_date_matches "2023-06-*" "2023-06-15" = false :=
  ⟨(exif_date_matches_iff.1 "2023-06-**" "2023-06-15").mpr
      ⟨by decide, by decide, by decide⟩,
    exif_date_matches_iff.2.1 "2023-06-*" "2023-06-15" (by decide)⟩

/-! ## C8 -/

theorem find_from_eq_some (needle : List Char) :
    ∀ (hay : List Char) (off pos : Nat),
      starts_with (hay.drop pos) needle = true →
      (∀ j, j < pos → starts_with (hay.drop j) needle = false) →
      find_from needle hay off = some (off + pos) := by
  intro hay
  induction hay with
  | nil =>
    intro off pos h1 h2
    cases pos with
    | zero =>
      cases needle with
      | nil => simp [find_from]
      | cons n ns => simp [starts_with] at h1
    | succ p =>
      have h3 := h2 0 (Nat.succ_pos p)
      simp only [List.drop_nil] at h1 h3
      rw [h1] at h3
      exact Bool.noConfusion h3
  | cons c cs ih =>
    intro off pos h1 h2
    cases pos with
    | zero =>
      unfold find_from
      rw [if_pos (by simpa using h1)]
      rfl
    | succ p =>
      unfold find_from
      have h3 := h2 0 (Nat.succ_pos p)
      rw [List.drop_zero] at h3
      rw [if_neg (by rw [h3]; simp)]
      rw [ih (off + 1) p (by simpa using h1) (fun j hj => by simpa using h2 (j + 1) (by omega))]
      congr 1
      omega

theorem find_from_eq_none (needle : List Char) :
    ∀ (hay : List Char) (off : Nat),
      (∀ j, starts_with (hay.drop j) needle = false) → find_from needle hay off = none := by
  intro hay
  induction hay with
  | nil =>
    intro off h
    have h0 := h 0
    cases needle with
    | nil => simp [starts_with] at h0
    | cons n ns => simp [find_from]
  | cons c cs ih =>
    intro off h
    unfold find_from
    have h0 := h 0
    rw [List.drop_zero] at h0
    rw [if_neg (by rw [h0]; simp)]
    exact ih (off + 1) fun j => by simpa using h (j + 1)

theorem get_exif_date_length (fs : FileSystem) (path : Path) (d : String)
    (h : get_exif_date fs path = some d) : d.length = 10 := by
  unfold get_exif_date at h
  split at h
  · split_ifs at h with hl
    cases h
    simp only [string_substr, String.length, List.drop_zero, List.length_take]
    exact Nat.min_eq_left hl
  · exact Option.noConfusion h

theorem substitute_exif_year_ne_empty (category d : String) (hc : category ≠ "")
    (hd : d.length = 10) : substitute_exif_year category d ≠ "" := by
  unfold substitute_exif_year
  cases hf : string_find category "{exif_year}" with
  | none => exact hc
  | some pos =>
    intro h
    have h1 := congrArg String.length h
    have hd10 : d.data.length = 10 := hd
    simp only [string_replace, string_substr, String.length, List.length_append,
      List.length_take, List.drop_zero, hd10] at h1
    have h2 : ("" : String).data.length = 0 := rfl
    rw [h2] at h1
    omega

theorem exif_conditions_loop_match (rule : Rule) (exif_date : String) (categoryName : String) :
    ∀ conditions : List Condition,
      (conditions.any fun cond =>
        cond.type = "exif_date_matches" &&
          match cond.values with
          | pattern :: _ => exif_date_matches pattern exif_date
          | [] => false) = true →
      exif_conditions_loop rule exif_date conditions categoryName =
        substitute_exif_year rule.category exif_date := by
  intro conditions
  induction conditions with
  | nil => intro h; simp at h
  | cons cond rest ih =>
    intro h
    rw [List.any_cons, Bool.or_eq_true] at h
    unfold exif_conditions_loop
    by_cases ht : cond.type = "exif_date_matches"
    · rw [if_pos ht]
      cases hv : cond.values with
      | nil =>
        simp only [hv, Bool.and_false] at h
        exact ih (h.resolve_left (by simp))
      | cons pattern more =>
        simp only
        by_cases hm : exif_date_matches pattern exif_date = true
        · rw [if_pos hm]
        · rw [if_neg hm]
          simp only [ht, hv, hm, decide_True, Bool.true_and] at h
          exact ih (h.resolve_left (by simp))
    · rw [if_neg ht]
      simp only [ht, decide_False, Bool.false_and] at h
      exact ih (h.resolve_left (by simp))

theorem exif_rules_loop_first_match (exif_date : String) (rule : Rule) (later : List Rule)
    (hrule : rule_matches_date rule exif_date = true)
    (hne : substitute_exif_year rule.category exif_date ≠ "") :
    ∀ earlier : List Rule, (∀ r ∈ earlier, rule_matches_date r exif_date = false) →
      exif_rules_loop exif_date (earlier ++ rule :: later) "" =
        substitute_exif_year rule.category exif_date := by
  intro earlier
  induction earlier with
  | nil =>
    intro _
    simp only [List.nil_append]
    unfold exif_rules_loop
    simp only [exif_conditions_loop_match rule exif_date "" rule.conditions hrule, ne_eq, hne,
      not_false_eq_true, if_true]
  | cons r rest ih =>
    intro h
    simp only [List.cons_append]
    unfold exif_rules_loop
    have h1 := exif_conditions_loop_no_match r exif_date "" r.conditions
      (h r (List.mem_cons_self _ _))
    simp only [h1, ne_eq, not_true_eq_false, if_false]
    exact ih fun x hx => h x (List.mem_cons_of_mem _ hx)

/-- C8, amended: for an image file with capture date `d` and the first rule that the date
selects, when its category text is not empty, the resolved category (the `reason` of the
action) is the category text in which the first occurrence of the year token, and only
that one, is replaced by the first four characters of `d`; it is the category text itself
when the token does not occur. -/
theorem exif_year_replaces_first_occurrence (self : RuleEngine) (fs : FileSystem)
    (path targetDir : Path) (d : String) (rule : Rule) (earlier later : List Rule)
    (hfile : fs.is_regular_file path = true)
    (himg : string_to_lower_ascii (safe_path_to_string path.extension) ∈ image_extensions)
    (hd : get_exif_date fs path = some d)
    (hrules : self.m_config.rules = earlier ++ rule :: later)
    (hearlier : ∀ r ∈ earlier, rule_matches_date r d = false)
    (hrule : rule_matches_date rule d = true)
    (hne : rule.category ≠ "") :
    resolve_category self fs path = some (substitute_exif_year rule.category d) ∧
    (∀ a, generate_action_for_path self fs path targetDir = some a →
      a.reason = substitute_exif_year rule.category d) ∧
    ((∀ j, starts_with (rule.category.data.drop j) "{exif_year}".data = false) →
      substitute_exif_year rule.category d = rule.category) ∧
    (∀ pos, starts_with (rule.category.data.drop pos) "{exif_year}".data = true →
      (∀ j, j < pos → starts_with (rule.category.data.drop j) "{exif_year}".data = false) →
      (substitute_exif_year rule.category d).data =
        rule.category.data.take pos ++ d.data.take 4 ++ rule.category.data.drop (pos + 11)) := by
  have hsub := substitute_exif_year_ne_empty rule.category d hne (get_exif_date_length fs path d hd)
  have hres : resolve_category self fs path = some (substitute_exif_year rule.category d) := by
    unfold resolve_category
    rw [if_pos hfile]
    congr 1
    unfold classify_regular_file
    have hany : (image_extensions.any fun img_ext =>
        decide (string_to_lower_ascii (safe_path_to_string path.extension) = img_ext)) = true := by
      rw [List.any_eq_true]
      exact ⟨_, himg, by simp⟩
    simp only [hany, if_true, hd, hrules]
    rw [exif_rules_loop_first_match d rule later hrule hsub earlier hearlier]
    rw [if_neg hsub]
  refine ⟨hres, ?_, ?_, ?_⟩
  · intro a ha
    obtain ⟨c, hc, -, -, rfl⟩ := generate_action_for_path_some self fs path targetDir a ha
    rw [hres] at hc
    exact (Option.some.inj hc).symm
  · intro h
    unfold substitute_exif_year string_find
    rw [find_from_eq_none _ _ 0 h]
  · intro pos h1 h2
    unfold substitute_exif_year string_find
    rw [find_from_eq_some _ _ 0 pos h1 h2]
    simp [string_replace, string_substr]

/-- Scenario D: the image taken on 2023-06-15 and the rule with category
`Photos/{exif_year}` and pattern `2023-06-**` give the reason `Photos/2023`. -/
theorem exif_year_replaces_first_occurrence_witness :
    generate_action_for_path scenario_d_engine scenario_d_fs "/tmp/t/holiday.jpg" "/tmp/t" =
      some ⟨"/tmp/t/holiday.jpg", "/tmp/t/Photos/2023/holiday.jpg", "Photos/2023"⟩ ∧
    substitute_exif_year scenario_d_rule.category "2023-06-15" = "Photos/2023" ∧
    resolve_category scenario_d_engine scenario_d_fs "/tmp/t/holiday.jpg" =
      some (substitute_exif_year scenario_d_rule.category "2023-06-15") :=
  ⟨by decide, by decide,
    (exif_year_replaces_first_occurrence scenario_d_engine scenario_d_fs "/tmp/t/holiday.jpg"
      "/tmp/t" "2023-06-15" scenario_d_rule [] [] (by decide) (by decide) (by decide) rfl
      (fun r hr => absurd hr (List.not_mem_nil r)) (by decide) (by decide)).1⟩

/-- C8 as stated fails: for the image of scenario D and a winning rule whose category is
`{exif_year}/{exif_year}`, the reason is `2023/{exif_year}`, not the category with every
occurrence of the token replaced, which is `2023/2023`. -/
theorem exif_year_not_every_occurrence :
    rule_matches_date two_tokens_rule "2023-06-15" = true ∧
    get_exif_date scenario_d_fs "/tmp/t/holiday.jpg" = some "2023-06-15" ∧
    (generate_action_for_path two_tokens_engine scenario_d_fs "/tmp/t/holiday.jpg" "/tmp/t").map
      Action.reason = some "2023/{exif_year}" ∧
    replace_every_occurrence two_tokens_rule.category "{exif_year}" "2023" = "2023/2023" ∧
    (generate_action_for_path two_tokens_engine scenario_d_fs "/tmp/t/holiday.jpg" "/tmp/t").map
      Action.reason ≠
      some (replace_every_occurrence two_tokens_rule.category "{exif_year}" "2023") := by
  decide

/-! ## Decimal digits -/

theorem digitChar_value (d : Nat) (h : d < 10) : (Nat.digitChar d).toNat - 48 = d := by
  interval_cases d <;> rfl

theorem digitChar_ne_separator (d : Nat) (h : d < 10) : Nat.digitChar d ≠ '/' := by
  interval_cases d <;> decide

theorem toDigitsCore_append_digits :
    ∀ (fuel n : Nat) (ds : List Char),
      Nat.toDigitsCore 10 fuel n ds = Nat.toDigitsCore 10 fuel n [] ++ ds := by
  intro fuel
  induction fuel with
  | zero => intro n ds; rfl
  | succ fuel ih =>
    intro n ds
    unfold Nat.toDigitsCore
    by_cases h : n / 10 = 0
    · simp [h]
    · simp only [h, if_false]
      rw [ih (n / 10) (Nat.digitChar (n % 10) :: ds), ih (n / 10) [Nat.digitChar (n % 10)]]
      simp

theorem digits_value_toDigitsCore :
    ∀ fuel n : Nat, n < fuel → digits_value (Nat.toDigitsCore 10 fuel n []) = n := by
  intro fuel
  induction fuel with
  | zero => intro n h; omega
  | succ fuel ih =>
    intro n hn
    unfold Nat.toDigitsCore
    by_cases h : n / 10 = 0
    · simp only [h, if_true, digits_value, List.foldl_cons, List.foldl_nil]
      rw [digitChar_value _ (Nat.mod_lt n (by norm_num))]
      omega
    · simp only [h, if_false]
      rw [toDigitsCore_append_digits]
      have hlt : n / 10 < fuel := by omega
      have := ih (n / 10) hlt
      unfold digits_value at this ⊢
      rw [List.foldl_append, this]
      simp only [List.foldl_cons, List.foldl_nil]
      rw [digitChar_value _ (Nat.mod_lt n (by norm_num))]
      omega

theorem format_int_injective (n m : Nat) (h : format_int n = format_int m) : n = m := by
  have h1 : Nat.toDigits 10 n = Nat.toDigits 10 m := congrArg String.data h
  have h2 := congrArg digits_value h1
  unfold Nat.toDigits at h2
  rwa [digits_value_toDigitsCore _ _ (Nat.lt_succ_self n),
    digits_value_toDigitsCore _ _ (Nat.lt_succ_self m)] at h2

theorem toDigitsCore_no_separator :
    ∀ (fuel n : Nat) (ds : List Char), '/' ∉ ds → '/' ∉ Nat.toDigitsCore 10 fuel n ds := by
  intro fuel
  induction fuel with
  | zero => intro n ds h; exact h
  | succ fuel ih =>
    intro n ds h
    unfold Nat.toDigitsCore
    have hd : '/' ∉ Nat.digitChar (n % 10) :: ds := by
      intro hmem
      rcases List.mem_cons.mp hmem with h1 | h1
      · exact digitChar_ne_separator _ (Nat.mod_lt n (by norm_num)) h1.symm
      · exact h h1
    by_cases h0 : n / 10 = 0
    · simp only [h0, if_true]
      exact hd
    · simp only [h0, if_false]
      exact ih _ _ hd

theorem format_int_no_separator (n : Nat) : '/' ∉ (format_int n).data :=
  toDigitsCore_no_separator _ _ [] (List.not_mem_nil _)

/-! ## Pieces of a path -/

theorem split_separators_cons (c : Char) (cs : List Char) :
    split_separators (c :: cs) =
      if c = '/' then [] :: split_separators cs else prepend_char c (split_separators cs) :=
  rfl

theorem split_separators_ne_nil : ∀ l : List Char, split_separators l ≠ [] := by
  intro l
  cases l with
  | nil => simp [split_separators]
  | cons c cs =>
    unfold split_separators
    split_ifs
    · simp
    · cases split_separators cs <;> simp [prepend_char]

theorem split_separators_of_no_separator :
    ∀ f : List Char, '/' ∉ f → split_separators f = [f] := by
  intro f
  induction f with
  | nil => intro _; rfl
  | cons c cs ih =>
    intro h
    have hc : c ≠ '/' := fun e => h (e ▸ List.mem_cons_self _ _)
    have hcs : '/' ∉ cs := fun e => h (List.mem_cons_of_mem _ e)
    unfold split_separators
    rw [if_neg hc, ih hcs]
    rfl

theorem prepend_char_join_pieces (c : Char) :
    ∀ xs ys : List (List Char), xs ≠ [] → ys ≠ [] →
      prepend_char c (join_pieces xs ys) = join_pieces (prepend_char c xs) ys := by
  intro xs ys hx hy
  cases xs with
  | nil => exact absurd rfl hx
  | cons x rest =>
    cases rest with
    | nil =>
      cases ys with
      | nil => exact absurd rfl hy
      | cons hd tl => rfl
    | cons y more => rfl

theorem split_separators_append :
    ∀ p q : List Char,
      split_separators (p ++ q) = join_pieces (split_separators p) (split_separators q) := by
  intro p q
  induction p with
  | nil =>
    have hq := split_separators_ne_nil q
    cases hs : split_separators q with
    | nil => exact absurd hs hq
    | cons hd tl => simp [split_separators, join_pieces, hs]
  | cons c cs ih =>
    rw [List.cons_append, split_separators_cons, split_separators_cons]
    by_cases hc : c = '/'
    · rw [if_pos hc, if_pos hc, ih]
      have hcs := split_separators_ne_nil cs
      cases hs : split_separators cs with
      | nil => exact absurd hs hcs
      | cons y rest => rfl
    · rw [if_neg hc, if_neg hc, ih]
      exact prepend_char_join_pieces c _ _ (split_separators_ne_nil cs)
        (split_separators_ne_nil q)

theorem join_pieces_snoc (piece hd : List Char) (tl : List (List Char)) :
    ∀ init : List (List Char),
      join_pieces (init ++ [piece]) (hd :: tl) = init ++ (piece ++ hd) :: tl := by
  intro init
  induction init with
  | nil => rfl
  | cons x rest ih =>
    cases hrest : rest ++ [piece] with
    | nil => simp at hrest
    | cons y ys =>
      simp only [List.cons_append, hrest, join_pieces]
      rw [← hrest, ih]

theorem last_piece_append (init : List (List Char)) (piece : List Char) :
    last_piece (init ++ [piece]) = piece := by
  induction init with
  | nil => rfl
  | cons x rest ih =>
    cases hrest : rest ++ [piece] with
    | nil => simp at hrest
    | cons y ys =>
      simp only [List.cons_append, hrest, last_piece]
      rw [← hrest]
      exact ih

theorem last_piece_decompose :
    ∀ l : List (List Char), l ≠ [] → ∃ init, l = init ++ [last_piece l] := by
  intro l
  induction l with
  | nil => intro h; exact absurd rfl h
  | cons x rest ih =>
    intro _
    cases rest with
    | nil => exact ⟨[], rfl⟩
    | cons y ys =>
      obtain ⟨init, h⟩ := ih (List.cons_ne_nil y ys)
      refine ⟨x :: init, ?_⟩
      simp only [last_piece, List.cons_append, List.cons.injEq, true_and]
      exact h

theorem split_separators_no_separator :
    ∀ (l : List Char) (piece : List Char), piece ∈ split_separators l → '/' ∉ piece := by
  intro l
  induction l with
  | nil =>
    intro piece h
    simp only [split_separators, List.mem_singleton] at h
    rw [h]
    exact List.not_mem_nil _
  | cons c cs ih =>
    intro piece h
    unfold split_separators at h
    by_cases hc : c = '/'
    · rw [if_pos hc] at h
      rcases List.mem_cons.mp h with h1 | h1
      · rw [h1]; exact List.not_mem_nil _
      · exact ih piece h1
    · rw [if_neg hc] at h
      cases hs : split_separators cs with
      | nil => exact absurd hs (split_separators_ne_nil cs)
      | cons p0 rest =>
        rw [hs] at h ih
        rcases List.mem_cons.mp h with h1 | h1
        · rw [h1]
          intro hm
          rcases List.mem_cons.mp hm with h2 | h2
          · exact hc h2.symm
          · exact ih p0 (List.mem_cons_self _ _) h2
        · exact ih piece (List.mem_cons_of_mem _ h1)

theorem last_piece_mem : ∀ l : List (List Char), l ≠ [] → last_piece l ∈ l := by
  intro l hl
  obtain ⟨init, h⟩ := last_piece_decompose l hl
  rw [List.mem_iff_append]
  exact ⟨init, [], by simpa using h⟩

/-! ## Locations -/

theorem resolve_names_cons (base : List String) (name : String) (rest : List String) :
    resolve_names base (name :: rest) =
      if name = "" ∨ name = "." then resolve_names base rest
      else if name = ".." then resolve_names base.dropLast rest
      else resolve_names (base ++ [name]) rest :=
  rfl

theorem resolve_names_append :
    ∀ (xs ys base : List String),
      resolve_names base (xs ++ ys) = resolve_names (resolve_names base xs) ys := by
  intro xs
  induction xs with
  | nil => intro ys base; rfl
  | cons x rest ih =>
    intro ys base
    rw [List.cons_append, resolve_names_cons, resolve_names_cons]
    split_ifs
    · exact ih ys base
    · exact ih ys _
    · exact ih ys _

theorem resolve_names_plain (base : List String) (name : String)
    (h1 : name ≠ "") (h2 : name ≠ ".") (h3 : name ≠ "..") :
    resolve_names base [name] = base ++ [name] := by
  unfold resolve_names
  rw [if_neg (by simp [h1, h2]), if_neg h3]
  rfl

theorem resolve_names_empty (base : List String) : resolve_names base [""] = base := by
  unfold resolve_names
  rw [if_pos (Or.inl rfl)]
  rfl

/-- The location of `p / name`, for a name without separator that is neither empty nor
`.` nor `..`: the location of `p` followed by the name. -/
theorem locate_append_name (fs : FileSystem) (p : Path) (f : List Char)
    (hsep : '/' ∉ f) (h1 : f ≠ []) (h2 : f ≠ ['.']) (h3 : f ≠ ['.', '.']) :
    fs.locate (p / Path.mk ⟨f⟩) = fs.locate p ++ [⟨f⟩] := by
  have hname1 : (⟨f⟩ : String) ≠ "" := fun h => h1 (congrArg String.data h)
  have hname2 : (⟨f⟩ : String) ≠ "." := fun h => h2 (congrArg String.data h)
  have hname3 : (⟨f⟩ : String) ≠ ".." := fun h => h3 (congrArg String.data h)
  have hroot : (Path.mk ⟨f⟩).has_root_directory = false := by
    unfold Path.has_root_directory
    cases f with
    | nil => exact absurd rfl h1
    | cons c cs =>
      have : c ≠ '/' := fun e => hsep (e ▸ List.mem_cons_self _ _)
      simp [this]
  obtain ⟨init, hinit⟩ := last_piece_decompose _ (split_separators_ne_nil p.native.data)
  show fs.locate (Path.append p (Path.mk ⟨f⟩)) = _
  unfold Path.append
  rw [hroot]
  simp only [Bool.false_eq_true, if_false]
  unfold Path.filename
  simp only
  by_cases hlast : last_piece (split_separators p.native.data) = []
  · rw [if_neg (by simpa using hlast)]
    unfold FileSystem.locate
    have hhead : (Path.mk ⟨p.native.data ++ f⟩).has_root_directory = p.has_root_directory := by
      unfold Path.has_root_directory
      cases hp : p.native.data with
      | nil =>
        cases f with
        | nil => exact absurd rfl h1
        | cons c cs =>
          have : c ≠ '/' := fun e => hsep (e ▸ List.mem_cons_self _ _)
          simp [this]
      | cons c cs => simp
    rw [hhead]
    simp only
    rw [split_separators_append, split_separators_of_no_separator f hsep, hinit, hlast,
      join_pieces_snoc]
    simp only [List.nil_append, List.map_append, List.map_cons, List.map_nil]
    rw [resolve_names_append, resolve_names_append, resolve_names_plain _ _ hname1 hname2 hname3]
    congr 1
  · rw [if_pos (by simpa using hlast)]
    unfold FileSystem.locate
    have hne : p.native.data ≠ [] := by
      intro h
      rw [h] at hlast
      exact hlast rfl
    have hhead : (Path.mk ⟨p.native.data ++ '/' :: f⟩).has_root_directory =
        p.has_root_directory := by
      unfold Path.has_root_directory
      cases hp : p.native.data with
      | nil => exact absurd hp hne
      | cons c cs => simp
    rw [hhead]
    simp only
    have hq : split_separators ('/' :: f) = [[], f] := by
      rw [split_separators_cons, if_pos rfl, split_separators_of_no_separator f hsep]
    rw [split_separators_append, hq, hinit, join_pieces_snoc]
    simp only [List.append_nil, List.map_append, List.map_cons, List.map_nil]
    rw [show init.map String.mk ++ [String.mk (last_piece (split_separators p.native.data)),
          String.mk f] =
        (init.map String.mk ++ [String.mk (last_piece (split_separators p.native.data))]) ++
          [String.mk f] by simp]
    rw [resolve_names_append _ [String.mk f], resolve_names_plain _ _ hname1 hname2 hname3]

theorem lookup_append_name (name : String) :
    ∀ (loc : List String) (n : Node),
      n.lookup (loc ++ [name]) =
        match n.lookup loc with
        | some (.dir _ children) => find_child name children
        | _ => none := by
  intro loc
  induction loc with
  | nil =>
    intro n
    cases n with
    | file exif => rfl
    | dir readable children =>
      simp only [List.nil_append, Node.lookup]
      cases find_child name children <;> rfl
  | cons x rest ih =>
    intro n
    cases n with
    | file exif => rfl
    | dir readable children =>
      simp only [List.cons_append, Node.lookup]
      cases find_child x children with
      | none => rfl
      | some child => exact ih child

theorem find_child_mem (name : String) :
    ∀ (children : List (String × Node)) (child : Node),
      find_child name children = some child → name ∈ children.map Prod.fst := by
  intro children
  induction children with
  | nil => intro child h; simp [find_child] at h
  | cons entry rest ih =>
    intro child h
    unfold find_child at h
    by_cases he : entry.1 = name
    · rw [List.map_cons, ← he]
      exact List.mem_cons_self _ _
    · rw [if_neg he] at h
      exact List.mem_cons_of_mem _ (ih child h)

/-! ## C9 -/

theorem split_last_period_append :
    ∀ (l front back : List Char), split_last_period l = some (front, back) → front ++ back = l := by
  intro l
  induction l with
  | nil => intro front back h; simp [split_last_period] at h
  | cons c cs ih =>
    intro front back h
    unfold split_last_period at h
    cases hs : split_last_period cs with
    | some fb =>
      obtain ⟨f1, b1⟩ := fb
      rw [hs] at h
      simp only [Option.some.injEq, Prod.mk.injEq] at h
      obtain ⟨rfl, rfl⟩ := h
      rw [List.cons_append, ih f1 b1 hs]
    | none =>
      rw [hs] at h
      simp only at h
      split_ifs at h
      simp only [Option.some.injEq, Prod.mk.injEq] at h
      obtain ⟨rfl, rfl⟩ := h
      rfl

theorem extension_of_subset (name : List Char) (c : Char) (h : c ∈ extension_of name) :
    c ∈ name := by
  unfold extension_of at h
  split_ifs at h
  · exact absurd h (List.not_mem_nil c)
  · cases hs : split_last_period name with
    | none => rw [hs] at h; exact absurd h (List.not_mem_nil c)
    | some fb =>
      obtain ⟨front, back⟩ := fb
      rw [hs] at h
      simp only at h
      split_ifs at h
      · exact absurd h (List.not_mem_nil c)
      · rw [← split_last_period_append name front back hs]
        exact List.mem_append_right _ h

theorem filename_no_separator (p : Path) : '/' ∉ p.filename.native.data :=
  split_separators_no_separator p.native.data _
    (last_piece_mem _ (split_separators_ne_nil p.native.data))

theorem unique_filename_data (t : Path) (n : Nat) :
    (unique_filename t n).data =
      t.stem.native.data ++ (" (".data ++ ((format_int n).data ++ (")".data ++
        t.extension.native.data))) := by
  simp [unique_filename, safe_path_to_string, String.data_append]

theorem unique_filename_no_separator (t : Path) (n : Nat) : '/' ∉ (unique_filename t n).data := by
  rw [unique_filename_data]
  intro h
  rcases List.mem_append.mp h with h | h
  · exact filename_no_separator t (List.mem_of_mem_take h)
  · rcases List.mem_append.mp h with h | h
    · revert h; decide
    · rcases List.mem_append.mp h with h | h
      · exact format_int_no_separator n h
      · rcases List.mem_append.mp h with h | h
        · revert h; decide
        · exact filename_no_separator t (extension_of_subset _ _ h)

theorem unique_filename_has_bracket (t : Path) (n : Nat) : '(' ∈ (unique_filename t n).data := by
  rw [unique_filename_data]
  exact List.mem_append_right _ (List.mem_append_left _ (by decide))

theorem unique_filename_injective (t : Path) (n m : Nat)
    (h : unique_filename t n = unique_filename t m) : n = m := by
  have h1 := congrArg String.data h
  rw [unique_filename_data, unique_filename_data] at h1
  have h2 := List.append_cancel_left (List.append_cancel_left h1)
  have h3 : (format_int n).data.length = (format_int m).data.length := by
    have := congrArg List.length h2
    simp only [List.length_append] at this
    omega
  have h4 := (List.append_inj h2 h3).1
  exact format_int_injective n m (String.ext h4)

theorem locate_unique_candidate (fs : FileSystem) (t : Path) (n : Nat) :
    fs.locate (unique_candidate t n) = fs.locate t.parent_path ++ [unique_filename t n] := by
  have hb := unique_filename_has_bracket t n
  exact locate_append_name fs t.parent_path (unique_filename t n).data
    (unique_filename_no_separator t n)
    (fun h => by rw [h] at hb; exact absurd hb (List.not_mem_nil _))
    (fun h => by rw [h] at hb; revert hb; decide)
    (fun h => by rw [h] at hb; revert hb; decide)

theorem exists_unique_candidate (fs : FileSystem) (t : Path) (n : Nat)
    (h : fs.exists_ (unique_candidate t n) = true) :
    ∃ readable children child,
      fs.root.lookup (fs.locate t.parent_path) = some (.dir readable children) ∧
      find_child (unique_filename t n) children = some child := by
  unfold FileSystem.exists_ FileSystem.status at h
  split_ifs at h with h0
  · exact absurd h (by simp)
  · rw [locate_unique_candidate, lookup_append_name] at h
    cases hl : fs.root.lookup (fs.locate t.parent_path) with
    | none => rw [hl] at h; exact absurd h (by simp)
    | some node =>
      cases node with
      | file exif => rw [hl] at h; exact absurd h (by simp)
      | dir readable children =>
        rw [hl] at h
        simp only at h
        cases hc : find_child (unique_filename t n) children with
        | none => rw [hc] at h; exact absurd h (by simp)
        | some child => exact ⟨readable, children, child, rfl, hc⟩

/-- No more candidates in a row exist than the parent directory has entries. -/
theorem existing_candidates_bound (fs : FileSystem) (t : Path) (n : Nat)
    (h : ∀ m, 1 ≤ m → m ≤ n → fs.exists_ (unique_candidate t m) = true) :
    n ≤ fs.entry_count t.parent_path := by
  cases n with
  | zero => exact Nat.zero_le _
  | succ k =>
    obtain ⟨readable, children, -, hl, -⟩ :=
      exists_unique_candidate fs t 1 (h 1 (le_refl 1) (by omega))
    have hcount : fs.entry_count t.parent_path = children.length := by
      unfold FileSystem.entry_count
      rw [hl]
    rw [hcount]
    have hnodup : ((List.range (k + 1)).map fun i => unique_filename t (i + 1)).Nodup := by
      refine (List.nodup_range (k + 1)).map ?_
      intro i j hij
      have := unique_filename_injective t _ _ hij
      omega
    have hsub : ((List.range (k + 1)).map fun i => unique_filename t (i + 1)) ⊆
        children.map Prod.fst := by
      intro name hname
      rw [List.mem_map] at hname
      obtain ⟨i, hi, rfl⟩ := hname
      rw [List.mem_range] at hi
      obtain ⟨r2, c2, child, hl2, hc⟩ :=
        exists_unique_candidate fs t (i + 1) (h (i + 1) (by omega) (by omega))
      rw [hl] at hl2
      cases hl2
      exact find_child_mem _ _ child hc
    have := (List.subperm_of_subset hnodup hsub).length_le
    simpa using this

theorem unique_path_loop_spec (fs : FileSystem) (t : Path) :
    ∀ fuel counter : Nat, ∃ n, counter ≤ n ∧ n ≤ counter + fuel ∧
      unique_path_loop fs t fuel counter = unique_candidate t n ∧
      (∀ m, counter ≤ m → m < n → fs.exists_ (unique_candidate t m) = true) ∧
      (n < counter + fuel → fs.exists_ (unique_candidate t n) = false) := by
  intro fuel
  induction fuel with
  | zero =>
    intro counter
    exact ⟨counter, le_refl _, le_refl _, rfl, fun m h1 h2 => by omega, fun h => by omega⟩
  | succ fuel ih =>
    intro counter
    unfold unique_path_loop
    by_cases hex : fs.exists_ (unique_candidate t counter) = true
    · simp only [hex, if_true]
      obtain ⟨n, h1, h2, h3, h4, h5⟩ := ih (counter + 1)
      refine ⟨n, by omega, by omega, h3, ?_, fun h => h5 (by omega)⟩
      intro m hm1 hm2
      rcases Nat.eq_or_lt_of_le hm1 with h6 | h6
      · rw [← h6]; exact hex
      · exact h4 m h6 hm2
    · simp only [hex, if_false]
      exact ⟨counter, le_refl _, by omega, rfl, fun m h1 h2 => by omega,
        fun _ => by simpa using hex⟩

/-- C9: `generate_unique_path` returns the target path itself when it does not exist, and
otherwise `parent(t) / "<stem> (n)<ext>"` for the smallest `n >= 1` for which that path
does not exist; the path it returns never exists in the file system. -/
theorem generate_unique_path_is_free (fs : FileSystem) (t : Path) :
    (fs.exists_ t = false → generate_unique_path fs t = t) ∧
    (fs.exists_ t = true → ∃ n, 1 ≤ n ∧
      generate_unique_path fs t =
        t.parent_path /
          Path.mk (t.stem.native ++ " (" ++ format_int n ++ ")" ++ t.extension.native) ∧
      fs.exists_ (t.parent_path /
          Path.mk (t.stem.native ++ " (" ++ format_int n ++ ")" ++ t.extension.native)) = false ∧
      ∀ m, 1 ≤ m → m < n →
        fs.exists_ (t.parent_path /
          Path.mk (t.stem.native ++ " (" ++ format_int m ++ ")" ++ t.extension.native)) = true) ∧
    fs.exists_ (generate_unique_path fs t) = false := by
  have hfound : fs.exists_ t = true → ∃ n, 1 ≤ n ∧
      generate_unique_path fs t = unique_candidate t n ∧
      fs.exists_ (unique_candidate t n) = false ∧
      ∀ m, 1 ≤ m → m < n → fs.exists_ (unique_candidate t m) = true := by
    intro hex
    unfold generate_unique_path
    simp only [hex, Bool.not_true, Bool.false_eq_true, if_false]
    obtain ⟨n, h1, h2, h3, h4, h5⟩ :=
      unique_path_loop_spec fs t (fs.entry_count t.parent_path) 1
    refine ⟨n, h1, h3, ?_, h4⟩
    by_cases hlt : n < 1 + fs.entry_count t.parent_path
    · exact h5 hlt
    · by_contra hcon
      have hall : ∀ m, 1 ≤ m → m ≤ n → fs.exists_ (unique_candidate t m) = true := by
        intro m hm1 hm2
        rcases Nat.eq_or_lt_of_le hm2 with h6 | h6
        · rw [h6]; simpa using hcon
        · exact h4 m hm1 h6
      have := existing_candidates_bound fs t n hall
      omega
  refine ⟨?_, ?_, ?_⟩
  · intro h
    unfold generate_unique_path
    simp [h]
  · intro hex
    obtain ⟨n, h1, h2, h3, h4⟩ := hfound hex
    exact ⟨n, h1, h2, h3, h4⟩
  · by_cases hex : fs.exists_ t = true
    · obtain ⟨n, -, h2, h3, -⟩ := hfound hex
      rw [h2]
      exact h3
    · have hf : fs.exists_ t = false := by simpa using hex
      have : generate_unique_path fs t = t := by
        unfold generate_unique_path
        simp [hf]
      rw [this]
      exact hf

/-- With `report.pdf` and `report (1).pdf` present, the unique path for `report.pdf` is
`report (2).pdf`, which does not exist; a path that does not exist is returned as it is. -/
theorem generate_unique_path_is_free_witness :
    collision_fs.exists_ "/tmp/t/Documents/report.pdf" = true ∧
    generate_unique_path collision_fs "/tmp/t/Documents/report.pdf" =
      "/tmp/t/Documents/report (2).pdf" ∧
    generate_unique_path collision_fs "/tmp/t/Documents/new.pdf" = "/tmp/t/Documents/new.pdf" ∧
    collision_fs.exists_ (generate_unique_path collision_fs "/tmp/t/Documents/report.pdf") =
      false :=
  ⟨by decide, by decide, by decide,
    (generate_unique_path_is_free collision_fs "/tmp/t/Documents/report.pdf").2.2⟩

/-! ## C10 -/

theorem execute_loop_cons (stop_requested : Nat → Bool) (action : Action) (rest : List Action)
    (k : Nat) (fs : FileSystem) (final_journal : List JournalEntry) :
    execute_loop stop_requested (action :: rest) k fs final_journal =
      if stop_requested k then (fs, final_journal)
      else
        match (if !fs.exists_ action.to_.parent_path then
            fs.create_directories action.to_.parent_path else some fs) with
        | none => execute_loop stop_requested rest (k + 1) fs final_journal
        | some fs_created =>
          match fs_created.rename action.from_ (generate_unique_path fs_created action.to_) with
          | some fs_moved =>
            execute_loop stop_requested rest (k + 1) fs_moved
              (final_journal ++
                [⟨ActionType.MOVE, action.from_, generate_unique_path fs_created action.to_⟩])
          | none => execute_loop stop_requested rest (k + 1) fs_created final_journal :=
  rfl

/-- Without cancellation the number of the action does not matter. -/
theorem execute_loop_index :
    ∀ (actions : List Action) (k : Nat) (fs : FileSystem) (journal : List JournalEntry),
      execute_loop (fun _ => false) actions k fs journal =
        execute_loop (fun _ => false) actions 0 fs journal := by
  intro actions
  induction actions with
  | nil => intro k fs journal; rfl
  | cons a rest ih =>
    intro k fs journal
    rw [execute_loop_cons, execute_loop_cons]
    simp only [Bool.false_eq_true, if_false]
    split
    · rw [ih (k + 1), ih (0 + 1)]
    · split
      · rw [ih (k + 1), ih (0 + 1)]
      · rw [ih (k + 1), ih (0 + 1)]

theorem execute_loop_append :
    ∀ (xs ys : List Action) (fs : FileSystem) (journal : List JournalEntry),
      execute_loop (fun _ => false) (xs ++ ys) 0 fs journal =
        execute_loop (fun _ => false) ys 0
          (execute_loop (fun _ => false) xs 0 fs journal).1
          (execute_loop (fun _ => false) xs 0 fs journal).2 := by
  intro xs
  induction xs with
  | nil => intro ys fs journal; rfl
  | cons a rest ih =>
    intro ys fs journal
    rw [List.cons_append, execute_loop_cons, execute_loop_cons]
    simp only [Bool.false_eq_true, if_false]
    split
    · rw [execute_loop_index _ (0 + 1), execute_loop_index _ (0 + 1), ih]
    · split
      · rw [execute_loop_index _ (0 + 1), execute_loop_index _ (0 + 1), ih]
      · rw [execute_loop_index _ (0 + 1), execute_loop_index _ (0 + 1), ih]

theorem execute_loop_journal :
    ∀ (actions : List Action) (k : Nat) (fs : FileSystem) (journal : List JournalEntry),
      ∃ added : List JournalEntry,
        (execute_loop (fun _ => false) actions k fs journal).2 = journal ++ added ∧
        (added.map JournalEntry.from_).Sublist (actions.map Action.from_) := by
  intro actions
  induction actions with
  | nil =>
    intro k fs journal
    exact ⟨[], by simp [execute_loop], List.Sublist.refl _⟩
  | cons a rest ih =>
    intro k fs journal
    rw [execute_loop_cons, if_neg (by simp)]
    split
    · obtain ⟨added, h1, h2⟩ := ih (k + 1) fs journal
      exact ⟨added, h1, by rw [List.map_cons]; exact h2.cons _⟩
    · rename_i fs_created _
      split
      · rename_i fs_moved _
        obtain ⟨added, h1, h2⟩ := ih (k + 1) fs_moved
          (journal ++ [⟨ActionType.MOVE, a.from_, generate_unique_path fs_created a.to_⟩])
        refine ⟨⟨ActionType.MOVE, a.from_, generate_unique_path fs_created a.to_⟩ :: added,
          by rw [h1]; simp, ?_⟩
        rw [List.map_cons, List.map_cons]
        exact h2.cons₂ _
      · obtain ⟨added, h1, h2⟩ := ih (k + 1) fs_created journal
        exact ⟨added, h1, by rw [List.map_cons]; exact h2.cons _⟩

/-- C10: without cancellation, every action is attempted in turn on the file system the
actions before it have left, whether they succeeded or not, and adds to the end of the
journal exactly one `MOVE` entry, with the `from` of the action and the realized
destination, when its rename succeeds, and nothing when the creation of the parent
directory or the rename fails; the `from` paths of the journal are a subsequence of the
`from` paths of the actions. -/
theorem journal_follows_successful_moves (fs : FileSystem) :
    execute_plan (fun _ => false) fs [] = (fs, []) ∧
    (∀ (actions : List Action) (a : Action),
      execute_plan (fun _ => false) fs (actions ++ [a]) =
        match (if !(execute_plan (fun _ => false) fs actions).1.exists_ a.to_.parent_path then
            (execute_plan (fun _ => false) fs actions).1.create_directories a.to_.parent_path
            else some (execute_plan (fun _ => false) fs actions).1) with
        | none => execute_plan (fun _ => false) fs actions
        | some fs_created =>
          match fs_created.rename a.from_ (generate_unique_path fs_created a.to_) with
          | some fs_moved =>
            (fs_moved, (execute_plan (fun _ => false) fs actions).2 ++
              [⟨ActionType.MOVE, a.from_, generate_unique_path fs_created a.to_⟩])
          | none => (fs_created, (execute_plan (fun _ => false) fs actions).2)) ∧
    (∀ actions : List Action,
      ((execute_plan (fun _ => false) fs actions).2.map JournalEntry.from_).Sublist
        (actions.map Action.from_)) ∧
    (∀ actions : List Action, ∀ e ∈ (execute_plan (fun _ => false) fs actions).2,
      e.action = ActionType.MOVE) := by
  refine ⟨rfl, ?_, ?_, ?_⟩
  · intro actions a
    unfold execute_plan
    rw [execute_loop_append, execute_loop_cons]
    simp only [Bool.false_eq_true, if_false]
    split
    · rfl
    · split
      · rfl
      · rfl
  · intro actions
    obtain ⟨added, h1, h2⟩ := execute_loop_journal actions 0 fs []
    unfold execute_plan
    rw [h1]
    simpa using h2
  · intro actions e _
    cases h : e.action
    rfl

/-- Three actions on the file system `collision_fs`: the first meets an existing
destination and is realized as `report (2).pdf`, the second has no source and fails, the
third is still attempted and succeeds after its parent directory is created; the journal
holds the first and the third, in that order. -/
theorem journal_follows_successful_moves_witness :
    (execute_plan (fun _ => false) collision_fs
      [⟨"/tmp/t/new.pdf", "/tmp/t/Documents/report.pdf", "Documents"⟩,
        ⟨"/tmp/t/missing.txt", "/tmp/t/Other/missing.txt", "Other"⟩,
        ⟨"/tmp/t/Documents/report.pdf", "/tmp/t/Archive/report.pdf", "Archive"⟩]).2 =
      [⟨ActionType.MOVE, "/tmp/t/new.pdf", "/tmp/t/Documents/report (2).pdf"⟩,
        ⟨ActionType.MOVE, "/tmp/t/Documents/report.pdf", "/tmp/t/Archive/report.pdf"⟩] ∧
    ((execute_plan (fun _ => false) collision_fs
      [⟨"/tmp/t/new.pdf", "/tmp/t/Documents/report.pdf", "Documents"⟩,
        ⟨"/tmp/t/missing.txt", "/tmp/t/Other/missing.txt", "Other"⟩,
        ⟨"/tmp/t/Documents/report.pdf", "/tmp/t/Archive/report.pdf", "Archive"⟩]).2.map
      JournalEntry.from_).Sublist
      (([⟨"/tmp/t/new.pdf", "/tmp/t/Documents/report.pdf", "Documents"⟩,
        ⟨"/tmp/t/missing.txt", "/tmp/t/Other/missing.txt", "Other"⟩,
        ⟨"/tmp/t/Documents/report.pdf", "/tmp/t/Archive/report.pdf", "Archive"⟩] :
          List Action).map Action.from_) :=
  ⟨by decide, (journal_follows_successful_moves collision_fs).2.2.1 _⟩

/-! ## C11 -/

theorem find_child_replace (name : String) (g : Node → Node) (x : String) :
    ∀ children : List (String × Node),
      find_child x (children.map fun entry =>
          if entry.1 = name then (entry.1, g entry.2) else entry) =
        if x = name then (find_child x children).map g else find_child x children := by
  intro children
  induction children with
  | nil => simp [find_child]
  | cons entry rest ih =>
    rw [List.map_cons]
    by_cases he : entry.1 = name
    · rw [if_pos he]
      unfold find_child
      by_cases hx : entry.1 = x
      · have : x = name := hx ▸ he
        simp [hx, this]
      · rw [if_neg hx, if_neg hx, ih]
    · rw [if_neg he]
      unfold find_child
      by_cases hx : entry.1 = x
      · have : ¬ x = name := fun e => he (hx.trans e)
        simp [hx, this]
      · rw [if_neg hx, if_neg hx, ih]

theorem find_child_filter (name x : String) :
    ∀ children : List (String × Node),
      find_child x (children.filter fun entry => entry.1 ≠ name) =
        if x = name then none else find_child x children := by
  intro children
  induction children with
  | nil => simp [find_child]
  | cons entry rest ih =>
    by_cases he : entry.1 = name
    · rw [List.filter_cons_of_neg (by simpa using he), ih]
      by_cases hx : x = name
      · rw [if_pos hx, if_pos hx]
      · rw [if_neg hx, if_neg hx]
        have : ¬ entry.1 = x := fun e => hx (e ▸ he)
        conv_rhs => unfold find_child
        rw [if_neg this]
    · rw [List.filter_cons_of_pos (by simpa using he)]
      unfold find_child
      by_cases hx : entry.1 = x
      · have : ¬ x = name := fun e => he (hx.trans e)
        simp [hx, this]
      · rw [if_neg hx, if_neg hx, ih]

theorem find_child_append (x : String) :
    ∀ children more : List (String × Node),
      find_child x (children ++ more) =
        match find_child x children with
        | some child => some child
        | none => find_child x more := by
  intro children more
  induction children with
  | nil => rfl
  | cons entry rest ih =>
    obtain ⟨n, c⟩ := entry
    rw [List.cons_append]
    simp only [find_child]
    by_cases hx : n = x
    · simp [hx]
    · rw [if_neg hx, if_neg hx, ih]

theorem find_child_inserted (name x : String) (node : Node) (children : List (String × Node)) :
    find_child x ((children.filter fun entry => entry.1 ≠ name) ++ [(name, node)]) =
      if x = name then some node else find_child x children := by
  rw [find_child_append, find_child_filter]
  by_cases hx : x = name
  · simp [hx, find_child]
  · have : ¬ name = x := fun e => hx e.symm
    simp only [hx, if_false]
    cases find_child x children with
    | some child => rfl
    | none => simp [find_child, this]

/-- The node at a location at or below the directory whose children are replaced. -/
theorem lookup_modify_children (f : List (String × Node) → List (String × Node))
    (rest : List String) :
    ∀ (path : List String) (root : Node),
      (modify_children f path root).lookup (path ++ rest) =
        (root.lookup path).bind fun n => (modify_children f [] n).lookup rest := by
  intro path
  induction path with
  | nil => intro root; rfl
  | cons p ps ih =>
    intro root
    cases root with
    | file exif => rfl
    | dir readable children =>
      simp only [modify_children, List.cons_append, Node.lookup]
      rw [find_child_replace, if_pos rfl]
      cases find_child p children with
      | none => rfl
      | some child => exact ih child

/-- Removing an entry makes no location appear. -/
theorem lookup_remove_none (name : String) :
    ∀ (path : List String) (root : Node) (loc : List String),
      root.lookup loc = none →
      (modify_children (fun children => children.filter fun entry => entry.1 ≠ name)
        path root).lookup loc = none := by
  intro path
  induction path with
  | nil =>
    intro root loc h
    cases root with
    | file exif => exact h
    | dir readable children =>
      cases loc with
      | nil => exact absurd h (by simp [Node.lookup])
      | cons x rest =>
        simp only [modify_children, Node.lookup] at h ⊢
        rw [find_child_filter]
        by_cases hx : x = name
        · rw [if_pos hx]
        · rw [if_neg hx]
          exact h
  | cons p ps ih =>
    intro root loc h
    cases root with
    | file exif => exact h
    | dir readable children =>
      cases loc with
      | nil => exact absurd h (by simp [Node.lookup])
      | cons x rest =>
        simp only [modify_children, Node.lookup] at h ⊢
        rw [find_child_replace]
        by_cases hx : x = p
        · rw [if_pos hx]
          cases hc : find_child x children with
          | none => rfl
          | some child =>
            rw [hc] at h
            exact ih child rest h
        · rw [if_neg hx]
          exact h

/-- Removing an entry leaves a directory that is not at or below it a directory. -/
theorem lookup_remove_directory (name : String) :
    ∀ (path : List String) (root : Node) (loc : List String) (readable : Bool)
      (children : List (String × Node)),
      ¬ (path ++ [name]) <+: loc →
      root.lookup loc = some (.dir readable children) →
      ∃ children',
        (modify_children (fun children => children.filter fun entry => entry.1 ≠ name)
          path root).lookup loc = some (.dir readable children') := by
  intro path
  induction path with
  | nil =>
    intro root loc readable children hpre h
    cases root with
    | file exif =>
      cases loc with
      | nil => simp [Node.lookup] at h
      | cons x rest => simp [Node.lookup] at h
    | dir r0 c0 =>
      cases loc with
      | nil =>
        simp only [Node.lookup, Option.some.injEq, Node.dir.injEq] at h
        obtain ⟨h1, -⟩ := h
        subst h1
        exact ⟨_, rfl⟩
      | cons x rest =>
        have hx : ¬ x = name := by
          intro e
          apply hpre
          rw [e]
          exact ⟨rest, rfl⟩
        simp only [modify_children, Node.lookup] at h ⊢
        rw [find_child_filter, if_neg hx]
        exact ⟨children, h⟩
  | cons p ps ih =>
    intro root loc readable children hpre h
    cases root with
    | file exif =>
      cases loc with
      | nil => simp [Node.lookup] at h
      | cons x rest => simp [Node.lookup] at h
    | dir r0 c0 =>
      cases loc with
      | nil =>
        simp only [Node.lookup, Option.some.injEq, Node.dir.injEq] at h
        obtain ⟨h1, -⟩ := h
        subst h1
        exact ⟨_, rfl⟩
      | cons x rest =>
        simp only [modify_children, Node.lookup] at h ⊢
        rw [find_child_replace]
        by_cases hx : x = p
        · rw [if_pos hx]
          cases hc : find_child x c0 with
          | none => rw [hc] at h; exact absurd h (by simp)
          | some child =>
            rw [hc] at h
            have hpre' : ¬ (ps ++ [name]) <+: rest := by
              intro hp
              apply hpre
              rw [hx]
              obtain ⟨t, ht⟩ := hp
              exact ⟨t, by rw [← ht]; rfl⟩
            exact ih child rest readable children hpre' h
        · rw [if_neg hx]
          exact ⟨children, h⟩

theorem remove_node_snoc (path : List String) (name : String) (root : Node) :
    remove_node (path ++ [name]) root =
      modify_children (fun children => children.filter fun entry => entry.1 ≠ name) path root := by
  unfold remove_node
  simp

theorem insert_node_snoc (path : List String) (name : String) (node root : Node) :
    insert_node (path ++ [name]) node root =
      modify_children
        (fun children => (children.filter fun entry => entry.1 ≠ name) ++ [(name, node)])
        path root := by
  unfold insert_node
  simp

/-- The entries of the directory that receives a node, after the insertion. -/
theorem lookup_inserted (path : List String) (name x : String) (node root : Node)
    (readable : Bool) (children : List (String × Node))
    (h : root.lookup path = some (.dir readable children)) :
    (insert_node (path ++ [name]) node root).lookup (path ++ [x]) =
      if x = name then some node else find_child x children := by
  rw [insert_node_snoc, lookup_modify_children, h]
  show (Node.dir readable
    ((children.filter fun entry => entry.1 ≠ name) ++ [(name, node)])).lookup [x] = _
  simp only [Node.lookup]
  rw [find_child_inserted]
  by_cases hx : x = name
  · simp [hx]
  · simp only [hx, if_false]
    cases find_child x children <;> rfl

theorem make_directories_lookup (name : String) :
    ∀ names : List String, (make_directories names).lookup (names ++ [name]) = none := by
  intro names
  induction names with
  | nil => rfl
  | cons x rest ih =>
    simp only [make_directories, List.cons_append, Node.lookup, find_child, if_true]
    exact ih

/-- A directory created where there was none is empty. -/
theorem create_nodes_lookup (name : String) :
    ∀ (loc : List String) (root created : Node),
      root.lookup loc = none → create_nodes loc root = some created →
      created.lookup (loc ++ [name]) = none := by
  intro loc
  induction loc with
  | nil =>
    intro root created h _
    exact absurd h (by simp [Node.lookup])
  | cons x rest ih =>
    intro root created h hc
    cases root with
    | file exif => simp [create_nodes] at hc
    | dir readable children =>
      simp only [Node.lookup] at h
      simp only [create_nodes] at hc
      cases hf : find_child x children with
      | none =>
        rw [hf] at hc
        simp only [Option.some.injEq] at hc
        rw [← hc]
        simp only [List.cons_append, Node.lookup]
        rw [find_child_append, hf]
        simp only [find_child, if_true]
        exact make_directories_lookup name rest
      | some child =>
        rw [hf] at h hc
        simp only at h hc
        cases hcr : create_nodes rest child with
        | none => rw [hcr] at hc; exact absurd hc (by simp)
        | some made =>
          rw [hcr] at hc
          simp only [Option.some.injEq] at hc
          rw [← hc]
          simp only [List.cons_append, Node.lookup]
          have hfr := find_child_replace x (fun _ => made) x children
          simp only [if_true, hf, Option.map_some'] at hfr
          rw [hfr]
          exact ih child made h hcr

theorem split_separators_snoc (X last : List Char) (h : '/' ∉ last) :
    split_separators (X ++ '/' :: last) = split_separators X ++ [last] := by
  obtain ⟨init, hinit⟩ := last_piece_decompose _ (split_separators_ne_nil X)
  have hq : split_separators ('/' :: last) = [[], last] := by
    rw [split_separators_cons, if_pos rfl, split_separators_of_no_separator last h]
  rw [split_separators_append, hq, hinit, join_pieces_snoc]
  simp

theorem last_separator_decompose :
    ∀ data : List Char,
      '/' ∉ data ∨ ∃ X last, data = X ++ '/' :: last ∧ '/' ∉ last := by
  intro data
  induction data with
  | nil => exact Or.inl (List.not_mem_nil _)
  | cons c cs ih =>
    rcases ih with h | ⟨X, last, h, hl⟩
    · by_cases hc : c = '/'
      · exact Or.inr ⟨[], cs, by rw [hc]; rfl, h⟩
      · refine Or.inl ?_
        intro hm
        rcases List.mem_cons.mp hm with h1 | h1
        · exact hc h1.symm
        · exact h h1
    · exact Or.inr ⟨c :: X, last, by rw [h]; rfl, hl⟩

theorem drop_last_piece_of_no_separator :
    ∀ l : List Char, '/' ∉ l → drop_last_piece l = [] := by
  intro l
  induction l with
  | nil => intro _; rfl
  | cons c cs ih =>
    intro h
    have hc : c ≠ '/' := fun e => h (e ▸ List.mem_cons_self _ _)
    unfold drop_last_piece
    rw [if_neg hc]
    exact ih fun e => h (List.mem_cons_of_mem _ e)

theorem drop_last_piece_append (rest : List Char) :
    ∀ l : List Char, '/' ∉ l → drop_last_piece (l ++ '/' :: rest) = '/' :: rest := by
  intro l
  induction l with
  | nil =>
    intro _
    simp [drop_last_piece]
  | cons c cs ih =>
    intro h
    have hc : c ≠ '/' := fun e => h (e ▸ List.mem_cons_self _ _)
    rw [List.cons_append]
    unfold drop_last_piece
    rw [if_neg hc]
    exact ih fun e => h (List.mem_cons_of_mem _ e)

theorem drop_separators_decompose :
    ∀ l : List Char, ∃ k, l = List.replicate k '/' ++ drop_separators l := by
  intro l
  induction l with
  | nil => exact ⟨0, rfl⟩
  | cons c cs ih =>
    unfold drop_separators
    by_cases hc : c = '/'
    · rw [if_pos hc]
      obtain ⟨k, hk⟩ := ih
      refine ⟨k + 1, ?_⟩
      rw [List.replicate_succ, List.cons_append, ← hk, hc]
    · rw [if_neg hc]
      exact ⟨0, rfl⟩

/-- Separators at the end of a path do not change the location it denotes. -/
theorem resolve_names_trailing (base : List String) (F : List Char) :
    ∀ k : Nat,
      resolve_names base ((split_separators (F ++ List.replicate k '/')).map String.mk) =
        resolve_names base ((split_separators F).map String.mk) := by
  intro k
  induction k with
  | zero => simp
  | succ k ih =>
    rw [List.replicate_succ', ← List.append_assoc,
      split_separators_snoc _ [] (List.not_mem_nil _), List.map_append, resolve_names_append, ih]
    exact resolve_names_empty _

/-- The location of a path whose file name is neither empty nor `.` nor `..`: the
location of its parent path followed by the file name. -/
theorem locate_parent_filename (fs : FileSystem) (t : Path)
    (h1 : t.filename.native.data ≠ []) (h2 : t.filename.native.data ≠ ['.'])
    (h3 : t.filename.native.data ≠ ['.', '.']) :
    fs.locate t = fs.locate t.parent_path ++ [t.filename.native] := by
  have hname1 : t.filename.native ≠ "" := fun h => h1 (congrArg String.data h)
  have hname2 : t.filename.native ≠ "." := fun h => h2 (congrArg String.data h)
  have hname3 : t.filename.native ≠ ".." := fun h => h3 (congrArg String.data h)
  rcases last_separator_decompose t.native.data with hno | ⟨X, last, hdata, hlast⟩
  · have hsplit := split_separators_of_no_separator _ hno
    have hfile : t.filename = ⟨⟨t.native.data⟩⟩ := by
      unfold Path.filename
      rw [hsplit]
      rfl
    have hroot : t.has_root_directory = false := by
      unfold Path.has_root_directory
      cases hd : t.native.data with
      | nil => simp
      | cons c cs =>
        have : c ≠ '/' := fun e => hno (by rw [hd, e]; exact List.mem_cons_self _ _)
        simp [this]
    have hparent : t.parent_path = ⟨⟨[]⟩⟩ := by
      unfold Path.parent_path
      rw [drop_last_piece_of_no_separator _ (by simpa using hno), hroot]
      simp [drop_separators]
    rw [hparent]
    unfold FileSystem.locate
    rw [hroot, hsplit]
    have hempty : (Path.mk ⟨[]⟩).has_root_directory = false := rfl
    rw [hempty]
    simp only [Bool.false_eq_true, if_false, List.map_cons, List.map_nil]
    have h0 : split_separators ((Path.mk ⟨[]⟩).native.data) = [[]] := rfl
    rw [h0]
    simp only [List.map_cons, List.map_nil]
    have hres := resolve_names_empty fs.cwd
    have hmk : (String.mk [] : String) = "" := rfl
    rw [hmk, hres]
    have hfn : t.filename.native = String.mk t.native.data := by rw [hfile]
    rw [← hfn]
    exact resolve_names_plain _ _ hname1 hname2 hname3
  · have hsplit := split_separators_snoc X last hlast
    rw [← hdata] at hsplit
    have hfile : t.filename.native = String.mk last := by
      unfold Path.filename
      rw [hsplit, last_piece_append]
    have hloc : fs.locate t =
        resolve_names (if t.has_root_directory then [] else fs.cwd)
          ((split_separators X).map String.mk) ++ [t.filename.native] := by
      unfold FileSystem.locate
      rw [hsplit, List.map_append, resolve_names_append, List.map_cons, List.map_nil, ← hfile]
      exact resolve_names_plain _ _ hname1 hname2 hname3
    rw [hloc]
    congr 1
    obtain ⟨k, hk⟩ := drop_separators_decompose X.reverse
    have hX : X = (drop_separators X.reverse).reverse ++ List.replicate k '/' := by
      have := congrArg List.reverse hk
      simpa using this
    have hfront : (drop_separators (drop_last_piece t.native.data.reverse)).reverse =
        (drop_separators X.reverse).reverse := by
      rw [hdata, List.reverse_append, List.reverse_cons, List.append_assoc,
        List.singleton_append,
        drop_last_piece_append _ _ (by simpa using hlast)]
      rw [show drop_separators ('/' :: X.reverse) = drop_separators X.reverse from by
        simp [drop_separators]]
    by_cases hf : (drop_separators X.reverse).reverse = []
    · rw [hf, List.nil_append] at hX
      have hroot : t.has_root_directory = true := by
        unfold Path.has_root_directory
        rw [hdata, hX]
        cases k with
        | zero => simp
        | succ k => simp [List.replicate_succ]
      have hparent : t.parent_path = ⟨"/"⟩ := by
        unfold Path.parent_path
        simp only [hfront, hf, hroot, and_self, if_true]
      rw [hparent, hroot]
      simp only [if_true]
      have h0 := resolve_names_trailing [] [] k
      rw [List.nil_append, ← hX] at h0
      rw [h0]
      rfl
    · have hparent : t.parent_path = ⟨⟨(drop_separators X.reverse).reverse⟩⟩ := by
        unfold Path.parent_path
        simp only [hfront, hf, false_and, if_false]
      have hroot : (Path.mk ⟨(drop_separators X.reverse).reverse⟩).has_root_directory =
          t.has_root_directory := by
        unfold Path.has_root_directory
        rw [hdata]
        conv_rhs => rw [hX]
        cases hd : (drop_separators X.reverse).reverse with
        | nil => exact absurd hd hf
        | cons c cs => simp
      rw [hparent]
      unfold FileSystem.locate
      rw [hroot]
      simp only
      conv_lhs => rw [hX]
      exact resolve_names_trailing _ _ k

theorem locate_of_cwd (fs fs' : FileSystem) (p : Path) (h : fs'.cwd = fs.cwd) :
    fs'.locate p = fs.locate p := by
  unfold FileSystem.locate
  rw [h]

theorem lookup_of_not_exists (fs : FileSystem) (p : Path) (hp : p.native.data ≠ [])
    (h : fs.exists_ p = false) : fs.root.lookup (fs.locate p) = none := by
  unfold FileSystem.exists_ FileSystem.status at h
  rw [if_neg hp] at h
  simpa using h

theorem exists_of_lookup (fs : FileSystem) (p : Path) (hp : p.native.data ≠ []) (node : Node)
    (h : fs.root.lookup (fs.locate p) = some node) : fs.exists_ p = true := by
  unfold FileSystem.exists_ FileSystem.status
  rw [if_neg hp, h]
  rfl

theorem not_exists_of_lookup (fs : FileSystem) (p : Path)
    (h : fs.root.lookup (fs.locate p) = none) : fs.exists_ p = false := by
  unfold FileSystem.exists_ FileSystem.status
  split_ifs
  · rfl
  · rw [h]
    rfl

theorem native_of_filename (t : Path) (h : t.filename.native.data ≠ []) : t.native.data ≠ [] := by
  intro h0
  apply h
  unfold Path.filename
  rw [h0]
  rfl

theorem unique_candidate_native (t : Path) (n : Nat) :
    (unique_candidate t n).native.data ≠ [] := by
  have hb := unique_filename_has_bracket t n
  have hne : (unique_filename t n).data ≠ [] := by
    intro h
    rw [h] at hb
    exact absurd hb (List.not_mem_nil _)
  show (Path.append t.parent_path (Path.mk (unique_filename t n))).native.data ≠ []
  unfold Path.append
  split_ifs
  · exact hne
  · simp
  · simp [hne]

theorem unique_filename_ne_filename (t : Path) (n : Nat) :
    unique_filename t n ≠ t.filename.native := by
  intro h
  have hlen := congrArg (fun s : String => s.data.length) h
  have hl : (unique_filename t n).data.length =
      t.stem.native.data.length + (2 + ((format_int n).data.length +
        (1 + t.extension.native.data.length))) := by
    rw [unique_filename_data]
    simp only [List.length_append]
    rfl
  simp only [hl] at hlen
  have hstem : t.stem.native.data.length =
      t.filename.native.data.length - (extension_of t.filename.native.data).length := by
    unfold Path.stem
    simp
  have hext : t.extension.native.data = extension_of t.filename.native.data := rfl
  rw [hstem, hext] at hlen
  omega

theorem create_directories_spec (fs fs' : FileSystem) (p : Path)
    (h : fs.create_directories p = some fs') :
    p.native.data ≠ [] ∧ fs'.cwd = fs.cwd ∧
      create_nodes (fs.locate p) fs.root = some fs'.root := by
  unfold FileSystem.create_directories at h
  split_ifs at h with hp
  cases hc : create_nodes (fs.locate p) fs.root with
  | none => rw [hc] at h; exact absurd h (by simp)
  | some root =>
    rw [hc] at h
    simp only [Option.some.injEq] at h
    rw [← h]
    exact ⟨hp, rfl, rfl⟩

/-- What a successful rename has done: nothing when the two paths denote one location,
otherwise the node of the source has left its place and is the entry of the destination. -/
theorem rename_spec (fs fs' : FileSystem) (from_ to_ : Path) (h : fs.rename from_ to_ = some fs') :
    ∃ node, fs.status from_ = some node ∧ to_.native.data ≠ [] ∧
      ((fs.locate from_ = fs.locate to_ ∧ fs' = fs) ∨
        (fs.locate from_ ≠ [] ∧ fs.locate to_ ≠ [] ∧ ¬ fs.locate from_ <+: fs.locate to_ ∧
          (∃ readable children,
            fs.root.lookup (fs.locate to_).dropLast = some (.dir readable children)) ∧
          fs' = ⟨insert_node (fs.locate to_) node (remove_node (fs.locate from_) fs.root),
            fs.cwd⟩)) := by
  unfold FileSystem.rename at h
  cases hs : fs.status from_ with
  | none => rw [hs] at h; exact absurd h (by simp)
  | some node =>
    rw [hs] at h
    simp only at h
    split_ifs at h with h1 h2 h3 h4 h5
    · simp only [Option.some.injEq] at h
      exact ⟨node, rfl, h1, Or.inl ⟨h2, h.symm⟩⟩
    · cases hl : fs.root.lookup (fs.locate to_).dropLast with
      | none => rw [hl] at h; exact absurd h (by simp)
      | some parent =>
        cases parent with
        | file exif => rw [hl] at h; exact absurd h (by simp)
        | dir readable children =>
          rw [hl] at h
          simp only [Option.some.injEq] at h
          refine ⟨node, rfl, h1, Or.inr ⟨fun e => h3 (Or.inl e), fun e => h3 (Or.inr e), ?_,
            ⟨readable, children, rfl⟩, h.symm⟩⟩
          intro hp
          exact h4 (List.isPrefixOf_iff_prefix.mpr hp)
    · cases hl : fs.root.lookup (fs.locate to_).dropLast with
      | none => rw [hl] at h; exact absurd h (by simp)
      | some parent =>
        cases parent with
        | file exif => rw [hl] at h; exact absurd h (by simp)
        | dir readable children => rw [hl] at h; exact absurd h (by simp)

theorem execute_loop_skip (a : Action) (rest : List Action) (k : Nat) (fs : FileSystem)
    (journal : List JournalEntry)
    (hc : (if !fs.exists_ a.to_.parent_path then fs.create_directories a.to_.parent_path
      else some fs) = none) :
    execute_loop (fun _ => false) (a :: rest) k fs journal =
      execute_loop (fun _ => false) rest (k + 1) fs journal := by
  rw [execute_loop_cons]
  simp only [Bool.false_eq_true, if_false, hc]

theorem execute_loop_fail (a : Action) (rest : List Action) (k : Nat) (fs fs1 : FileSystem)
    (journal : List JournalEntry)
    (hc : (if !fs.exists_ a.to_.parent_path then fs.create_directories a.to_.parent_path
      else some fs) = some fs1)
    (hr : fs1.rename a.from_ (generate_unique_path fs1 a.to_) = none) :
    execute_loop (fun _ => false) (a :: rest) k fs journal =
      execute_loop (fun _ => false) rest (k + 1) fs1 journal := by
  rw [execute_loop_cons]
  simp only [Bool.false_eq_true, if_false, hc, hr]

theorem execute_loop_move (a : Action) (rest : List Action) (k : Nat) (fs fs1 fs2 : FileSystem)
    (journal : List JournalEntry)
    (hc : (if !fs.exists_ a.to_.parent_path then fs.create_directories a.to_.parent_path
      else some fs) = some fs1)
    (hr : fs1.rename a.from_ (generate_unique_path fs1 a.to_) = some fs2) :
    execute_loop (fun _ => false) (a :: rest) k fs journal =
      execute_loop (fun _ => false) rest (k + 1) fs2
        (journal ++ [⟨ActionType.MOVE, a.from_, generate_unique_path fs1 a.to_⟩]) := by
  rw [execute_loop_cons]
  simp only [Bool.false_eq_true, if_false, hc, hr]

theorem execute_loop_one (a : Action) (k : Nat) (fs : FileSystem) (journal : List JournalEntry) :
    (execute_loop (fun _ => false) [a] k fs journal).2.length ≤ journal.length + 1 := by
  rw [execute_loop_cons]
  simp only [Bool.false_eq_true, if_false]
  split
  · simp [execute_loop]
  · split
    · simp [execute_loop]
    · simp [execute_loop]

/-- Creating the parent directory of a path that does not exist leaves that path, and the
first candidate next to it, without an entry. -/
theorem parent_created_keeps_free (fs fs1 : FileSystem) (t : Path)
    (h1 : t.filename.native.data ≠ []) (h2 : t.filename.native.data ≠ ['.'])
    (h3 : t.filename.native.data ≠ ['.', '.'])
    (hfree : fs.exists_ t = false) (hfree1 : fs.exists_ (unique_candidate t 1) = false)
    (hc : (if !fs.exists_ t.parent_path then fs.create_directories t.parent_path
      else some fs) = some fs1) :
    t.parent_path.native.data ≠ [] ∧ fs1.cwd = fs.cwd ∧ fs1.exists_ t = false ∧
      fs1.exists_ (unique_candidate t 1) = false := by
  by_cases hex : fs.exists_ t.parent_path = true
  · rw [hex] at hc
    simp only [Bool.not_true, Bool.false_eq_true, if_false, Option.some.injEq] at hc
    rw [← hc]
    refine ⟨?_, rfl, hfree, hfree1⟩
    intro hp
    unfold FileSystem.exists_ FileSystem.status at hex
    rw [if_pos hp] at hex
    exact absurd hex (by simp)
  · have hex' : fs.exists_ t.parent_path = false := by simpa using hex
    rw [hex'] at hc
    simp only [Bool.not_false, if_true] at hc
    obtain ⟨hp, hcwd, hcreate⟩ := create_directories_spec fs fs1 _ hc
    have hnone := lookup_of_not_exists fs _ hp hex'
    refine ⟨hp, hcwd, ?_, ?_⟩
    · apply not_exists_of_lookup
      rw [locate_of_cwd fs fs1 _ hcwd, locate_parent_filename fs t h1 h2 h3]
      exact create_nodes_lookup _ _ _ _ hnone hcreate
    · apply not_exists_of_lookup
      rw [locate_of_cwd fs fs1 _ hcwd, locate_unique_candidate]
      exact create_nodes_lookup _ _ _ _ hnone hcreate

/-- After a successful move to a path that did not exist, the path exists, and the first
candidate next to it still does not. -/
theorem move_to_free_path (fs1 fs2 : FileSystem) (from_ t : Path)
    (h1 : t.filename.native.data ≠ []) (h2 : t.filename.native.data ≠ ['.'])
    (h3 : t.filename.native.data ≠ ['.', '.'])
    (hfree : fs1.exists_ t = false) (hfree1 : fs1.exists_ (unique_candidate t 1) = false)
    (hr : fs1.rename from_ t = some fs2) :
    fs2.cwd = fs1.cwd ∧ fs2.exists_ t = true ∧ fs2.exists_ (unique_candidate t 1) = false ∧
      ∃ readable children,
        fs2.root.lookup (fs2.locate t.parent_path) = some (.dir readable children) := by
  have ht := native_of_filename t h1
  obtain ⟨node, hs, -, hcase⟩ := rename_spec fs1 fs2 from_ t hr
  rcases hcase with ⟨hloc, -⟩ | ⟨hsrc, -, hpre, ⟨readable, children, hl⟩, hfs⟩
  · exfalso
    unfold FileSystem.status at hs
    split_ifs at hs
    rw [hloc] at hs
    have := exists_of_lookup fs1 t ht node hs
    rw [hfree] at this
    exact absurd this (by simp)
  · have hcwd : fs2.cwd = fs1.cwd := by rw [hfs]
    have hlt := locate_parent_filename fs1 t h1 h2 h3
    rw [hlt, List.dropLast_concat] at hl
    rw [hlt] at hpre hfs
    have hsplit := (List.dropLast_append_getLast hsrc).symm
    generalize (fs1.locate from_).dropLast = sp at hsplit
    generalize (fs1.locate from_).getLast hsrc = sn at hsplit
    rw [hsplit] at hpre hfs
    rw [remove_node_snoc] at hfs
    have hpre' : ¬ (sp ++ [sn]) <+: fs1.locate t.parent_path :=
      fun hp => hpre (hp.trans (List.prefix_append _ _))
    obtain ⟨children', hl'⟩ :=
      lookup_remove_directory sn sp fs1.root _ readable children hpre' hl
    have hroot : ∀ x, fs2.root.lookup (fs1.locate t.parent_path ++ [x]) =
        if x = t.filename.native then some node else find_child x children' := by
      intro x
      rw [hfs]
      exact lookup_inserted _ _ x node _ readable children' hl'
    have hexists : fs2.root.lookup (fs1.locate t.parent_path ++ [t.filename.native]) =
        some node := by
      rw [hroot, if_pos rfl]
    refine ⟨hcwd, ?_, ?_, ?_⟩
    · apply exists_of_lookup fs2 t ht node
      rw [locate_of_cwd fs1 fs2 _ hcwd, hlt]
      exact hexists
    · apply not_exists_of_lookup
      rw [locate_of_cwd fs1 fs2 _ hcwd, locate_unique_candidate, hroot,
        if_neg (unique_filename_ne_filename t 1)]
      have hbefore := lookup_of_not_exists fs1 _ (unique_candidate_native t 1) hfree1
      rw [locate_unique_candidate] at hbefore
      have hafter := lookup_remove_none sn sp fs1.root _ hbefore
      rw [lookup_append_name, hl'] at hafter
      exact hafter
    · rw [locate_of_cwd fs1 fs2 _ hcwd]
      rw [lookup_append_name] at hexists
      cases hp : fs2.root.lookup (fs1.locate t.parent_path) with
      | none => rw [hp] at hexists; exact absurd hexists (by simp)
      | some parent =>
        cases parent with
        | file exif => rw [hp] at hexists; exact absurd hexists (by simp)
        | dir r c => exact ⟨r, c, rfl⟩

/-- C11, amended: two actions with the same destination `t`, whose file name is neither
empty nor `.` nor `..`, are executed one after the other, and both moves succeed.  When
neither `t` nor the first candidate `parent(t) / "<stem> (1)<ext>"` exists beforehand, the
journal holds the first source with `t` and the second source with that candidate; the two
realized destinations denote different locations, and after the first move alone `t`
exists, which is why the second move takes the candidate. -/
theorem colliding_moves_take_successive_names (fs : FileSystem) (a1 a2 : Action)
    (hto : a2.to_ = a1.to_)
    (h1 : a1.to_.filename.native.data ≠ []) (h2 : a1.to_.filename.native.data ≠ ['.'])
    (h3 : a1.to_.filename.native.data ≠ ['.', '.'])
    (hfree : fs.exists_ a1.to_ = false)
    (hfree1 : fs.exists_ (unique_candidate a1.to_ 1) = false)
    (hmoved : (execute_plan (fun _ => false) fs [a1, a2]).2.length = 2) :
    (execute_plan (fun _ => false) fs [a1, a2]).2 =
      [⟨ActionType.MOVE, a1.from_, a1.to_⟩,
        ⟨ActionType.MOVE, a2.from_, unique_candidate a1.to_ 1⟩] ∧
    unique_candidate a1.to_ 1 =
      a1.to_.parent_path /
        Path.mk (a1.to_.stem.native ++ " (" ++ "1" ++ ")" ++ a1.to_.extension.native) ∧
    fs.locate (unique_candidate a1.to_ 1) ≠ fs.locate a1.to_ ∧
    (execute_plan (fun _ => false) fs [a1]).1.exists_ a1.to_ = true := by
  have hdiff : fs.locate (unique_candidate a1.to_ 1) ≠ fs.locate a1.to_ := by
    rw [locate_unique_candidate, locate_parent_filename fs a1.to_ h1 h2 h3]
    intro h
    have := List.append_cancel_left h
    simp only [List.cons.injEq, and_true] at this
    exact unique_filename_ne_filename a1.to_ 1 this
  unfold execute_plan at hmoved ⊢
  cases hc1 : (if !fs.exists_ a1.to_.parent_path then fs.create_directories a1.to_.parent_path
      else some fs) with
  | none =>
    rw [execute_loop_skip a1 [a2] 0 fs [] hc1] at hmoved
    have := execute_loop_one a2 (0 + 1) fs []
    rw [hmoved] at this
    exact absurd this (by simp)
  | some fs1 =>
    obtain ⟨hp, hcwd1, hfree', hfree1'⟩ :=
      parent_created_keeps_free fs fs1 a1.to_ h1 h2 h3 hfree hfree1 hc1
    have hg1 : generate_unique_path fs1 a1.to_ = a1.to_ := by
      unfold generate_unique_path
      simp [hfree']
    cases hr1 : fs1.rename a1.from_ (generate_unique_path fs1 a1.to_) with
    | none =>
      rw [execute_loop_fail a1 [a2] 0 fs fs1 [] hc1 hr1] at hmoved
      have := execute_loop_one a2 (0 + 1) fs1 []
      rw [hmoved] at this
      exact absurd this (by simp)
    | some fs2 =>
      have hr1' := hr1
      rw [hg1] at hr1'
      obtain ⟨hcwd2, hexists, hcand, readable, children, hparent⟩ :=
        move_to_free_path fs1 fs2 a1.from_ a1.to_ h1 h2 h3 hfree' hfree1' hr1'
      have hpe : fs2.exists_ a2.to_.parent_path = true := by
        rw [hto]
        exact exists_of_lookup fs2 _ hp _ hparent
      have hc2 : (if !fs2.exists_ a2.to_.parent_path then
          fs2.create_directories a2.to_.parent_path else some fs2) = some fs2 := by
        rw [hpe]
        rfl
      have hg2 : generate_unique_path fs2 a2.to_ = unique_candidate a1.to_ 1 := by
        rw [hto]
        unfold generate_unique_path
        rw [hexists]
        simp only [Bool.not_true, Bool.false_eq_true, if_false]
        cases fs2.entry_count a1.to_.parent_path with
        | zero => rfl
        | succ fuel =>
          unfold unique_path_loop
          simp [hcand]
      rw [execute_loop_move a1 [a2] 0 fs fs1 fs2 [] hc1 hr1, hg1] at hmoved ⊢
      rw [execute_loop_move a1 [] 0 fs fs1 fs2 [] hc1 hr1]
      cases hr2 : fs2.rename a2.from_ (generate_unique_path fs2 a2.to_) with
      | none =>
        rw [execute_loop_fail a2 [] (0 + 1) fs2 fs2 _ hc2 hr2] at hmoved
        simp [execute_loop] at hmoved
      | some fs3 =>
        rw [execute_loop_move a2 [] (0 + 1) fs2 fs2 fs3 _ hc2 hr2, hg2]
        refine ⟨rfl, ?_, hdiff, hexists⟩
        unfold unique_candidate unique_filename safe_path_to_string
        rfl

/-- With an empty folder `Documents`, the files `x.pdf` and `y.pdf` sent to
`Documents/report.pdf` arrive as `report.pdf` and `report (1).pdf`. -/
theorem colliding_moves_take_successive_names_witness :
    (execute_plan (fun _ => false) vacant_fs
      [⟨"/tmp/t/x.pdf", "/tmp/t/Documents/report.pdf", "Documents"⟩,
        ⟨"/tmp/t/y.pdf", "/tmp/t/Documents/report.pdf", "Documents"⟩]).2 =
      [⟨ActionType.MOVE, "/tmp/t/x.pdf", "/tmp/t/Documents/report.pdf"⟩,
        ⟨ActionType.MOVE, "/tmp/t/y.pdf", "/tmp/t/Documents/report (1).pdf"⟩] ∧
    (execute_plan (fun _ => false) vacant_fs
      [⟨"/tmp/t/x.pdf", "/tmp/t/Documents/report.pdf", "Documents"⟩,
        ⟨"/tmp/t/y.pdf", "/tmp/t/Documents/report.pdf", "Documents"⟩]).2 =
      [⟨ActionType.MOVE, "/tmp/t/x.pdf", "/tmp/t/Documents/report.pdf"⟩,
        ⟨ActionType.MOVE, "/tmp/t/y.pdf",
          unique_candidate (Path.mk "/tmp/t/Documents/report.pdf") 1⟩] :=
  ⟨by decide,
    (colliding_moves_take_successive_names vacant_fs
      ⟨"/tmp/t/x.pdf", "/tmp/t/Documents/report.pdf", "Documents"⟩
      ⟨"/tmp/t/y.pdf", "/tmp/t/Documents/report.pdf", "Documents"⟩
      rfl (by decide) (by decide) (by decide) (by decide) (by decide) (by decide)).1⟩

/-- C11 as stated fails: with `Documents/report.pdf` present beforehand, the two files sent
to that path arrive as `report (1).pdf` and `report (2).pdf`; neither realized destination
is `report.pdf`. -/
theorem occupied_destination_shifts_names :
    occupied_fs.exists_ "/tmp/t/x.pdf" = true ∧ occupied_fs.exists_ "/tmp/t/y.pdf" = true ∧
    (execute_plan (fun _ => false) occupied_fs
      [⟨"/tmp/t/x.pdf", "/tmp/t/Documents/report.pdf", "Documents"⟩,
        ⟨"/tmp/t/y.pdf", "/tmp/t/Documents/report.pdf", "Documents"⟩]).2 =
      [⟨ActionType.MOVE, "/tmp/t/x.pdf", "/tmp/t/Documents/report (1).pdf"⟩,
        ⟨ActionType.MOVE, "/tmp/t/y.pdf", "/tmp/t/Documents/report (2).pdf"⟩] ∧
    (execute_plan (fun _ => false) occupied_fs
      [⟨"/tmp/t/x.pdf", "/tmp/t/Documents/report.pdf", "Documents"⟩,
        ⟨"/tmp/t/y.pdf", "/tmp/t/Documents/report.pdf", "Documents"⟩]).2 ≠
      [⟨ActionType.MOVE, "/tmp/t/x.pdf", "/tmp/t/Documents/report.pdf"⟩,
        ⟨ActionType.MOVE, "/tmp/t/y.pdf", "/tmp/t/Documents/report (1).pdf"⟩] := by
  decide

/-! ## C12 -/

theorem undo_loop_steps :
    ∀ (entries : List JournalEntry) (fs : FileSystem) (steps : List UndoStep),
      undo_loop entries fs steps =
        ((undo_loop entries fs []).1, steps ++ (undo_loop entries fs []).2) := by
  intro entries
  induction entries with
  | nil => intro fs steps; simp [undo_loop]
  | cons entry rest ih =>
    intro fs steps
    unfold undo_loop
    rw [ih _ (steps ++ _), ih _ ([] ++ _)]
    simp

theorem undo_loop_pairs :
    ∀ (entries : List JournalEntry) (fs : FileSystem),
      (undo_loop entries fs []).2.map (fun s => (s.source, s.target)) =
        entries.map fun e => (e.to_, e.from_) := by
  intro entries
  induction entries with
  | nil => intro fs; rfl
  | cons entry rest ih =>
    intro fs
    unfold undo_loop
    rw [undo_loop_steps, List.map_append, ih]
    have : ((undo_entry fs entry).2.source, (undo_entry fs entry).2.target) =
        (entry.to_, entry.from_) := by
      unfold undo_entry
      cases entry.action
      simp only
      split
      · rfl
      · split <;> rfl
    simp [this]

/-- C12: `run_undo` makes one pass for every entry of the journal, in the reverse of the
recorded order, whatever the outcome of the passes before; the pass for an entry renames
its `to` path to its `from` path (after creating the parent of `from` when it is
missing).  For the journal `[(a -> b), (c -> d)]` the passes are `d -> c`, then `b -> a`.
Without a journal file nothing is done. -/
theorem undo_replays_in_reverse (fs : FileSystem) :
    run_undo fs none = (fs, []) ∧
    (∀ journal : List JournalEntry,
      (run_undo fs (some journal)).2.map (fun s => (s.source, s.target)) =
        journal.reverse.map fun e => (e.to_, e.from_)) ∧
    (∀ (journal : List JournalEntry) (e : JournalEntry),
      run_undo fs (some (journal ++ [e])) =
        ((run_undo (undo_entry fs e).1 (some journal)).1,
          (undo_entry fs e).2 :: (run_undo (undo_entry fs e).1 (some journal)).2)) ∧
    (∀ e : JournalEntry,
      (undo_entry fs e).1 =
        match (if e.from_.has_parent_path ∧ !fs.exists_ e.from_.parent_path then
            fs.create_directories e.from_.parent_path else some fs) with
        | none => fs
        | some fs_ensured =>
          match fs_ensured.rename e.to_ e.from_ with
          | some fs_moved => fs_moved
          | none => fs_ensured) ∧
    (∀ a b c d : Path,
      (run_undo fs (some [⟨ActionType.MOVE, a, b⟩, ⟨ActionType.MOVE, c, d⟩])).2.map
        (fun s => (s.source, s.target)) = [(d, c), (b, a)]) := by
  refine ⟨rfl, ?_, ?_, ?_, ?_⟩
  · intro journal
    unfold run_undo
    exact undo_loop_pairs _ fs
  · intro journal e
    unfold run_undo
    simp only [List.reverse_append, List.reverse_cons, List.reverse_nil, List.nil_append,
      List.singleton_append]
    rw [undo_loop, undo_loop_steps]
    simp
  · intro e
    unfold undo_entry
    cases e.action
    simp only
    split
    · rfl
    · split <;> rfl
  · intro a b c d
    unfold run_undo
    rw [undo_loop_pairs]
    rfl

/-- The journal of the three actions on `collision_fs` is undone in reverse order: the
third move first, then the first; both renames are carried out. -/
theorem undo_replays_in_reverse_witness :
    (run_undo
      (execute_plan (fun _ => false) collision_fs
        [⟨"/tmp/t/new.pdf", "/tmp/t/Documents/report.pdf", "Documents"⟩,
          ⟨"/tmp/t/missing.txt", "/tmp/t/Other/missing.txt", "Other"⟩,
          ⟨"/tmp/t/Documents/report.pdf", "/tmp/t/Archive/report.pdf", "Archive"⟩]).1
      (some [⟨ActionType.MOVE, "/tmp/t/new.pdf", "/tmp/t/Documents/report (2).pdf"⟩,
        ⟨ActionType.MOVE, "/tmp/t/Documents/report.pdf", "/tmp/t/Archive/report.pdf"⟩])).2 =
      [⟨"/tmp/t/Archive/report.pdf", "/tmp/t/Documents/report.pdf", true⟩,
        ⟨"/tmp/t/Documents/report (2).pdf", "/tmp/t/new.pdf", true⟩] ∧
    (run_undo collision_fs
      (some [⟨ActionType.MOVE, "/tmp/t/a", "/tmp/t/b"⟩,
        ⟨ActionType.MOVE, "/tmp/t/c", "/tmp/t/d"⟩])).2.map (fun s => (s.source, s.target)) =
      [(Path.mk "/tmp/t/d", Path.mk "/tmp/t/c"), (Path.mk "/tmp/t/b", Path.mk "/tmp/t/a")] :=
  ⟨by decide, (undo_replays_in_reverse collision_fs).2.2.2.2 _ _ _ _⟩

/-! ## C13 -/

/-- C13 fails on the code: with the category map `.pdf` to `Docs`, the target directory
holds a regular file named `Docs` and `report.pdf`.  The plan moves `Docs` to
`Other/Docs` and `report.pdf` to `Docs/report.pdf`; the second move creates the
directory `Docs` where the file was.  Undoing the journal moves `report.pdf` back, but
the rename of `Other/Docs` onto the directory `Docs` fails: the file stays in `Other`. -/
theorem undo_leaves_file_stranded :
    generate_plan stranded_engine stranded_fs "/tmp/t" Schedule.sequential none =
      [⟨"/tmp/t/Docs", "/tmp/t/Other/Docs", "Other"⟩,
        ⟨"/tmp/t/report.pdf", "/tmp/t/Docs/report.pdf", "Docs"⟩] ∧
    (execute_plan (fun _ => false) stranded_fs
      (generate_plan stranded_engine stranded_fs "/tmp/t" Schedule.sequential none)).2 =
      [⟨ActionType.MOVE, "/tmp/t/Docs", "/tmp/t/Other/Docs"⟩,
        ⟨ActionType.MOVE, "/tmp/t/report.pdf", "/tmp/t/Docs/report.pdf"⟩] ∧
    stranded_fs.is_regular_file "/tmp/t/Docs" = true ∧
    (run_undo
      (execute_plan (fun _ => false) stranded_fs
        (generate_plan stranded_engine stranded_fs "/tmp/t" Schedule.sequential none)).1
      (some (execute_plan (fun _ => false) stranded_fs
        (generate_plan stranded_engine stranded_fs "/tmp/t" Schedule.sequential none)).2)).2 =
      [⟨"/tmp/t/Docs/report.pdf", "/tmp/t/report.pdf", true⟩,
        ⟨"/tmp/t/Other/Docs", "/tmp/t/Docs", false⟩] ∧
    (run_undo
      (execute_plan (fun _ => false) stranded_fs
        (generate_plan stranded_engine stranded_fs "/tmp/t" Schedule.sequential none)).1
      (some (execute_plan (fun _ => false) stranded_fs
        (generate_plan stranded_engine stranded_fs "/tmp/t" Schedule.sequential none)).2)).1.is_regular_file
      "/tmp/t/Docs" = false ∧
    (run_undo
      (execute_plan (fun _ => false) stranded_fs
        (generate_plan stranded_engine stranded_fs "/tmp/t" Schedule.sequential none)).1
      (some (execute_plan (fun _ => false) stranded_fs
        (generate_plan stranded_engine stranded_fs "/tmp/t" Schedule.sequential none)).2)).1.is_regular_file
      "/tmp/t/Other/Docs" = true := by
  decide

/-! ## C15 -/

theorem generate_plan_loop_succ (self : RuleEngine) (fs : FileSystem) (targetDir : Path)
    (schedule : Schedule) (stoken : StopToken) (paths_to_scan : List Path)
    (fuel i : Nat) (result_plan : List Action) :
    generate_plan_loop self fs targetDir schedule stoken paths_to_scan (fuel + 1) i result_plan =
      if i < paths_to_scan.length then
        if stop_requested stoken (i / chunk_size) then result_plan
        else
          generate_plan_loop self fs targetDir schedule stoken paths_to_scan fuel (i + chunk_size)
            (result_plan ++ schedule.arrange (i / chunk_size)
              (((paths_to_scan.drop i).take (min (i + chunk_size) paths_to_scan.length - i)).filterMap
                fun p => generate_action_for_path self fs p targetDir))
      else result_plan :=
  rfl

theorem chunk_bounds (paths_to_scan : List Path) (k : Nat) :
    (paths_to_scan.drop (chunk_size * k)).take
        (min (chunk_size * k + chunk_size) paths_to_scan.length - chunk_size * k) =
      chunk_of paths_to_scan k := by
  unfold chunk_of
  by_cases h : chunk_size * k + chunk_size ≤ paths_to_scan.length
  · rw [Nat.min_eq_left h, Nat.add_sub_cancel_left]
  · rw [Nat.min_eq_right (by omega)]
    rw [List.take_of_length_le (by simp), List.take_of_length_le (by simp; omega)]

theorem generate_plan_loop_chunks (self : RuleEngine) (fs : FileSystem) (targetDir : Path)
    (schedule : Schedule) (stoken : StopToken) (paths_to_scan : List Path) :
    ∀ (fuel k : Nat) (result_plan : List Action),
      chunk_count paths_to_scan.length ≤ fuel + k →
      generate_plan_loop self fs targetDir schedule stoken paths_to_scan fuel (chunk_size * k)
          result_plan =
        result_plan ++
          ((List.range' k (chunk_count paths_to_scan.length - k)).takeWhile
            fun j => !stop_requested stoken j).flatMap
            (chunk_plan_of self fs targetDir schedule paths_to_scan) := by
  have hc : chunk_size = 128 := rfl
  intro fuel
  induction fuel with
  | zero =>
    intro k result_plan h
    have : chunk_count paths_to_scan.length - k = 0 := by omega
    rw [this]
    simp [generate_plan_loop]
  | succ fuel ih =>
    intro k result_plan h
    rw [generate_plan_loop_succ]
    have hdiv : chunk_size * k / chunk_size = k := Nat.mul_div_cancel_left k (by decide)
    by_cases hlt : chunk_size * k < paths_to_scan.length
    · have hk : k < chunk_count paths_to_scan.length := by
        unfold chunk_count
        rw [hc] at hlt ⊢
        omega
      have hrange : List.range' k (chunk_count paths_to_scan.length - k) =
          k :: List.range' (k + 1) (chunk_count paths_to_scan.length - (k + 1)) := by
        have : chunk_count paths_to_scan.length - k =
            (chunk_count paths_to_scan.length - (k + 1)) + 1 := by omega
        rw [this, List.range'_succ]
      rw [if_pos hlt, hdiv, hrange, List.takeWhile_cons]
      by_cases hstop : stop_requested stoken k = true
      · simp [hstop]
      · have hstop2 : stop_requested stoken k = false := by simpa using hstop
        rw [if_neg hstop]
        simp only [hstop2, Bool.not_false, if_true, List.flatMap_cons]
        have hnext : chunk_size * k + chunk_size = chunk_size * (k + 1) := by
          rw [Nat.mul_succ]
        rw [chunk_bounds, hnext, ih (k + 1) _ (by omega)]
        simp [chunk_plan_of, List.append_assoc]
    · have hk : chunk_count paths_to_scan.length - k = 0 := by
        unfold chunk_count
        rw [hc] at hlt ⊢
        omega
      rw [if_neg hlt, hk]
      simp

theorem takeWhile_range' (p : Nat → Bool) :
    ∀ (n s : Nat), (List.range' s n).takeWhile p =
      List.range' s ((List.range' s n).takeWhile p).length := by
  intro n
  induction n with
  | zero => intro s; simp
  | succ n ih =>
    intro s
    rw [List.range'_succ, List.takeWhile_cons]
    by_cases h : p s = true
    · rw [if_pos h, List.length_cons, List.range'_succ, ← ih (s + 1)]
    · rw [if_neg h]
      simp

theorem flatMap_chunks (self : RuleEngine) (fs : FileSystem) (targetDir : Path)
    (paths_to_scan : List Path) :
    ∀ m : Nat,
      (List.range m).flatMap (fun k =>
        (chunk_of paths_to_scan k).filterMap fun p => generate_action_for_path self fs p targetDir) =
      (paths_to_scan.take (chunk_size * m)).filterMap fun p =>
        generate_action_for_path self fs p targetDir := by
  intro m
  induction m with
  | zero => simp
  | succ m ih =>
    rw [List.range_succ, List.flatMap_append, ih, Nat.mul_succ, List.take_add,
      List.filterMap_append]
    simp [chunk_of]

theorem generate_plan_eq_chunks (self : RuleEngine) (fs : FileSystem) (targetDir : Path)
    (schedule : Schedule) (stoken : StopToken) (paths_to_scan : List Path)
    (h : enumerate_target fs targetDir = some paths_to_scan) :
    generate_plan self fs targetDir schedule stoken =
      (started_chunks stoken paths_to_scan.length).flatMap
        (chunk_plan_of self fs targetDir schedule paths_to_scan) := by
  unfold generate_plan
  rw [h]
  simp only
  have hcount : chunk_count paths_to_scan.length ≤ paths_to_scan.length + 0 := by
    unfold chunk_count
    have hc : chunk_size = 128 := rfl
    rw [hc]
    omega
  have := generate_plan_loop_chunks self fs targetDir schedule stoken paths_to_scan
    paths_to_scan.length 0 [] hcount
  rw [Nat.mul_zero] at this
  rw [this]
  simp [started_chunks, List.range_eq_range']

theorem generate_plan_perm (self : RuleEngine) (fs : FileSystem) (targetDir : Path)
    (schedule : Schedule) (stoken : StopToken) (paths_to_scan : List Path)
    (h : enumerate_target fs targetDir = some paths_to_scan) :
    (generate_plan self fs targetDir schedule stoken).Perm
      ((paths_to_scan.take (chunk_size * (started_chunks stoken paths_to_scan.length).length)).filterMap
        fun p => generate_action_for_path self fs p targetDir) := by
  rw [generate_plan_eq_chunks self fs targetDir schedule stoken paths_to_scan h]
  have hstarted : started_chunks stoken paths_to_scan.length =
      List.range (started_chunks stoken paths_to_scan.length).length := by
    unfold started_chunks
    rw [List.range_eq_range', List.range_eq_range']
    exact takeWhile_range' _ _ 0
  rw [← flatMap_chunks]
  conv_lhs => rw [hstarted]
  exact List.Perm.flatMap_left _ fun k _ => schedule.perm k _

theorem started_chunks_none (n : Nat) : started_chunks none n = List.range (chunk_count n) := by
  unfold started_chunks
  rw [List.takeWhile_eq_self_iff]
  intro k _
  rfl

theorem generate_plan_perm_all (self : RuleEngine) (fs : FileSystem) (targetDir : Path)
    (schedule : Schedule) (paths_to_scan : List Path)
    (h : enumerate_target fs targetDir = some paths_to_scan) :
    (generate_plan self fs targetDir schedule none).Perm
      (paths_to_scan.filterMap fun p => generate_action_for_path self fs p targetDir) := by
  have := generate_plan_perm self fs targetDir schedule none paths_to_scan h
  rw [started_chunks_none, List.length_range] at this
  rwa [List.take_of_length_le] at this
  unfold chunk_count
  have hc : chunk_size = 128 := rfl
  rw [hc]
  omega

/-- C15: the plan is the concatenation, in chunk order, of the actions of the chunks of 128
consecutive paths that are started before a stop is observed, each chunk giving the results
of its entries in the order of the schedule.  The plan is therefore a rearrangement of the
results of the entries of the started chunks, each taken once; without a stop token it is a
rearrangement of the results of all entries; and when the stop is first observed before
chunk `k`, the plan holds the actions of the chunks `0..k-1` and no other. -/
theorem plan_is_concatenation_of_chunks (self : RuleEngine) (fs : FileSystem) (targetDir : Path)
    (schedule : Schedule) (stoken : StopToken) (paths_to_scan : List Path)
    (h : enumerate_target fs targetDir = some paths_to_scan) :
    generate_plan self fs targetDir schedule stoken =
      (started_chunks stoken paths_to_scan.length).flatMap (fun k =>
        schedule.arrange k (((paths_to_scan.drop (128 * k)).take 128).filterMap fun p =>
          generate_action_for_path self fs p targetDir)) ∧
    (generate_plan self fs targetDir schedule stoken).Perm
      ((paths_to_scan.take (128 * (started_chunks stoken paths_to_scan.length).length)).filterMap
        fun p => generate_action_for_path self fs p targetDir) ∧
    (generate_plan self fs targetDir schedule none).Perm
      (paths_to_scan.filterMap fun p => generate_action_for_path self fs p targetDir) ∧
    (∀ k, k < chunk_count paths_to_scan.length → stop_requested stoken k = true →
      (∀ j, j < k → stop_requested stoken j = false) →
      started_chunks stoken paths_to_scan.length = List.range k) := by
  refine ⟨generate_plan_eq_chunks self fs targetDir schedule stoken paths_to_scan h,
    generate_plan_perm self fs targetDir schedule stoken paths_to_scan h,
    generate_plan_perm_all self fs targetDir schedule paths_to_scan h, ?_⟩
  intro k hk hstop hbefore
  unfold started_chunks
  have hsplit : List.range (chunk_count paths_to_scan.length) =
      List.range k ++ List.range' k (chunk_count paths_to_scan.length - k) := by
    rw [List.range_eq_range', List.range_eq_range']
    have happ := List.range'_append_1 0 k (chunk_count paths_to_scan.length - k)
    rw [Nat.zero_add] at happ
    rw [happ]
    congr 1
    omega
  have hrest : List.range' k (chunk_count paths_to_scan.length - k) =
      k :: List.range' (k + 1) (chunk_count paths_to_scan.length - (k + 1)) := by
    have : chunk_count paths_to_scan.length - k =
        (chunk_count paths_to_scan.length - (k + 1)) + 1 := by omega
    rw [this, List.range'_succ]
  rw [hsplit, hrest, List.takeWhile_append_of_pos, List.takeWhile_cons]
  · simp [hstop]
  · intro j hj
    rw [List.mem_range] at hj
    simp [hbefore j hj]

set_option maxRecDepth 100000 in
/-- A target directory of 130 entries has two chunks, of 128 and of 2 paths.  Without a stop
the plan holds the results of both chunks in chunk order, also when every chunk completes in
reverse; a stop requested after the first check leaves exactly the results of the first 128
paths; a stop requested from the start leaves nothing. -/
theorem plan_is_concatenation_of_chunks_witness :
    enumerate_target numbered_fs "/tmp/t" = some ((List.range 130).map numbered_path) ∧
    chunk_count 128 = 1 ∧ chunk_count 129 = 2 ∧ chunk_count 130 = 2 ∧
    chunk_of ((List.range 130).map numbered_path) 1 = [numbered_path 128, numbered_path 129] ∧
    generate_plan scenario_a_engine numbered_fs "/tmp/t" Schedule.sequential none =
      (List.range 130).filterMap numbered_action ∧
    generate_plan scenario_a_engine numbered_fs "/tmp/t" Schedule.reversed none =
      ((List.range 128).filterMap numbered_action).reverse ++
        [(⟨"/tmp/t/f129.pdf", "/tmp/t/Documents/f129.pdf", "Documents"⟩ : Action),
          ⟨"/tmp/t/f128.pdf", "/tmp/t/Documents/f128.pdf", "Documents"⟩] ∧
    generate_plan scenario_a_engine numbered_fs "/tmp/t" Schedule.sequential
      stop_after_first_chunk = (List.range 128).filterMap numbered_action ∧
    generate_plan scenario_a_engine numbered_fs "/tmp/t" Schedule.reversed
      stop_after_first_chunk = ((List.range 128).filterMap numbered_action).reverse ∧
    generate_plan scenario_a_engine numbered_fs "/tmp/t" Schedule.sequential
      (some fun _ => true) = [] ∧
    ((List.range 128).filterMap numbered_action).length = 126 ∧
    started_chunks stop_after_first_chunk ((List.range 130).map numbered_path).length =
      List.range 1 ∧
    generate_plan scenario_a_engine numbered_fs "/tmp/t" Schedule.reversed
      stop_after_first_chunk =
      (started_chunks stop_after_first_chunk ((List.range 130).map numbered_path).length).flatMap
        (fun k => Schedule.reversed.arrange k
          (((((List.range 130).map numbered_path).drop (128 * k)).take 128).filterMap fun p =>
            generate_action_for_path scenario_a_engine numbered_fs p "/tmp/t")) ∧
    (generate_plan scenario_a_engine numbered_fs "/tmp/t" Schedule.reversed
      stop_after_first_chunk).Perm
      ((((List.range 130).map numbered_path).take (128 * (started_chunks stop_after_first_chunk
        ((List.range 130).map numbered_path).length).length)).filterMap
        fun p => generate_action_for_path scenario_a_engine numbered_fs p "/tmp/t") ∧
    (generate_plan scenario_a_engine numbered_fs "/tmp/t" Schedule.reversed none).Perm
      (((List.range 130).map numbered_path).filterMap fun p =>
        generate_action_for_path scenario_a_engine numbered_fs p "/tmp/t") :=
  have h := plan_is_concatenation_of_chunks scenario_a_engine numbered_fs "/tmp/t"
    Schedule.reversed stop_after_first_chunk ((List.range 130).map numbered_path) (by decide)
  ⟨by decide, by decide, by decide, by decide, by decide, by decide, by decide, by decide,
    by decide, by decide, by decide,
    h.2.2.2 1 (by decide) (by decide) (by decide), h.1, h.2.1, h.2.2.1⟩

/-! ## C14 -/

theorem choose_path_to_analyze_eq (path : Path) (entries : List DirectoryEntry) :
    choose_path_to_analyze path entries = path := by
  unfold choose_path_to_analyze
  split <;> rfl

/-- C16, amended: an entry whose type cannot be read, and a directory one of whose
listings fails, yield no action; a failure while the metadata of an image is read is
absorbed by `get_exif_date`, and the file is then classified by its extension like any
other file; without cancellation the plan still holds the action of every enumerated
entry that has one. -/
theorem failing_entry_is_skipped (self : RuleEngine) (fs : FileSystem) (targetDir : Path) :
    (∀ path : Path, fs.status path = none →
      generate_action_for_path self fs path targetDir = none) ∧
    (∀ path : Path, fs.is_directory path = true → collected_facts self fs path = none →
      generate_action_for_path self fs path targetDir = none) ∧
    (∀ path : Path, fs.status path = some (.file none) →
      resolve_category self fs path =
        some (match self.m_config.categories.find
            (string_to_lower_ascii (safe_path_to_string path.extension)) with
          | some category => category
          | none => "Other")) ∧
    (∀ (schedule : Schedule) (paths_to_scan : List Path),
      enumerate_target fs targetDir = some paths_to_scan →
      ∀ p ∈ paths_to_scan, ∀ a, generate_action_for_path self fs p targetDir = some a →
        a ∈ generate_plan self fs targetDir schedule none) := by
  refine ⟨?_, ?_, ?_, ?_⟩
  · intro path h
    unfold generate_action_for_path resolve_category FileSystem.is_regular_file
      FileSystem.is_directory
    rw [h]
    simp
  · intro path hdir hfacts
    unfold generate_action_for_path resolve_category classify_directory
    rw [regular_file_of_directory fs path hdir, hdir, hfacts]
    simp only [Bool.false_eq_true, if_false, if_true]
    split_ifs <;> rfl
  · intro path h
    have hfile : fs.is_regular_file path = true := by
      unfold FileSystem.is_regular_file
      rw [h]
    have hdate : get_exif_date fs path = none := by
      unfold get_exif_date
      rw [h]
    unfold resolve_category
    rw [if_pos hfile]
    congr 1
    unfold classify_regular_file
    simp only [hdate, ite_self]
    rfl
  · intro schedule paths_to_scan hen p hp a ha
    rw [(generate_plan_perm_all self fs targetDir schedule paths_to_scan hen).mem_iff,
      List.mem_filterMap]
    exact ⟨p, hp, ha⟩

/-- In `failing_fs` the directory that may not be listed yields no action, and the plan
still holds the actions of the two files. -/
theorem failing_entry_is_skipped_witness :
    failing_fs.is_directory "/tmp/t/locked" = true ∧
    collected_facts failing_engine failing_fs "/tmp/t/locked" = none ∧
    generate_plan failing_engine failing_fs "/tmp/t" Schedule.sequential none =
      [⟨"/tmp/t/photo.jpg", "/tmp/t/Other/photo.jpg", "Other"⟩,
        ⟨"/tmp/t/notes.pdf", "/tmp/t/Documents/notes.pdf", "Documents"⟩] ∧
    generate_action_for_path failing_engine failing_fs "/tmp/t/locked" "/tmp/t" = none :=
  ⟨by decide, by decide, by decide,
    (failing_entry_is_skipped failing_engine failing_fs "/tmp/t").2.1 "/tmp/t/locked"
      (by decide) (by decide)⟩

/-- C16 as stated fails: the metadata of the image `photo.jpg` cannot be read, and
`generate_action_for_path` returns an action for it all the same, with the fallback
category. -/
theorem unreadable_metadata_still_classified :
    failing_fs.is_regular_file "/tmp/t/photo.jpg" = true ∧
    string_to_lower_ascii (safe_path_to_string (Path.extension "/tmp/t/photo.jpg")) ∈
      image_extensions ∧
    get_exif_date failing_fs "/tmp/t/photo.jpg" = none ∧
    generate_action_for_path failing_engine failing_fs "/tmp/t/photo.jpg" "/tmp/t" =
      some ⟨"/tmp/t/photo.jpg", "/tmp/t/Other/photo.jpg", "Other"⟩ ∧
    generate_action_for_path failing_engine failing_fs "/tmp/t/photo.jpg" "/tmp/t" ≠ none := by
  decide

/-! ## C17 -/

/-- C17 fails on the code: for the image of scenario D, taken on 2023-06-15, a rule with a
matching `exif_date_matches` condition is selected although its second condition does not
hold, be it a second `exif_date_matches` with the pattern `1999-**-**` or a
`contains_filename` condition. -/
theorem image_rule_selected_by_one_condition :
    get_exif_date scenario_d_fs "/tmp/t/holiday.jpg" = some "2023-06-15" ∧
    exif_date_matches "2023-06-**" "2023-06-15" = true ∧
    exif_date_matches "1999-**-**" "2023-06-15" = false ∧
    generate_action_for_path ⟨⟨[], [two_patterns_rule]⟩⟩ scenario_d_fs "/tmp/t/holiday.jpg"
      "/tmp/t" = some ⟨"/tmp/t/holiday.jpg", "/tmp/t/Photos/holiday.jpg", "Photos"⟩ ∧
    condition_met ⟨[], [], []⟩ ⟨"contains_filename", ["package.json"], Threshold.zero⟩ = false ∧
    generate_action_for_path ⟨⟨[], [mixed_conditions_rule]⟩⟩ scenario_d_fs "/tmp/t/holiday.jpg"
      "/tmp/t" = some ⟨"/tmp/t/holiday.jpg", "/tmp/t/Photos/holiday.jpg", "Photos"⟩ := by
  decide

/-! ## C18 -/

theorem names_loop_eq_any (test : String → Bool) :
    ∀ (names : List String) (condition_met : Bool),
      names_loop test names condition_met = (condition_met || names.any test) := by
  intro names
  induction names with
  | nil => intro met; simp [names_loop]
  | cons f rest ih =>
    intro met
    unfold names_loop
    by_cases h : test f = true
    · simp [h]
    · rw [if_neg h, ih]
      simp [h]

theorem values_loop_eq_any (test : String → String → Bool) (names : List String) :
    ∀ (values : List String) (condition_met : Bool),
      values_loop test names values condition_met =
        (condition_met || values.any fun v => names.any (test v)) := by
  intro values
  induction values with
  | nil => intro met; simp [values_loop]
  | cons v rest ih =>
    intro met
    unfold values_loop
    rw [ih, names_loop_eq_any]
    simp [Bool.or_assoc]

theorem any_perm {α : Type} (p : α → Bool) {l l' : List α} (h : l.Perm l') :
    l.any p = l'.any p := by
  rw [Bool.eq_iff_iff, List.any_eq_true, List.any_eq_true]
  constructor
  · rintro ⟨x, hx, hp⟩
    exact ⟨x, h.mem_iff.mp hx, hp⟩
  · rintro ⟨x, hx, hp⟩
    exact ⟨x, h.mem_iff.mpr hx, hp⟩

theorem listed_total_eq_sum (category_counts : StringMap Nat) :
    ∀ (values : List String) (category_total : Nat),
      listed_total category_counts values category_total =
        category_total + (values.map fun v => (category_counts.find v).getD 0).sum := by
  intro values
  induction values with
  | nil => intro acc; simp [listed_total]
  | cons v rest ih =>
    intro acc
    unfold listed_total
    cases hf : category_counts.find v with
    | none =>
      simp only [ih, List.map_cons, List.sum_cons, hf, Option.getD_none]
      omega
    | some count =>
      simp only [ih, List.map_cons, List.sum_cons, hf, Option.getD_some]
      omega

theorem condition_met_perm (facts : DirectoryFacts) (type : String) (values values' : List String)
    (threshold : Threshold) (h : values.Perm values') :
    condition_met facts ⟨type, values, threshold⟩ = condition_met facts ⟨type, values', threshold⟩ := by
  unfold condition_met
  simp only
  split_ifs
  · rw [values_loop_eq_any, values_loop_eq_any, any_perm _ h]
  · rw [values_loop_eq_any, values_loop_eq_any, any_perm _ h]
  · rw [values_loop_eq_any, values_loop_eq_any, any_perm _ h]
  · rfl
  · rw [listed_total_eq_sum, listed_total_eq_sum,
      (h.map fun v => (facts.category_counts.find v).getD 0).sum_eq]
  · rfl
  · rfl

theorem exif_conditions_loop_first_value (rule : Rule) (exif_date : String) (categoryName : String) :
    ∀ conditions conditions' : List Condition,
      List.Forall₂ (fun c c' : Condition => c.type = c'.type ∧ c.values.head? = c'.values.head?)
        conditions conditions' →
      exif_conditions_loop rule exif_date conditions categoryName =
        exif_conditions_loop rule exif_date conditions' categoryName := by
  intro conditions conditions' h
  induction h with
  | nil => rfl
  | @cons c c' rest rest' hc _ ih =>
    obtain ⟨ht, hv⟩ := hc
    unfold exif_conditions_loop
    rw [← ht]
    by_cases hty : c.type = "exif_date_matches"
    · rw [if_pos hty, if_pos hty]
      cases hcv : c.values with
      | nil =>
        rw [hcv] at hv
        cases hcv' : c'.values with
        | nil => exact ih
        | cons p' more' => rw [hcv'] at hv; simp at hv
      | cons p more =>
        rw [hcv] at hv
        cases hcv' : c'.values with
        | nil => rw [hcv'] at hv; simp at hv
        | cons p' more' =>
          rw [hcv'] at hv
          simp only [List.head?_cons, Option.some.injEq] at hv
          subst hv
          simp only
          rw [ih]
    · rw [if_neg hty, if_neg hty]
      exact ih

/-- C18, amended: for every condition evaluated on a directory, of whatever type, the
result is unchanged under any permutation of the values of the condition; on an image
file an `exif_date_matches` condition is tested on its first value only, so that the
result is unchanged when the values after the first are changed in any way. -/
theorem directory_conditions_ignore_value_order :
    (∀ (facts : DirectoryFacts) (type : String) (values values' : List String)
      (threshold : Threshold), values.Perm values' →
      condition_met facts ⟨type, values, threshold⟩ =
        condition_met facts ⟨type, values', threshold⟩) ∧
    (∀ (rule : Rule) (exif_date : String) (categoryName : String)
      (conditions conditions' : List Condition),
      List.Forall₂ (fun c c' : Condition => c.type = c'.type ∧ c.values.head? = c'.values.head?)
        conditions conditions' →
      exif_conditions_loop rule exif_date conditions categoryName =
        exif_conditions_loop rule exif_date conditions' categoryName) :=
  ⟨fun facts type values values' threshold h =>
      condition_met_perm facts type values values' threshold h,
    fun rule exif_date categoryName conditions conditions' h =>
      exif_conditions_loop_first_value rule exif_date categoryName conditions conditions' h⟩

/-- The condition `contains_filename` with the values `a`, `package.json` holds on a
directory with the file `package.json`, and so it does with the values exchanged. -/
theorem directory_conditions_ignore_value_order_witness :
    ["a", "package.json"].Perm ["package.json", "a"] ∧
    condition_met ⟨["package.json"], [], []⟩
      ⟨"contains_filename", ["a", "package.json"], Threshold.zero⟩ = true ∧
    condition_met ⟨["package.json"], [], []⟩
        ⟨"contains_filename", ["a", "package.json"], Threshold.zero⟩ =
      condition_met ⟨["package.json"], [], []⟩
        ⟨"contains_filename", ["package.json", "a"], Threshold.zero⟩ :=
  ⟨List.Perm.swap _ _ _, by decide,
    directory_conditions_ignore_value_order.1 ⟨["package.json"], [], []⟩ "contains_filename"
      ["a", "package.json"] ["package.json", "a"] Threshold.zero (List.Perm.swap _ _ _)⟩

/-- C18 as stated fails: for the image of scenario D, taken on 2023-06-15, the condition
with the values `1999-**-**`, `2023-06-**` does not select its rule (the file falls back
to `Other`), and the same condition with the two values exchanged does. -/
theorem exif_condition_depends_on_value_order :
    ["1999-**-**", "2023-06-**"].Perm ["2023-06-**", "1999-**-**"] ∧
    rule_matches_date pattern_second_rule "2023-06-15" = false ∧
    rule_matches_date pattern_first_rule "2023-06-15" = true ∧
    generate_action_for_path ⟨⟨[], [pattern_second_rule]⟩⟩ scenario_d_fs "/tmp/t/holiday.jpg"
      "/tmp/t" = some ⟨"/tmp/t/holiday.jpg", "/tmp/t/Other/holiday.jpg", "Other"⟩ ∧
    generate_action_for_path ⟨⟨[], [pattern_first_rule]⟩⟩ scenario_d_fs "/tmp/t/holiday.jpg"
      "/tmp/t" = some ⟨"/tmp/t/holiday.jpg", "/tmp/t/Photos/holiday.jpg", "Photos"⟩ :=
  ⟨List.Perm.swap _ _ _, by decide, by decide, by decide, by decide⟩

/-! ## C19 -/

theorem directory_entry_kind (entry : DirectoryEntry) (h : entry.is_directory = true) :
    entry.is_regular_file = false := by
  unfold DirectoryEntry.is_directory at h
  unfold DirectoryEntry.is_regular_file
  cases hn : entry.node with
  | file exif => rw [hn] at h; exact absurd h (by simp)
  | dir readable children => rfl

theorem collect_facts_counts (categories : StringMap String) :
    ∀ (entries : List DirectoryEntry) (facts : DirectoryFacts),
      (collect_facts categories entries facts).category_counts =
        (entries.filterMap (counted_category categories)).foldl StringMap.increment
          facts.category_counts := by
  intro entries
  induction entries with
  | nil => intro facts; rfl
  | cons entry rest ih =>
    intro facts
    unfold collect_facts
    by_cases hd : entry.is_directory = true
    · have hc : counted_category categories entry = none := by
        unfold counted_category
        rw [directory_entry_kind entry hd]
        rfl
      rw [if_pos hd, ih, List.filterMap_cons_none hc]
    · rw [if_neg hd]
      by_cases hf : entry.is_regular_file = true
      · rw [if_pos hf, ih]
        cases hfind : categories.find
            (string_to_lower_ascii (safe_path_to_string entry.path.extension)) with
        | none =>
          have hc : counted_category categories entry = none := by
            unfold counted_category
            rw [if_pos hf, hfind]
          rw [List.filterMap_cons_none hc]
        | some category =>
          have hc : counted_category categories entry = some category := by
            unfold counted_category
            rw [if_pos hf, hfind]
          rw [List.filterMap_cons_some hc]
          rfl
      · have hc : counted_category categories entry = none := by
          unfold counted_category
          rw [if_neg hf]
        rw [if_neg hf, ih, List.filterMap_cons_none hc]

theorem increment_find :
    ∀ (m : StringMap Nat) (key c : String),
      ((m.increment key).find c).getD 0 = (m.find c).getD 0 + if key = c then 1 else 0 := by
  intro m
  induction m with
  | nil =>
    intro key c
    unfold StringMap.increment StringMap.find
    by_cases h : key = c
    · simp [h]
    · simp [h, StringMap.find]
  | cons kv rest ih =>
    intro key c
    obtain ⟨k, n⟩ := kv
    unfold StringMap.increment
    by_cases hk : k = key
    · rw [if_pos hk]
      unfold StringMap.find
      by_cases hc : k = c
      · have : key = c := hk ▸ hc
        simp [hc, this]
      · have : ¬ key = c := fun e => hc (hk.trans e)
        simp [hc, this]
    · rw [if_neg hk]
      unfold StringMap.find
      by_cases hc : k = c
      · have : ¬ key = c := fun e => hk (hc.trans e.symm)
        simp [hc, this]
      · simp only [hc, if_false]
        exact ih key c

theorem increment_keys :
    ∀ (m : StringMap Nat) (key : String),
      (m.increment key).map Prod.fst =
        if key ∈ m.map Prod.fst then m.map Prod.fst else m.map Prod.fst ++ [key] := by
  intro m
  induction m with
  | nil => intro key; simp [StringMap.increment]
  | cons kv rest ih =>
    intro key
    obtain ⟨k, n⟩ := kv
    unfold StringMap.increment
    by_cases hk : k = key
    · simp [hk]
    · rw [if_neg hk, List.map_cons, ih]
      have hk' : ¬ key = k := fun e => hk e.symm
      by_cases hmem : key ∈ rest.map Prod.fst
      · simp [hmem]
      · simp [hmem, hk']

theorem increment_nodup (m : StringMap Nat) (key : String) (h : (m.map Prod.fst).Nodup) :
    ((m.increment key).map Prod.fst).Nodup := by
  rw [increment_keys]
  split_ifs with hmem
  · exact h
  · exact List.nodup_append.mpr ⟨h, List.nodup_singleton key, by
      intro a ha hb
      rw [List.mem_singleton] at hb
      exact hmem (hb ▸ ha)⟩

theorem increment_sum :
    ∀ (m : StringMap Nat) (key : String),
      ((m.increment key).map Prod.snd).sum = (m.map Prod.snd).sum + 1 := by
  intro m
  induction m with
  | nil => intro key; simp [StringMap.increment]
  | cons kv rest ih =>
    intro key
    obtain ⟨k, n⟩ := kv
    unfold StringMap.increment
    by_cases hk : k = key
    · rw [if_pos hk]
      simp only [List.map_cons, List.sum_cons]
      omega
    · rw [if_neg hk]
      simp only [List.map_cons, List.sum_cons, ih]
      omega

theorem items_of_nodup {β : Type} :
    ∀ m : StringMap β, (m.map Prod.fst).Nodup → m.items = m := by
  intro m
  induction m with
  | nil => intro _; rfl
  | cons kv rest ih =>
    intro h
    obtain ⟨k, v⟩ := kv
    rw [List.map_cons, List.nodup_cons] at h
    unfold StringMap.items
    rw [ih h.2]
    congr 1
    rw [List.filter_eq_self]
    intro a ha
    have : a.1 ≠ k := fun e => h.1 (List.mem_map.mpr ⟨a, ha, e⟩)
    simpa using this

theorem counts_total_eq_sum :
    ∀ (l : StringMap Nat) (total : Nat), counts_total l total = total + (l.map Prod.snd).sum := by
  intro l
  induction l with
  | nil => intro total; simp [counts_total]
  | cons pair rest ih =>
    intro total
    unfold counts_total
    rw [ih]
    simp only [List.map_cons, List.sum_cons]
    omega

theorem foldl_increment :
    ∀ (cs : List String) (m : StringMap Nat), (m.map Prod.fst).Nodup →
      (((cs.foldl StringMap.increment m).map Prod.fst).Nodup ∧
        ((cs.foldl StringMap.increment m).map Prod.snd).sum = (m.map Prod.snd).sum + cs.length ∧
        ∀ c, ((cs.foldl StringMap.increment m).find c).getD 0 =
          (m.find c).getD 0 + cs.count c) := by
  intro cs
  induction cs with
  | nil => intro m h; exact ⟨h, by simp, fun c => by simp⟩
  | cons k rest ih =>
    intro m h
    obtain ⟨h1, h2, h3⟩ := ih (m.increment k) (increment_nodup m k h)
    refine ⟨h1, ?_, ?_⟩
    · rw [List.foldl_cons, h2, increment_sum, List.length_cons]
      omega
    · intro c
      rw [List.foldl_cons, h3 c, increment_find, List.count_cons]
      by_cases hk : k = c
      · simp [hk]
        omega
      · simp [hk]

theorem bit_length_loop_spec :
    ∀ fuel n, 0 < n → n ≤ fuel →
      ∃ l, bit_length_loop fuel n = l + 1 ∧ 2 ^ l ≤ n ∧ n < 2 ^ (l + 1) := by
  intro fuel
  induction fuel with
  | zero => intro n h0 h; omega
  | succ fuel ih =>
    intro n h0 h
    unfold bit_length_loop
    rw [if_neg (by omega)]
    by_cases h2 : n / 2 = 0
    · refine ⟨0, ?_, ?_, ?_⟩
      · rw [h2]
        cases fuel <;> simp [bit_length_loop]
      · simpa using h0
      · have : n < 2 := by omega
        simpa using this
    · obtain ⟨l, hl, hlo, hhi⟩ := ih (n / 2) (by omega) (by omega)
      refine ⟨l + 1, by rw [hl], ?_, ?_⟩
      · rw [pow_succ]; omega
      · rw [pow_succ]; omega

theorem bit_length_spec (n : Nat) (h : 0 < n) :
    ∃ l, bit_length n = l + 1 ∧ 2 ^ l ≤ n ∧ n < 2 ^ (l + 1) :=
  bit_length_loop_spec n n h (Nat.le_refl n)

theorem round_half_even_spec (num den : Nat) (h : 0 < den) :
    num / den ≤ round_half_even num den ∧
      2 * (round_half_even num den * den) ≤ 2 * num + den := by
  have hdm := Nat.div_add_mod num den
  have hlt := Nat.mod_lt num h
  unfold round_half_even
  simp only
  generalize num / den = q at *
  generalize num % den = r at *
  have hq : (q + 1) * den = q * den + den := by ring
  have hc : den * q = q * den := Nat.mul_comm _ _
  split_ifs <;> refine ⟨by omega, ?_⟩ <;> (try rw [hq]) <;> omega

theorem normalised (a b : Nat) (ha : 0 < a) (hb : 0 < b) :
    2 ^ 52 * (b * 2 ^ (bit_length a - (53 + bit_length b))) ≤
        a * 2 ^ (53 + bit_length b - bit_length a) ∧
      a * 2 ^ (53 + bit_length b - bit_length a) <
        2 ^ 54 * (b * 2 ^ (bit_length a - (53 + bit_length b))) := by
  obtain ⟨x, hx, hxlo, hxhi⟩ := bit_length_spec a ha
  obtain ⟨y, hy, hylo, hyhi⟩ := bit_length_spec b hb
  rw [hx, hy]
  by_cases hc : x ≤ 53 + y
  · have hd : x + 1 - (53 + (y + 1)) = 0 := by omega
    obtain ⟨u, hu⟩ : ∃ u, 53 + (y + 1) - (x + 1) = u ∧ x + u = 53 + y := ⟨_, rfl, by omega⟩
    rw [hd, hu.1, pow_zero, Nat.mul_one]
    constructor
    · calc 2 ^ 52 * b ≤ 2 ^ 52 * 2 ^ (y + 1) := Nat.mul_le_mul_left _ (Nat.le_of_lt hyhi)
        _ = 2 ^ x * 2 ^ u := by rw [← pow_add, ← pow_add]; congr 1; omega
        _ ≤ a * 2 ^ u := Nat.mul_le_mul_right _ hxlo
    · calc a * 2 ^ u < 2 ^ (x + 1) * 2 ^ u :=
            Nat.mul_lt_mul_of_pos_right hxhi (Nat.two_pow_pos u)
        _ = 2 ^ 54 * 2 ^ y := by rw [← pow_add, ← pow_add]; congr 1; omega
        _ ≤ 2 ^ 54 * b := Nat.mul_le_mul_left _ hylo
  · have hu : 53 + (y + 1) - (x + 1) = 0 := by omega
    obtain ⟨d, hd⟩ : ∃ d, x + 1 - (53 + (y + 1)) = d ∧ x = 53 + y + d := ⟨_, rfl, by omega⟩
    rw [hu, hd.1, pow_zero, Nat.mul_one]
    constructor
    · calc 2 ^ 52 * (b * 2 ^ d) ≤ 2 ^ 52 * (2 ^ (y + 1) * 2 ^ d) :=
            Nat.mul_le_mul_left _ (Nat.mul_le_mul_right _ (Nat.le_of_lt hyhi))
        _ = 2 ^ x := by rw [← pow_add, ← pow_add]; congr 1; omega
        _ ≤ a := hxlo
    · calc a < 2 ^ (x + 1) := hxhi
        _ = 2 ^ 54 * (2 ^ y * 2 ^ d) := by rw [← pow_add, ← pow_add]; congr 1; omega
        _ ≤ 2 ^ 54 * (b * 2 ^ d) := Nat.mul_le_mul_left _ (Nat.mul_le_mul_right _ hylo)


theorem counts_quotient_spec (a b : Nat) (ha : 0 < a) (hb : 0 < b) :
    ∃ N D : Nat, 0 < D ∧ 2 ^ 52 * D ≤ N ∧ N < 2 ^ 53 * D ∧
      (counts_quotient a b).significand = (round_half_even N D : Nat) ∧
      (a : ℚ) / b = (N : ℚ) / D * (2 : ℚ) ^ (counts_quotient a b).exponent := by
  obtain ⟨hlo, hhi⟩ := normalised a b ha hb
  have hD : 0 < b * 2 ^ (bit_length a - (53 + bit_length b)) :=
    Nat.mul_pos hb (Nat.two_pow_pos _)
  have hval : (a : ℚ) / b =
      ((a * 2 ^ (53 + bit_length b - bit_length a) : Nat) : ℚ) /
        ((b * 2 ^ (bit_length a - (53 + bit_length b)) : Nat) : ℚ) *
        (2 : ℚ) ^ (((bit_length a - (53 + bit_length b) : Nat) : Int) -
          ((53 + bit_length b - bit_length a : Nat) : Int)) := by
    have hb' : (b : ℚ) ≠ 0 := by exact_mod_cast (Nat.pos_iff_ne_zero.mp hb)
    rw [zpow_sub₀ (by norm_num), zpow_natCast, zpow_natCast]
    push_cast
    field_simp
    ring
  unfold counts_quotient
  rw [if_neg (by omega)]
  simp only
  split_ifs with h
  · exact ⟨_, _, hD, hlo, h, rfl, hval⟩
  · refine ⟨_, 2 * (b * 2 ^ (bit_length a - (53 + bit_length b))), by omega, by omega, by omega,
      rfl, ?_⟩
    rw [hval, zpow_add₀ (by norm_num)]
    have hD' : ((b * 2 ^ (bit_length a - (53 + bit_length b)) : Nat) : ℚ) ≠ 0 := by
      exact_mod_cast (Nat.pos_iff_ne_zero.mp hD)
    push_cast
    push_cast at hD'
    field_simp
    ring


theorem Double.ge_iff (x y : Double) : x.ge y = true ↔ y.value ≤ x.value := by
  unfold Double.ge Double.value
  simp only [decide_eq_true_eq]
  have key : ∀ (s e m : Int), m ≤ e →
      (s : ℚ) * (2 : ℚ) ^ e = ((s * ((2 ^ (e - m).toNat : Nat) : Int) : Int) : ℚ) * (2 : ℚ) ^ m := by
    intro s e m hme
    have hsplit : (2 : ℚ) ^ e = (2 : ℚ) ^ (((e - m).toNat : Int)) * (2 : ℚ) ^ m := by
      rw [← zpow_add₀ (by norm_num)]
      congr 1
      rw [Int.toNat_of_nonneg (by omega)]
      omega
    rw [hsplit, zpow_natCast]
    push_cast
    ring
  rw [key y.significand y.exponent (min x.exponent y.exponent) (min_le_right _ _),
    key x.significand x.exponent (min x.exponent y.exponent) (min_le_left _ _)]
  have hpos : (0 : ℚ) < (2 : ℚ) ^ (min x.exponent y.exponent) := zpow_pos (by norm_num) _
  rw [mul_le_mul_right hpos]
  exact Int.cast_le.symm

theorem counts_quotient_value_le (a b : Nat) (hb : 0 < b) :
    (counts_quotient a b).value ≤ (a : ℚ) / b * (1 + 1 / 2 ^ 53) := by
  rcases Nat.eq_zero_or_pos a with ha | ha
  · subst ha
    simp [counts_quotient, Double.value]
  obtain ⟨N, D, hD, hlo, _, hm, hval⟩ := counts_quotient_spec a b ha hb
  obtain ⟨_, hround⟩ := round_half_even_spec N D hD
  unfold Double.value
  rw [hval, hm]
  have hpos : (0 : ℚ) < (2 : ℚ) ^ (counts_quotient a b).exponent := zpow_pos (by norm_num) _
  have hDq : (0 : ℚ) < D := by exact_mod_cast hD
  have h1 : ((round_half_even N D : Nat) : ℚ) * D ≤ N + (D : ℚ) / 2 := by
    have : (2 * (round_half_even N D * D) : ℚ) ≤ 2 * N + D := by exact_mod_cast hround
    linarith
  have h2 : (2 : ℚ) ^ 52 * D ≤ N := by exact_mod_cast hlo
  have h3 : ((round_half_even N D : Nat) : ℚ) ≤ (N : ℚ) / D * (1 + 1 / 2 ^ 53) := by
    rw [div_mul_eq_mul_div, le_div_iff₀ hDq]
    have : (N : ℚ) * (1 + 1 / 2 ^ 53) = N + N / 2 ^ 53 := by ring
    rw [this]
    have : (D : ℚ) / 2 ≤ N / 2 ^ 53 := by
      have e : (D : ℚ) / 2 = 2 ^ 52 * D / 2 ^ 53 := by ring
      rw [e]
      exact div_le_div_of_nonneg_right h2 (by norm_num)
    linarith
  calc (((round_half_even N D : Nat) : Int) : ℚ) * (2 : ℚ) ^ (counts_quotient a b).exponent
      = ((round_half_even N D : Nat) : ℚ) * (2 : ℚ) ^ (counts_quotient a b).exponent := by
        push_cast; rfl
    _ ≤ (N : ℚ) / D * (1 + 1 / 2 ^ 53) * (2 : ℚ) ^ (counts_quotient a b).exponent :=
        mul_le_mul_of_nonneg_right h3 (le_of_lt hpos)
    _ = (N : ℚ) / D * (2 : ℚ) ^ (counts_quotient a b).exponent * (1 + 1 / 2 ^ 53) := by ring

theorem le_counts_quotient_value (t : Double) (a b : Nat) (hb : 0 < b)
    (hsig : t.significand.natAbs < 2 ^ 53) (h : t.value ≤ (a : ℚ) / b) :
    t.value ≤ (counts_quotient a b).value := by
  rcases Nat.eq_zero_or_pos a with ha | ha
  · subst ha
    simpa [counts_quotient, Double.value] using h
  obtain ⟨N, D, hD, hlo, _, hm, hval⟩ := counts_quotient_spec a b ha hb
  obtain ⟨hfloor, _⟩ := round_half_even_spec N D hD
  have hDq : (0 : ℚ) < D := by exact_mod_cast hD
  have hq : 2 ^ 52 ≤ N / D := (Nat.le_div_iff_mul_le hD).mpr hlo
  have hpos : (0 : ℚ) < (2 : ℚ) ^ (counts_quotient a b).exponent := zpow_pos (by norm_num) _
  have hm' : ((counts_quotient a b).significand : ℚ) = ((round_half_even N D : Nat) : ℚ) := by
    rw [hm]; push_cast; rfl
  unfold Double.value at h ⊢
  rw [hm']
  rw [hval] at h
  -- the threshold written with the exponent of the quotient
  have hsplit : (2 : ℚ) ^ t.exponent =
      (2 : ℚ) ^ (t.exponent - (counts_quotient a b).exponent) *
        (2 : ℚ) ^ (counts_quotient a b).exponent := by
    rw [← zpow_add₀ (by norm_num)]
    congr 1
    omega
  rw [hsplit, ← mul_assoc] at h ⊢
  rw [mul_le_mul_right hpos] at h ⊢
  generalize t.exponent - (counts_quotient a b).exponent = d at h ⊢
  rcases le_or_lt 0 d with hd | hd
  · -- the scaled threshold is an integer below the exact quotient
    obtain ⟨n, rfl⟩ := Int.eq_ofNat_of_zero_le hd
    rw [zpow_natCast] at h ⊢
    have hint : t.significand * 2 ^ n ≤ ((N / D : Nat) : Int) := by
      rw [le_div_iff₀ hDq] at h
      have h' : t.significand * 2 ^ n * (D : Int) ≤ (N : Int) := by exact_mod_cast h
      have : t.significand * 2 ^ n ≤ (N : Int) / (D : Int) :=
        (Int.le_ediv_iff_mul_le (by exact_mod_cast hD)).mpr h'
      exact_mod_cast this
    have : t.significand * 2 ^ n ≤ ((round_half_even N D : Nat) : Int) :=
      le_trans hint (by exact_mod_cast hfloor)
    exact_mod_cast this
  · -- the scaled threshold is below `2 ^ 52`
    have hhalf : (2 : ℚ) ^ d ≤ 1 / 2 := by
      have : (2 : ℚ) ^ d ≤ (2 : ℚ) ^ (-1 : Int) := zpow_le_zpow_right₀ (by norm_num) (by omega)
      simpa using this
    have hs : (t.significand : ℚ) ≤ 2 ^ 53 := by
      have : t.significand ≤ 2 ^ 53 := by omega
      exact_mod_cast this
    have hdpos : (0 : ℚ) < (2 : ℚ) ^ d := zpow_pos (by norm_num) _
    have hm2 : (2 : ℚ) ^ 52 ≤ ((round_half_even N D : Nat) : ℚ) := by
      have : 2 ^ 52 ≤ round_half_even N D := le_trans hq hfloor
      exact_mod_cast this
    have : (t.significand : ℚ) * (2 : ℚ) ^ d ≤ 2 ^ 53 * (1 / 2) :=
      mul_le_mul hs hhalf (le_of_lt hdpos) (by norm_num)
    have e : (2 : ℚ) ^ 53 * (1 / 2) = 2 ^ 52 := by norm_num
    linarith

/-- C19: a `file_category_percentage` condition holds on a directory iff the total is
positive and the quotient of the listed sum by the total, computed in the type `double`,
is greater than or equal to the threshold, where the count of a category is the number of
immediate regular files whose lowercased extension the category map sends to it, the listed
sum adds the counts of the listed names, and the total adds the counts of all categories
(files of an extension without category are not counted).  With a total of zero the
condition is false whatever the threshold.  In exact arithmetic: with a positive total the
condition holds whenever the exact quotient is at least the threshold, and when it holds
the exact quotient, enlarged by the rounding error `2 ^ (-53)` of a division, is at least
the threshold. -/
theorem file_category_percentage_iff (categories : StringMap String)
    (entries : List DirectoryEntry) (cond : Condition)
    (htype : cond.type = "file_category_percentage") :
    condition_met (collect_facts categories entries ⟨[], [], []⟩) cond =
      (decide (0 < (entries.filterMap (counted_category categories)).length) &&
        (counts_quotient
          (cond.values.map fun name =>
            (entries.filterMap (counted_category categories)).count name).sum
          (entries.filterMap (counted_category categories)).length).ge cond.threshold) ∧
    ((entries.filterMap (counted_category categories)).length = 0 →
      condition_met (collect_facts categories entries ⟨[], [], []⟩) cond = false) ∧
    (0 < (entries.filterMap (counted_category categories)).length →
      cond.threshold.significand.natAbs < 2 ^ 53 →
      cond.threshold.value ≤
        (((cond.values.map fun name =>
          (entries.filterMap (counted_category categories)).count name).sum : Nat) : ℚ) /
          (((entries.filterMap (counted_category categories)).length : Nat) : ℚ) →
      condition_met (collect_facts categories entries ⟨[], [], []⟩) cond = true) ∧
    (condition_met (collect_facts categories entries ⟨[], [], []⟩) cond = true →
      cond.threshold.value ≤
        (((cond.values.map fun name =>
          (entries.filterMap (counted_category categories)).count name).sum : Nat) : ℚ) /
          (((entries.filterMap (counted_category categories)).length : Nat) : ℚ) *
          (1 + 1 / 2 ^ 53)) := by
  have hnil : ((([] : StringMap Nat)).map Prod.fst).Nodup := List.nodup_nil
  obtain ⟨h1, h2, h3⟩ := foldl_increment (entries.filterMap (counted_category categories)) [] hnil
  have hmain : condition_met (collect_facts categories entries ⟨[], [], []⟩) cond =
      (decide (0 < (entries.filterMap (counted_category categories)).length) &&
        (counts_quotient
          (cond.values.map fun name =>
            (entries.filterMap (counted_category categories)).count name).sum
          (entries.filterMap (counted_category categories)).length).ge cond.threshold) := by
    unfold condition_met
    rw [htype]
    rw [if_neg (by decide), if_neg (by decide), if_neg (by decide), if_neg (by decide),
      if_pos rfl]
    simp only
    rw [collect_facts_counts, items_of_nodup _ h1, counts_total_eq_sum, listed_total_eq_sum, h2]
    have hsum : (cond.values.map fun v =>
        ((List.foldl StringMap.increment
          (({ filenames := [], subdir_names := [], category_counts := [] } :
            DirectoryFacts)).category_counts
          (entries.filterMap (counted_category categories))).find v).getD 0) =
        cond.values.map fun name =>
          (entries.filterMap (counted_category categories)).count name := by
      apply List.map_congr_left
      intro v _
      rw [h3 v]
      simp [StringMap.find]
    rw [hsum]
    simp
  refine ⟨hmain, fun h0 => ?_, fun hpos hsig hle => ?_, fun hmet => ?_⟩
  · rw [hmain, h0]
    rfl
  · rw [hmain, Bool.and_eq_true, decide_eq_true_eq, Double.ge_iff]
    exact ⟨hpos, le_counts_quotient_value _ _ _ hpos hsig hle⟩
  · rw [hmain, Bool.and_eq_true, decide_eq_true_eq, Double.ge_iff] at hmet
    exact le_trans hmet.2 (counts_quotient_value_le _ _ hmet.1)

/-- A directory with two images, one document and one file of unknown extension.  The
images are two of the three counted files, which reaches the threshold `0.5`, and the
documents one of three, which does not; once the unknown extension has a category the
images are two of four, which is equal to `0.5` and reaches it, and does not reach the
next greater `double`.  In a directory of one image and nine documents the quotient one
tenth, computed as a `double`, is the threshold `0.1` and reaches it, although the exact
quotient is smaller than that threshold and only its enlargement by the rounding error is
not; it does not reach the next greater `double`.  A quotient of zero reaches the threshold
zero and no positive one, a negative threshold is reached by every quotient, and on a
directory without counted files the condition is false for the threshold zero and for a
negative one. -/
theorem file_category_percentage_iff_witness :
    (percentage_entries.filterMap
      (counted_category [(".jpg", "Images"), (".pdf", "Documents")]) =
      ["Images", "Images", "Documents"] ∧
    condition_met
      (collect_facts [(".jpg", "Images"), (".pdf", "Documents")] percentage_entries ⟨[], [], []⟩)
      ⟨"file_category_percentage", ["Images"], threshold_half⟩ = true ∧
    condition_met
      (collect_facts [(".jpg", "Images"), (".pdf", "Documents")] percentage_entries ⟨[], [], []⟩)
      ⟨"file_category_percentage", ["Documents"], threshold_half⟩ = false ∧
    condition_met
      (collect_facts [(".jpg", "Images"), (".pdf", "Documents"), (".xyz", "Other")]
        percentage_entries ⟨[], [], []⟩)
      ⟨"file_category_percentage", ["Images"], threshold_half⟩ = true ∧
    condition_met
      (collect_facts [(".jpg", "Images"), (".pdf", "Documents"), (".xyz", "Other")]
        percentage_entries ⟨[], [], []⟩)
      ⟨"file_category_percentage", ["Images"], ⟨4503599627370497, -53⟩⟩ = false ∧
    counts_quotient 1 2 = ⟨4503599627370496, -53⟩ ∧
    counts_quotient 1 3 = ⟨6004799503160661, -54⟩ ∧
    counts_quotient 2 3 = ⟨6004799503160661, -53⟩ ∧
    counts_quotient 1 10 = ⟨7205759403792794, -56⟩ ∧
    one_in_ten_facts.category_counts = [("Images", 1), ("Documents", 9)] ∧
    condition_met one_in_ten_facts ⟨"file_category_percentage", ["Images"], threshold_tenth⟩ =
      true ∧
    condition_met one_in_ten_facts
      ⟨"file_category_percentage", ["Images"], ⟨3602879701896398, -55⟩⟩ = false ∧
    condition_met one_in_ten_facts ⟨"file_category_percentage", ["Videos"], Threshold.zero⟩ =
      true ∧
    condition_met one_in_ten_facts ⟨"file_category_percentage", ["Videos"], ⟨1, -200⟩⟩ =
      false ∧
    condition_met one_in_ten_facts ⟨"file_category_percentage", ["Videos"], ⟨-1, 0⟩⟩ = true ∧
    condition_met (collect_facts [] percentage_entries ⟨[], [], []⟩)
      ⟨"file_category_percentage", ["Images"], Threshold.zero⟩ = false ∧
    condition_met (collect_facts [] percentage_entries ⟨[], [], []⟩)
      ⟨"file_category_percentage", ["Images"], ⟨-1, 0⟩⟩ = false) ∧
    condition_met
        (collect_facts [(".jpg", "Images"), (".pdf", "Documents")] percentage_entries
          ⟨[], [], []⟩)
        ⟨"file_category_percentage", ["Images"], threshold_half⟩ =
      (decide (0 < (percentage_entries.filterMap
          (counted_category [(".jpg", "Images"), (".pdf", "Documents")])).length) &&
        (counts_quotient
          ((["Images"].map fun name =>
            (percentage_entries.filterMap
              (counted_category [(".jpg", "Images"), (".pdf", "Documents")])).count name).sum)
          (percentage_entries.filterMap
            (counted_category [(".jpg", "Images"), (".pdf", "Documents")])).length).ge
          threshold_half) ∧
    (Double.value ⟨6004799503160661, -53⟩ ≤ (2 : ℚ) / 3 ∧
      condition_met
        (collect_facts [(".jpg", "Images"), (".pdf", "Documents")] percentage_entries
          ⟨[], [], []⟩)
        ⟨"file_category_percentage", ["Images"], ⟨6004799503160661, -53⟩⟩ = true) ∧
    (¬ threshold_tenth.value ≤ (1 : ℚ) / 10 ∧
      threshold_tenth.value ≤ (1 : ℚ) / 10 * (1 + 1 / 2 ^ 53)) :=
  have hlisted : ((["Images"].map fun name =>
      (percentage_entries.filterMap
        (counted_category [(".jpg", "Images"), (".pdf", "Documents")])).count name).sum) = 2 := by
    decide
  have hlength : (percentage_entries.filterMap
      (counted_category [(".jpg", "Images"), (".pdf", "Documents")])).length = 3 := by
    decide
  have hlisted_ten : ((["Images"].map fun name =>
      (one_in_ten_entries.filterMap
        (counted_category [(".jpg", "Images"), (".pdf", "Documents")])).count name).sum) = 1 := by
    decide
  have hlength_ten : (one_in_ten_entries.filterMap
      (counted_category [(".jpg", "Images"), (".pdf", "Documents")])).length = 10 := by
    decide
  have hupper := (file_category_percentage_iff [(".jpg", "Images"), (".pdf", "Documents")]
    one_in_ten_entries ⟨"file_category_percentage", ["Images"], threshold_tenth⟩
    rfl).2.2.2 (by decide)
  ⟨by decide,
    (file_category_percentage_iff [(".jpg", "Images"), (".pdf", "Documents")]
      percentage_entries ⟨"file_category_percentage", ["Images"], threshold_half⟩ rfl).1,
    ⟨by norm_num [Double.value],
      (file_category_percentage_iff [(".jpg", "Images"), (".pdf", "Documents")]
        percentage_entries ⟨"file_category_percentage", ["Images"], ⟨6004799503160661, -53⟩⟩
        rfl).2.2.1 (by decide) (by decide) (by
          simp only [hlisted, hlength]
          norm_num [Double.value])⟩,
    ⟨by norm_num [Double.value, threshold_tenth], by
      simp only [hlisted_ten, hlength_ten] at hupper
      simpa using hupper⟩⟩

/-! ## C20 -/

/-- C20 fails on the code: the facts collected about a directory are always those of its
own entries, also when its only entry is a directory.  `bundle` has exactly one entry, the
directory `app`, which holds `package.json`: the facts used are those of `bundle` (the
subdirectory `app` and no file), the rule of scenario C is not selected and there is no
action, where the claim has the facts of `app` and the action to `Projects/bundle`; and a
rule that asks for a subdirectory named `app` is selected, where the claim has it fail. -/
theorem wrapper_is_not_unwrapped :
    (∀ (self : RuleEngine) (fs : FileSystem) (path : Path),
      collected_facts self fs path =
        (fs.directory_iterator path).map fun entries =>
          collect_facts self.m_config.categories entries ⟨[], [], []⟩) ∧
    (wrapper_fs.directory_iterator "/tmp/t/bundle").map
      (fun entries => entries.map fun e => (e.path, e.is_directory)) =
      some [(Path.mk "/tmp/t/bundle/app", true)] ∧
    (wrapper_fs.directory_iterator "/tmp/t/bundle/app").map
      (fun entries => collect_facts [] entries ⟨[], [], []⟩) =
      some ⟨["package.json"], [], []⟩ ∧
    collected_facts scenario_c_engine wrapper_fs "/tmp/t/bundle" = some ⟨[], ["app"], []⟩ ∧
    directory_rules_loop ⟨["package.json"], [], []⟩ [scenario_c_rule] "" = "Projects" ∧
    generate_action_for_path scenario_c_engine wrapper_fs "/tmp/t/bundle" "/tmp/t" = none ∧
    directory_rules_loop ⟨["package.json"], [], []⟩ [subdirectory_rule] "" = "" ∧
    generate_action_for_path ⟨⟨[], [subdirectory_rule]⟩⟩ wrapper_fs "/tmp/t/bundle" "/tmp/t" =
      some ⟨"/tmp/t/bundle", "/tmp/t/Projects/bundle", "Projects"⟩ := by
  refine ⟨?_, by decide, by decide, by decide, by decide, by decide, by decide, by decide⟩
  intro self fs path
  unfold collected_facts
  cases h : fs.directory_iterator path with
  | none => rfl
  | some entries =>
    simp only [choose_path_to_analyze_eq, h, Option.map_some']

/-! ## C21 -/

theorem condition_met_of_unknown_type (facts : DirectoryFacts) (cond : Condition)
    (h : cond.type ∉ directory_condition_types) : condition_met facts cond = false := by
  simp only [directory_condition_types, List.mem_cons, List.mem_singleton, List.not_mem_nil,
    or_false, not_or] at h
  obtain ⟨h1, h2, h3, h4, h5, h6⟩ := h
  unfold condition_met
  rw [if_neg h1, if_neg h2, if_neg h3, if_neg h4, if_neg h5, if_neg h6]

theorem all_conditions_met_of_unmet (facts : DirectoryFacts) :
    ∀ conditions : List Condition,
      (∃ cond ∈ conditions, condition_met facts cond = false) →
      all_conditions_met facts conditions = false := by
  intro conditions
  induction conditions with
  | nil => rintro ⟨cond, hc, -⟩; exact absurd hc (List.not_mem_nil _)
  | cons c rest ih =>
    rintro ⟨cond, hc, hmet⟩
    unfold all_conditions_met
    by_cases h : condition_met facts c = true
    · rw [if_pos h]
      rcases List.mem_cons.mp hc with e | hin
      · rw [e, h] at hmet
        exact absurd hmet (by simp)
      · exact ih ⟨cond, hin, hmet⟩
    · rw [if_neg h]

theorem directory_rules_loop_filter (facts : DirectoryFacts) (keep : Rule → Bool)
    (hkeep : ∀ rule, keep rule = false → all_conditions_met facts rule.conditions = false)
    (categoryName : String) :
    ∀ rules : List Rule,
      directory_rules_loop facts rules categoryName =
        directory_rules_loop facts (rules.filter keep) categoryName := by
  intro rules
  induction rules with
  | nil => rfl
  | cons rule rest ih =>
    by_cases hk : keep rule = true
    · rw [List.filter_cons_of_pos hk]
      unfold directory_rules_loop
      rw [ih]
    · have hk' : keep rule = false := by simpa using hk
      rw [List.filter_cons_of_neg hk]
      conv_lhs => unfold directory_rules_loop
      rw [hkeep rule hk', ← ih]
      simp

/-- C21: on the facts of any directory, a condition whose type is none of the six types
of the directory branch is not met; a rule with such a condition among its conditions,
whatever the others are, does not have all its conditions met; and the category found for
the directory is the one found without such rules.  `exif_date_matches` is not one of the
six types. -/
theorem unknown_condition_never_matches (facts : DirectoryFacts) :
    (∀ cond : Condition, cond.type ∉ directory_condition_types →
      condition_met facts cond = false) ∧
    (∀ rule : Rule, (∃ cond ∈ rule.conditions, cond.type ∉ directory_condition_types) →
      all_conditions_met facts rule.conditions = false) ∧
    (∀ (rules : List Rule) (categoryName : String),
      directory_rules_loop facts rules categoryName =
        directory_rules_loop facts
          (rules.filter fun rule =>
            rule.conditions.all fun cond => decide (cond.type ∈ directory_condition_types))
          categoryName) ∧
    "exif_date_matches" ∉ directory_condition_types := by
  have hrule : ∀ rule : Rule,
      (∃ cond ∈ rule.conditions, cond.type ∉ directory_condition_types) →
      all_conditions_met facts rule.conditions = false := by
    rintro rule ⟨cond, hc, ht⟩
    exact all_conditions_met_of_unmet facts _ ⟨cond, hc, condition_met_of_unknown_type facts cond ht⟩
  refine ⟨condition_met_of_unknown_type facts, hrule, ?_, by decide⟩
  intro rules categoryName
  apply directory_rules_loop_filter
  intro rule hk
  apply hrule
  rw [← Bool.not_eq_true, List.all_eq_true] at hk
  push_neg at hk
  obtain ⟨cond, hc, ht⟩ := hk
  exact ⟨cond, hc, by simpa using ht⟩

/-- The directory of scenario C holds `package.json`: the rule of scenario C gives the
action to `Projects`, and the same rule with one more condition, of the type for images
or of a misspelled type, gives no action. -/
theorem unknown_condition_never_matches_witness :
    generate_action_for_path scenario_c_engine scenario_c_fs "/tmp/t/my-web-app" "/tmp/t" =
      some ⟨"/tmp/t/my-web-app", "/tmp/t/Projects/my-web-app", "Projects"⟩ ∧
    generate_action_for_path ⟨⟨[], [image_condition_rule]⟩⟩ scenario_c_fs "/tmp/t/my-web-app"
      "/tmp/t" = none ∧
    generate_action_for_path ⟨⟨[], [misspelled_condition_rule]⟩⟩ scenario_c_fs
      "/tmp/t/my-web-app" "/tmp/t" = none ∧
    condition_met ⟨["package.json"], [], []⟩
      ⟨"contains_filename", ["package.json"], Threshold.zero⟩ = true ∧
    all_conditions_met ⟨["package.json"], [], []⟩ misspelled_condition_rule.conditions = false ∧
    all_conditions_met ⟨["package.json"], [], []⟩ image_condition_rule.conditions = false :=
  ⟨by decide, by decide, by decide, by decide,
    (unknown_condition_never_matches ⟨["package.json"], [], []⟩).2.1 misspelled_condition_rule
      ⟨⟨"has_no_subdirectory", [], Threshold.zero⟩, by simp [misspelled_condition_rule],
        by decide⟩,
    by decide⟩

end Organizer
